import Mathlib

/-
Shallow embedding of the asynchronous risk-result composition and indexing engine of
gs_quant/risk/results.py: the classes PricingFuture, CompositeResultFuture,
MultipleRiskMeasureResult, MultipleRiskMeasureFuture, HistoricalPricingFuture,
PortfolioPath and PortfolioRiskResult, and the free functions _compose,
_value_for_date, _risk_keys_compatible and _value_for_risk_measure.

Modelling conventions:
* Futures are modelled in their resolved state: a PricingFuture holds its result value
  directly.  Waiting, timeouts and completion callbacks are concurrency aspects outside
  the shallow embedding; every operation below acts on resolved values, as the source
  operations do once their result() calls return.
* Python float payloads are modelled as Int (the claims under study depend only on
  exact arithmetic and equality of payloads, never on rounding).
* Dates, risk-measure identities, instrument identities and the risk-measure-excluded
  provenance of a risk key are modelled as Nat tokens.
* A raised Python exception is Except.error; an exception object that the source code
  RETURNS as a value (which happens in several __add__/__mul__ branches) is the
  ordinary value RV.exn.
* One universal value type RV plays the role of Python's dynamic typing: every
  isinstance dispatch in the source becomes a constructor match.
-/

namespace GsQuant

/-- The part of a RiskKey that the engine inspects: the date axis of the result
(`risk_key.date`) and a token `exm` standing for the risk-measure-excluded provenance
(provider, market location, parameters, scenario). -/
structure RKey where
  dates : List Nat
  exm : Nat
deriving DecidableEq, Repr

/-- Python exception classes raised (or returned) by the engine. -/
inductive PyErr where
  | valueError (msg : String)
  | keyError (msg : String)
  | runtimeError (msg : String)
  | typeError (msg : String)
deriving DecidableEq, Repr

/-- An entry of a (possibly nested) portfolio: an instrument identity or a
sub-portfolio.  Modelled from the spec: the Portfolio class itself lives in
gs_quant.markets.portfolio, outside risk/results.py; the spec describes it as the
"portfolio shape collaborator" exposing ordered iteration over possibly nested
entries, a paths lookup returning all matches, and stable instrument identity. -/
inductive PEntry where
  | inst (i : Nat)
  | port (entries : List PEntry)

/-- The universal value type: result values, futures and trees.
scalar/series/err model ScalarWithInfo (FloatWithInfo), SeriesWithInfo and ErrorValue;
num models a plain Python number; exn an exception object used as a value;
mrm a MultipleRiskMeasureResult (instrument plus measure-to-value mapping);
pf a resolved PricingFuture; mrmf a MultipleRiskMeasureFuture (measure-to-future
mapping, insertion order preserved); prr a PortfolioRiskResult (portfolio shape,
risk-measure tuple, child futures). -/
inductive RV where
  | scalar (value : Int) (key : RKey)
  | series (vals : List (Nat × Int)) (key : RKey)
  | err (key : RKey)
  | num (n : Int)
  | exn (e : PyErr)
  | mrm (inst : Nat) (vals : List (Nat × RV))
  | pf (v : RV)
  | mrmf (inst : Nat) (vals : List (Nat × RV))
  | prr (portfolio : List PEntry) (measures : List Nat) (futures : List RV)

mutual

def PEntry.beq : PEntry → PEntry → Bool
  | .inst i, .inst j => i == j
  | .port es, .port fs => PEntry.beqList es fs
  | _, _ => false

def PEntry.beqList : List PEntry → List PEntry → Bool
  | [], [] => true
  | a :: as, b :: bs => PEntry.beq a b && PEntry.beqList as bs
  | _, _ => false

end

mutual

def PEntry.beq_iff : (a b : PEntry) → (PEntry.beq a b = true ↔ a = b)
  | .inst i, .inst j => by simp [PEntry.beq]
  | .inst _, .port _ => by simp [PEntry.beq]
  | .port _, .inst _ => by simp [PEntry.beq]
  | .port es, .port fs => by simp [PEntry.beq, PEntry.beqList_iff es fs]

def PEntry.beqList_iff : (as bs : List PEntry) → (PEntry.beqList as bs = true ↔ as = bs)
  | [], [] => by simp [PEntry.beqList]
  | [], _ :: _ => by simp [PEntry.beqList]
  | _ :: _, [] => by simp [PEntry.beqList]
  | a :: as, b :: bs => by
      simp [PEntry.beqList, PEntry.beq_iff a b, PEntry.beqList_iff as bs, and_comm]

end

instance : DecidableEq PEntry := fun a b => decidable_of_iff _ (PEntry.beq_iff a b)

instance : DecidableEq (List PEntry) := fun as bs => decidable_of_iff _ (PEntry.beqList_iff as bs)

mutual

def RV.beq : RV → RV → Bool
  | .scalar v1 k1, .scalar v2 k2 => v1 == v2 && k1 == k2
  | .series s1 k1, .series s2 k2 => s1 == s2 && k1 == k2
  | .err k1, .err k2 => k1 == k2
  | .num n1, .num n2 => n1 == n2
  | .exn e1, .exn e2 => e1 == e2
  | .mrm i1 vs1, .mrm i2 vs2 => i1 == i2 && RV.beqPairs vs1 vs2
  | .pf v1, .pf v2 => RV.beq v1 v2
  | .mrmf i1 vs1, .mrmf i2 vs2 => i1 == i2 && RV.beqPairs vs1 vs2
  | .prr p1 m1 f1, .prr p2 m2 f2 => PEntry.beqList p1 p2 && m1 == m2 && RV.beqList f1 f2
  | _, _ => false

def RV.beqPairs : List (Nat × RV) → List (Nat × RV) → Bool
  | [], [] => true
  | (k1, v1) :: as, (k2, v2) :: bs => k1 == k2 && RV.beq v1 v2 && RV.beqPairs as bs
  | _, _ => false

def RV.beqList : List RV → List RV → Bool
  | [], [] => true
  | a :: as, b :: bs => RV.beq a b && RV.beqList as bs
  | _, _ => false

end

mutual

def RV.beq_iff : (a b : RV) → (RV.beq a b = true ↔ a = b)
  | .scalar v1 k1, .scalar v2 k2 => by simp [RV.beq]
  | .series s1 k1, .series s2 k2 => by simp [RV.beq]
  | .err k1, .err k2 => by simp [RV.beq]
  | .num n1, .num n2 => by simp [RV.beq]
  | .exn e1, .exn e2 => by simp [RV.beq]
  | .mrm i1 vs1, .mrm i2 vs2 => by simp [RV.beq, RV.beqPairs_iff vs1 vs2]
  | .pf v1, .pf v2 => by simp [RV.beq, RV.beq_iff v1 v2]
  | .mrmf i1 vs1, .mrmf i2 vs2 => by simp [RV.beq, RV.beqPairs_iff vs1 vs2]
  | .prr p1 m1 f1, .prr p2 m2 f2 => by
      simp [RV.beq, PEntry.beqList_iff p1 p2, RV.beqList_iff f1 f2, and_assoc]
  | .scalar _ _, .series _ _ => by simp [RV.beq]
  | .scalar _ _, .err _ => by simp [RV.beq]
  | .scalar _ _, .num _ => by simp [RV.beq]
  | .scalar _ _, .exn _ => by simp [RV.beq]
  | .scalar _ _, .mrm _ _ => by simp [RV.beq]
  | .scalar _ _, .pf _ => by simp [RV.beq]
  | .scalar _ _, .mrmf _ _ => by simp [RV.beq]
  | .scalar _ _, .prr _ _ _ => by simp [RV.beq]
  | .series _ _, .scalar _ _ => by simp [RV.beq]
  | .series _ _, .err _ => by simp [RV.beq]
  | .series _ _, .num _ => by simp [RV.beq]
  | .series _ _, .exn _ => by simp [RV.beq]
  | .series _ _, .mrm _ _ => by simp [RV.beq]
  | .series _ _, .pf _ => by simp [RV.beq]
  | .series _ _, .mrmf _ _ => by simp [RV.beq]
  | .series _ _, .prr _ _ _ => by simp [RV.beq]
  | .err _, .scalar _ _ => by simp [RV.beq]
  | .err _, .series _ _ => by simp [RV.beq]
  | .err _, .num _ => by simp [RV.beq]
  | .err _, .exn _ => by simp [RV.beq]
  | .err _, .mrm _ _ => by simp [RV.beq]
  | .err _, .pf _ => by simp [RV.beq]
  | .err _, .mrmf _ _ => by simp [RV.beq]
  | .err _, .prr _ _ _ => by simp [RV.beq]
  | .num _, .scalar _ _ => by simp [RV.beq]
  | .num _, .series _ _ => by simp [RV.beq]
  | .num _, .err _ => by simp [RV.beq]
  | .num _, .exn _ => by simp [RV.beq]
  | .num _, .mrm _ _ => by simp [RV.beq]
  | .num _, .pf _ => by simp [RV.beq]
  | .num _, .mrmf _ _ => by simp [RV.beq]
  | .num _, .prr _ _ _ => by simp [RV.beq]
  | .exn _, .scalar _ _ => by simp [RV.beq]
  | .exn _, .series _ _ => by simp [RV.beq]
  | .exn _, .err _ => by simp [RV.beq]
  | .exn _, .num _ => by simp [RV.beq]
  | .exn _, .mrm _ _ => by simp [RV.beq]
  | .exn _, .pf _ => by simp [RV.beq]
  | .exn _, .mrmf _ _ => by simp [RV.beq]
  | .exn _, .prr _ _ _ => by simp [RV.beq]
  | .mrm _ _, .scalar _ _ => by simp [RV.beq]
  | .mrm _ _, .series _ _ => by simp [RV.beq]
  | .mrm _ _, .err _ => by simp [RV.beq]
  | .mrm _ _, .num _ => by simp [RV.beq]
  | .mrm _ _, .exn _ => by simp [RV.beq]
  | .mrm _ _, .pf _ => by simp [RV.beq]
  | .mrm _ _, .mrmf _ _ => by simp [RV.beq]
  | .mrm _ _, .prr _ _ _ => by simp [RV.beq]
  | .pf _, .scalar _ _ => by simp [RV.beq]
  | .pf _, .series _ _ => by simp [RV.beq]
  | .pf _, .err _ => by simp [RV.beq]
  | .pf _, .num _ => by simp [RV.beq]
  | .pf _, .exn _ => by simp [RV.beq]
  | .pf _, .mrm _ _ => by simp [RV.beq]
  | .pf _, .mrmf _ _ => by simp [RV.beq]
  | .pf _, .prr _ _ _ => by simp [RV.beq]
  | .mrmf _ _, .scalar _ _ => by simp [RV.beq]
  | .mrmf _ _, .series _ _ => by simp [RV.beq]
  | .mrmf _ _, .err _ => by simp [RV.beq]
  | .mrmf _ _, .num _ => by simp [RV.beq]
  | .mrmf _ _, .exn _ => by simp [RV.beq]
  | .mrmf _ _, .mrm _ _ => by simp [RV.beq]
  | .mrmf _ _, .pf _ => by simp [RV.beq]
  | .mrmf _ _, .prr _ _ _ => by simp [RV.beq]
  | .prr _ _ _, .scalar _ _ => by simp [RV.beq]
  | .prr _ _ _, .series _ _ => by simp [RV.beq]
  | .prr _ _ _, .err _ => by simp [RV.beq]
  | .prr _ _ _, .num _ => by simp [RV.beq]
  | .prr _ _ _, .exn _ => by simp [RV.beq]
  | .prr _ _ _, .mrm _ _ => by simp [RV.beq]
  | .prr _ _ _, .pf _ => by simp [RV.beq]
  | .prr _ _ _, .mrmf _ _ => by simp [RV.beq]

def RV.beqPairs_iff : (as bs : List (Nat × RV)) → (RV.beqPairs as bs = true ↔ as = bs)
  | [], [] => by simp [RV.beqPairs]
  | [], _ :: _ => by simp [RV.beqPairs]
  | _ :: _, [] => by simp [RV.beqPairs]
  | (k1, v1) :: as, (k2, v2) :: bs => by
      simp [RV.beqPairs, RV.beq_iff v1 v2, RV.beqPairs_iff as bs]

def RV.beqList_iff : (as bs : List RV) → (RV.beqList as bs = true ↔ as = bs)
  | [], [] => by simp [RV.beqList]
  | [], _ :: _ => by simp [RV.beqList]
  | _ :: _, [] => by simp [RV.beqList]
  | a :: as, b :: bs => by simp [RV.beqList, RV.beq_iff a b, RV.beqList_iff as bs]

end

instance : DecidableEq RV := fun a b => decidable_of_iff _ (RV.beq_iff a b)

instance {α β : Type} [DecidableEq α] [DecidableEq β] : DecidableEq (Except α β) :=
  fun a b =>
    match a, b with
    | .ok x, .ok y => decidable_of_iff (x = y) (by simp)
    | .error e, .error f => decidable_of_iff (e = f) (by simp)
    | .ok _, .error _ => isFalse (by simp)
    | .error _, .ok _ => isFalse (by simp)

/-- Stable insertion of a dated point into a date-sorted association list. -/
def insortD (x : Nat × Int) : List (Nat × Int) → List (Nat × Int)
  | [] => [x]
  | y :: ys => if x.1 ≤ y.1 then x :: y :: ys else y :: insortD x ys

/-- pandas sort_index on a date-indexed series: stable sort, ascending by date. -/
def sortIndex (s : List (Nat × Int)) : List (Nat × Int) := s.foldr insortD []

/-- Union keeping first occurrences: models the iteration order of python's
dict/set insertion semantics for set(chain(a, b)) and index unions. -/
def dedupFirst : List Nat → List Nat
  | [] => []
  | k :: ks => k :: (dedupFirst ks).filter (fun k2 => k2 ≠ k)

/-- Ascending insertion for a list of dates. -/
def insortN (x : Nat) : List Nat → List Nat
  | [] => [x]
  | y :: ys => if x ≤ y then x :: y :: ys else y :: insortN x ys

/-- python sorted() on a list of dates. -/
def sortNat (l : List Nat) : List Nat := l.foldr insortN []

/-- pandas Series.combine_first: the calling series' value wins wherever it has a
date, the argument fills the remaining dates; the result carries the union of the
two date axes in ascending order. -/
def combineFirst (a b : List (Nat × Int)) : List (Nat × Int) :=
  sortIndex ((dedupFirst (a.map Prod.fst ++ b.map Prod.fst)).map
    (fun d => (d, match a.lookup d with
      | some v => v
      | none => (b.lookup d).getD 0)))

/-- set(a).isdisjoint(b). -/
def listDisjoint (a b : List Nat) : Bool := a.all (fun x => !b.contains x)

def keysOf (l : List (Nat × RV)) : List Nat := l.map Prod.fst

/-- Mapping update with dict semantics: overwrite in place if the key exists,
else append at the end (insertion order preserved). -/
def assocSet (l : List (Nat × RV)) (k : Nat) (v : RV) : List (Nat × RV) :=
  if l.any (fun kv => kv.1 == k) then
    l.map (fun kv => if kv.1 == k then (k, v) else kv)
  else l ++ [(k, v)]

/-- Modelled from the spec: ScalarWithInfo.compose is defined in gs_quant.risk,
outside risk/results.py.  Per the spec (a HistoricalTask "aggregates several dated
AsyncTasks ... by concatenating along the date axis"), composing a collection of
dated scalar results yields a Series over those dates; entries that are not scalars
carry no dated point and contribute nothing; the result's key carries the collected
dates and the provenance of the first entry. -/
def scalarCompose (xs : List RV) : RV :=
  let pts := xs.filterMap (fun x => match x with
    | .scalar v k => some (k.dates.headD 0, v)
    | _ => none)
  let exm := match xs.head? with
    | some (.scalar _ k) => k.exm
    | _ => 0
  .series (sortIndex pts) ⟨(sortIndex pts).map Prod.fst, exm⟩

/-- The while-loops of _risk_keys_compatible: descend into the first value of nested
MultipleRiskMeasureResults.  next(iter(...)) of an empty mapping raises StopIteration. -/
def RV.unwrapFirst : RV → Except PyErr RV
  | .mrm _ [] => .error (.runtimeError "StopIteration")
  | .mrm _ ((_, v) :: _) => RV.unwrapFirst v
  | x => .ok x

/-- Attribute access result.risk_key (only the WithInfo value classes carry one). -/
def RV.riskKeyOf : RV → Except PyErr RKey
  | .scalar _ k => .ok k
  | .series _ k => .ok k
  | .err k => .ok k
  | _ => .error (.typeError "object has no attribute risk_key")

/-- Modelled from the spec: historical_risk_key lives in gs_quant.markets, outside
risk/results.py.  It generalises a risk key's date to the whole historical range, and
ex_measure then drops the risk-measure identity, leaving the provenance key (provider,
market location, parameters, scenario) that the spec says must match for results to be
composable; that residual identity is the token exm. -/
def histExMeasure (k : RKey) : Nat := k.exm

/-- _risk_keys_compatible (risk/results.py lines 98-107). -/
def riskKeysCompatible (lhs rhs : RV) : Except PyErr Bool := do
  let l ← (← RV.unwrapFirst lhs).riskKeyOf
  let r ← (← RV.unwrapFirst rhs).riskKeyOf
  pure (histExMeasure l == histExMeasure r)

/-- The dates property of MultipleRiskMeasureResult: the sorted union of the date
axes of all series/frame values. -/
def mrmDates (vals : List (Nat × RV)) : List Nat :=
  sortNat (dedupFirst (vals.foldr (fun kv acc => (match kv.2 with
    | .series s _ => s.map Prod.fst
    | _ => []) ++ acc) []))

mutual

/-- _compose (risk/results.py lines 33-57).  The DataFrame branch is not modelled:
the claims under study never build table results.  The branch for two
MultipleRiskMeasureResults delegates to MultipleRiskMeasureResult.__add__, which in
turn composes per-measure values with _compose again; the fuel argument bounds this
mutual recursion (python's own recursion limit) and the wrappers below always supply
enough of it for the values at hand. -/
def composeF (fuel : Nat) (lhs rhs : RV) : Except PyErr RV :=
  match fuel with
  | 0 => .error (.runtimeError "maximum recursion depth exceeded")
  | f + 1 =>
    match lhs, rhs with
    | .scalar v1 k1, .scalar v2 k2 =>
        if k1.dates = k2.dates then .ok (.scalar v2 k2)
        else .ok (scalarCompose [.scalar v1 k1, .scalar v2 k2])
    | .scalar v1 k1, .series s2 _ =>
        match scalarCompose [.scalar v1 k1] with
        | .series s1 k1' => .ok (.series (sortIndex (combineFirst s1 s2)) k1')
        | x => .ok x
    | .series s1 _, .series s2 k2 => .ok (.series (sortIndex (combineFirst s2 s1)) k2)
    | .series s1 _, .scalar v2 k2 =>
        match scalarCompose [.scalar v2 k2] with
        | .series s2 k2' => .ok (.series (sortIndex (combineFirst s2 s1)) k2')
        | x => .ok x
    | .mrm i1 vs1, .mrm i2 vs2 => mrmAddF f i1 vs1 i2 vs2
    | _, _ => .error (.runtimeError "cannot be composed")

/-- MultipleRiskMeasureResult.__add__ with another MultipleRiskMeasureResult
(risk/results.py lines 225-253). -/
def mrmAddF (fuel : Nat) (i1 : Nat) (vs1 : List (Nat × RV)) (i2 : Nat)
    (vs2 : List (Nat × RV)) : Except PyErr RV :=
  match fuel with
  | 0 => .error (.runtimeError "maximum recursion depth exceeded")
  | f + 1 => do
    let compat ← riskKeysCompatible (.mrm i1 vs1) (.mrm i2 vs2)
    if !compat then .error (.valueError "Results must have matching scenario and location")
    else
      let instrumentsEqual := i1 == i2
      if !listDisjoint (keysOf vs1) (keysOf vs2) && instrumentsEqual
          && !listDisjoint (mrmDates vs1) (mrmDates vs2) then
        .error (.valueError "Results overlap on risk measures, instruments or dates")
      else
        let allKeys := dedupFirst (keysOf vs1 ++ keysOf vs2)
        if !instrumentsEqual then
          -- Portfolio((inst1, inst2)) with one MultipleRiskMeasureFuture per side; a
          -- measure missing from one side becomes a None future, which
          -- CompositeResultFuture.__init__ rejects (None has no done()).
          if allKeys.all (fun k => (vs1.lookup k).isSome) &&
              allKeys.all (fun k => (vs2.lookup k).isSome) then
            .ok (.prr [.inst i1, .inst i2] allKeys
              [.mrmf i1 (allKeys.filterMap (fun k => (vs1.lookup k).map (fun v => (k, .pf v)))),
               .mrmf i2 (allKeys.filterMap (fun k => (vs2.lookup k).map (fun v => (k, .pf v))))])
          else .error (.typeError "NoneType object has no attribute done")
        else do
          let merged ← mrmMergeSideF f [] vs1 allKeys
          let merged ← mrmMergeSideF f merged vs2 allKeys
          .ok (.mrm i1 merged)

/-- The merge loop of MultipleRiskMeasureResult.__add__ for one operand (lines
247-251): walk all_keys; a key already present in the accumulator is composed with
the new value (dict overwrite in place), a new key is appended. -/
def mrmMergeSideF (fuel : Nat) (acc : List (Nat × RV)) (side : List (Nat × RV))
    (keys : List Nat) : Except PyErr (List (Nat × RV)) :=
  match fuel with
  | 0 => .error (.runtimeError "maximum recursion depth exceeded")
  | f + 1 =>
    match keys with
    | [] => .ok acc
    | k :: ks =>
      match side.lookup k with
      | none => mrmMergeSideF f acc side ks
      | some v =>
        match acc.lookup k with
        | none => mrmMergeSideF f (acc ++ [(k, v)]) side ks
        | some prev => do
            let c ← composeF f prev v
            mrmMergeSideF f (assocSet acc k c) side ks

end

mutual

/-- Structural size of a value, used to hand each fueled operation a recursion
bound that is always sufficient. -/
def RV.msize : RV → Nat
  | .mrm _ vals => 1 + RV.msizePairs vals
  | .pf v => 1 + RV.msize v
  | .mrmf _ vals => 1 + RV.msizePairs vals
  | .prr _ _ fs => 1 + RV.msizeList fs
  | _ => 1

def RV.msizePairs : List (Nat × RV) → Nat
  | [] => 0
  | (_, v) :: rest => 1 + RV.msize v + RV.msizePairs rest

def RV.msizeList : List RV → Nat
  | [] => 0
  | v :: rest => 1 + RV.msize v + RV.msizeList rest

end

/-- _compose with the recursion bound supplied (always sufficient for finite values). -/
def composeRV (lhs rhs : RV) : Except PyErr RV :=
  composeF (2 * (lhs.msize + rhs.msize) + 4) lhs rhs

/-- MultipleRiskMeasureResult.__add__ with the recursion bound supplied. -/
def mrmAdd (i1 : Nat) (vs1 : List (Nat × RV)) (i2 : Nat) (vs2 : List (Nat × RV)) :
    Except PyErr RV :=
  mrmAddF (2 * (RV.msizePairs vs1 + RV.msizePairs vs2) + 4) i1 vs1 i2 vs2

mutual

/-- Modelled from the spec: Portfolio.all_instruments — the instruments of a
possibly nested portfolio in iteration order. -/
def PEntry.instruments : PEntry → List Nat
  | .inst i => [i]
  | .port es => PEntry.instrumentsList es

def PEntry.instrumentsList : List PEntry → List Nat
  | [] => []
  | e :: es => PEntry.instruments e ++ PEntry.instrumentsList es

end

mutual

/-- Modelled from the spec: Portfolio.all_paths — one PortfolioPath per leaf
instrument, depth-first in portfolio order, starting at top-level position j. -/
def allPathsFrom : Nat → List PEntry → List (List Nat)
  | _, [] => []
  | j, e :: es => PEntry.ownPaths j e ++ allPathsFrom (j + 1) es

def PEntry.ownPaths : Nat → PEntry → List (List Nat)
  | j, .inst _ => [[j]]
  | j, .port es2 => (allPathsFrom 0 es2).map (fun q => j :: q)

end

mutual

/-- Modelled from the spec: Portfolio.paths(identifier) — all PortfolioPath matches
for an entry (an instrument identity or a sub-portfolio), searched depth-first. -/
def pathsToEntryFrom (tgt : PEntry) : Nat → List PEntry → List (List Nat)
  | _, [] => []
  | j, e :: es => PEntry.matchPaths tgt j e ++ pathsToEntryFrom tgt (j + 1) es

def PEntry.matchPaths (tgt : PEntry) : Nat → PEntry → List (List Nat)
  | j, .inst i => if PEntry.inst i = tgt then [[j]] else []
  | j, .port es2 =>
      if PEntry.port es2 = tgt then [[j]]
      else (pathsToEntryFrom tgt 0 es2).map (fun q => j :: q)

end

mutual

/-- PricingFuture.result for a resolved future: a PricingFuture returns its stored
value, a MultipleRiskMeasureFuture returns the MultipleRiskMeasureResult assembled
by its _set_result (lines 339-342), and PortfolioRiskResult.result returns the tree
itself (lines 573-575).  On a plain value (never a future in the source) this is the
identity. -/
def RV.result : RV → RV
  | .pf v => v
  | .mrmf i vals => .mrm i (RV.resultPairs vals)
  | x => x

def RV.resultPairs : List (Nat × RV) → List (Nat × RV)
  | [] => []
  | (k, f) :: rest => (k, RV.result f) :: RV.resultPairs rest

end

/-- The futures property of a CompositeResultFuture (for a MultipleRiskMeasureFuture
the ordered values of measures_to_futures). -/
def RV.futuresOf : RV → List RV
  | .mrmf _ vals => vals.map Prod.snd
  | .prr _ _ fs => fs
  | _ => []

/-- isinstance(x, CompositeResultFuture). -/
def RV.isComposite : RV → Bool
  | .mrmf _ _ => true
  | .prr _ _ _ => true
  | _ => false

/-- isinstance(x, PricingFuture). -/
def RV.isFuture : RV → Bool
  | .pf _ => true
  | .mrmf _ _ => true
  | .prr _ _ _ => true
  | _ => false

/-- One hop of PortfolioPath.__call__ (lines 392-398): a composite future is indexed
through its futures tuple, anything else through its own __getitem__ (an integer key
on a result mapping misses, and a plain future is not subscriptable). -/
def pathTargetStep (t : RV) (e : Nat) : Except PyErr RV :=
  if t.isComposite then
    match t.futuresOf.get? e with
    | some x => .ok x
    | none => .error (.keyError "tuple index out of range")
  else
    match t with
    | .mrm _ _ => .error (.keyError "an integer is not a risk measure key")
    | _ => .error (.typeError "object is not subscriptable")

def pathCallAux : List Nat → RV → Except PyErr RV
  | [], t => .ok t
  | e :: rest, t => do
      let t' ← pathTargetStep t e
      let t'' := if t'.isFuture && !rest.isEmpty then t'.result else t'
      pathCallAux rest t''

/-- PortfolioPath.__call__ applied to a futures tuple (lines 388-404, as used by
PortfolioRiskResult.__result: res = path(self.futures)): walk the indices, resolving
intermediate futures whenever path remains. -/
def pathCall (path : List Nat) (fs : List RV) : Except PyErr RV :=
  match path with
  | [] => .error (.runtimeError "empty portfolio path")
  | e :: rest => do
      let t ← (match fs.get? e with
        | some x => Except.ok x
        | none => Except.error (PyErr.keyError "tuple index out of range"))
      let t' := if t.isFuture && !rest.isEmpty then t.result else t
      pathCallAux rest t'

/-- The measure-pinning tail of PortfolioRiskResult.__result (lines 716-720): pin
the risk measure when the tree is single-measure (or one was requested) and the
resolved value is a measure mapping or a nested tree. -/
def pinStep (ms : List Nat) (rm? : Option Nat) (res : RV) : Except PyErr RV :=
  let pin := if ms.length == 1 && rm?.isNone then some (ms.headD 0) else rm?
  match pin, res with
  | some m, .mrm _ vals =>
      (match vals.lookup m with
       | some v => .ok v
       | none => .error (.keyError "risk measure"))
  | some m, .prr _ ms' _ =>
      -- res[risk_measure] on a nested PortfolioRiskResult is a measure slice; it is
      -- reached only when the enclosing tree is single-measure, and a tree mirroring
      -- its portfolio is then single-measure throughout, so the slice returns it as is
      if !ms'.contains m then .error (.valueError "not computed")
      else if ms'.length == 1 then .ok res
      else .error (.runtimeError "nested multi-measure slice below a single-measure tree")
  | _, _ => .ok res

/-- PortfolioRiskResult.__result (lines 713-720): resolve the future at the path,
then pin the risk measure. -/
def prrResultAt (ms : List Nat) (fs : List RV) (path : List Nat) (rm? : Option Nat) :
    Except PyErr RV := do
  let res := (← pathCall path fs).result
  pinStep ms rm? res

/-- PortfolioRiskResult.__results for a single (non-slice) item (lines 703-711):
the first matching path wins; no match is a KeyError. -/
def prrResultsFor (ms : List Nat) (fs : List RV) (paths : List (List Nat)) :
    Except PyErr RV :=
  match paths with
  | [] => .error (.keyError "item not in portfolio")
  | path :: _ => prrResultAt ms fs path none

/-- tree[priceable] for an instrument or sub-portfolio entry: __paths via
Portfolio.paths, then __results. -/
def prrGetEntry (p : List PEntry) (ms : List Nat) (fs : List RV) (e : PEntry) :
    Except PyErr RV :=
  prrResultsFor ms fs (pathsToEntryFrom e 0 p)

/-- _value_for_date (lines 60-95) for a single date on a SeriesWithInfo: pandas loc
picks the value at that date (KeyError when absent); the result is a FloatWithInfo
whose risk key carries the requested date and the same residual provenance. -/
def valueForDate (r : RV) (d : Nat) : Except PyErr RV :=
  match r with
  | .series s k =>
      (match s.lookup d with
       | some v => .ok (.scalar v ⟨[d], k.exm⟩)
       | none => .error (.keyError "date not in index"))
  | _ => .error (.typeError "value is not date-indexed")

/-- isinstance(v, (DataFrameWithInfo, SeriesWithInfo)). -/
def isDateIndexed : RV → Bool
  | .series _ _ => true
  | _ => false

/-- MultipleRiskMeasureResult.__getitem__ for a date key (lines 206-212): re-slice
every value by the date when all values are series/frames, else ValueError. -/
def mrmGetDate (inst : Nat) (vals : List (Nat × RV)) (d : Nat) : Except PyErr RV :=
  if vals.all (fun kv => isDateIndexed kv.2) then do
    let pairs ← vals.mapM (fun kv => do
      let v ← valueForDate kv.2 d
      pure (kv.1, v))
    .ok (.mrm inst pairs)
  else .error (.valueError "Can only index by date on historical results")

/-- MultipleRiskMeasureResult.__getitem__ for a non-date key (line 214): plain
mapping lookup. -/
def mrmGetMeasure (vals : List (Nat × RV)) (m : Nat) : Except PyErr RV :=
  match vals.lookup m with
  | some v => .ok v
  | none => .error (.keyError "risk measure")

/-- _value_for_risk_measure (lines 110-120), iterable case: copy the mapping and
delete every entry whose measure was not requested (surviving order preserved). -/
def valueForRiskMeasureN (vals : List (Nat × RV)) (ms : List Nat) : List (Nat × RV) :=
  vals.filter (fun kv => ms.contains kv.1)

/-- _value_for_risk_measure, single-measure case. -/
def valueForRiskMeasure1 (vals : List (Nat × RV)) (m : Nat) : List (Nat × RV) :=
  vals.filter (fun kv => kv.1 == m)

/-- The instrument argument handed to MultipleRiskMeasureFuture when a leaf is
re-sliced (the portfolio entry; a sub-portfolio never reaches this constructor in a
tree that mirrors its portfolio). -/
def entryInst : PEntry → Nat
  | .inst i => i
  | .port _ => 0

mutual

/-- The per-priceable loop of PortfolioRiskResult.__getitem__ for a risk-measure key
(lines 433-439).  p, ms, fs are the enclosing tree; the last argument runs over its
portfolio entries. -/
def sliceMeasuresList (item : List Nat) (isIter : Bool) (p : List PEntry)
    (ms : List Nat) (fs : List RV) : List PEntry → Except PyErr (List RV)
  | [] => .ok []
  | e :: rest => do
      let f ← sliceMeasuresEntry item isIter p ms fs e
      let rest' ← sliceMeasuresList item isIter p ms fs rest
      .ok (f :: rest')

/-- One priceable of the risk-measure slicing loop: a nested result slices
recursively (by the tree-shape invariant its portfolio is the entry's own
sub-portfolio, which is checked and recursed on); a leaf mapping is filtered by
_value_for_risk_measure and rewrapped as a MultipleRiskMeasureFuture of
PricingFutures. -/
def sliceMeasuresEntry (item : List Nat) (isIter : Bool) (p : List PEntry)
    (ms : List Nat) (fs : List RV) : PEntry → Except PyErr RV
  | .inst i => do
      let r ← prrGetEntry p ms fs (.inst i)
      match r with
      | .prr _ _ _ => .error (.runtimeError "result tree does not mirror the portfolio")
      | .mrm _ vals =>
          .ok (.mrmf i ((if isIter then valueForRiskMeasureN vals item
                         else valueForRiskMeasure1 vals (item.headD 0)).map
                        (fun kv => (kv.1, RV.pf kv.2))))
      | _ => .error (.typeError "value is not a risk measure mapping")
  | .port es => do
      let r ← prrGetEntry p ms fs (.port es)
      match r with
      | .prr p' ms' fs' =>
          if p' = es then
            -- self[priceable][item]: the nested __getitem__ measure branch
            if !item.all (fun m => ms'.contains m) then
              .error (.valueError "not computed")
            else if ms'.length == 1 then .ok (.prr p' ms' fs')
            else do
              let nfs ← sliceMeasuresList item isIter es ms' fs' es
              .ok (.prr p' item nfs)
          else .error (.runtimeError "result tree does not mirror the portfolio")
      | .mrm _ vals =>
          .ok (.mrmf (entryInst (.port es))
                ((if isIter then valueForRiskMeasureN vals item
                  else valueForRiskMeasure1 vals (item.headD 0)).map
                 (fun kv => (kv.1, RV.pf kv.2))))
      | _ => .error (.typeError "value is not a risk measure mapping")

end

/-- PortfolioRiskResult.__getitem__ for risk-measure key(s) (lines 420-441): check
the measures were computed, return self unchanged when the tree is single-measure,
else re-slice every leaf and rebuild the tree over the same portfolio with the
requested measure tuple. -/
def sliceMeasures (p : List PEntry) (ms : List Nat) (fs : List RV) (item : List Nat)
    (isIter : Bool) : Except PyErr RV :=
  if !item.all (fun m => ms.contains m) then .error (.valueError "not computed")
  else if ms.length == 1 then .ok (.prr p ms fs)
  else do
    let nfs ← sliceMeasuresList item isIter p ms fs p
    .ok (.prr p item nfs)

mutual

/-- The per-priceable loop of PortfolioRiskResult.__getitem__ for a date key
(lines 445-451). -/
def sliceDateList (d : Nat) (p : List PEntry) (ms : List Nat) (fs : List RV) :
    List PEntry → Except PyErr (List RV)
  | [] => .ok []
  | e :: rest => do
      let f ← sliceDateEntry d p ms fs e
      let rest' ← sliceDateList d p ms fs rest
      .ok (f :: rest')

/-- One priceable of the date slicing loop: a measure mapping or nested tree is
re-sliced by the date and wrapped in a PricingFuture; a bare series likewise via
_value_for_date; anything else is not a historical result. -/
def sliceDateEntry (d : Nat) (p : List PEntry) (ms : List Nat) (fs : List RV) :
    PEntry → Except PyErr RV
  | .inst i => do
      let r ← prrGetEntry p ms fs (.inst i)
      match r with
      | .mrm j vals => do
          let v ← mrmGetDate j vals d
          .ok (.pf v)
      | .series s k => do
          let v ← valueForDate (.series s k) d
          .ok (.pf v)
      | .prr _ _ _ => .error (.runtimeError "result tree does not mirror the portfolio")
      | _ => .error (.runtimeError "Can only index by date on historical results")
  | .port es => do
      let r ← prrGetEntry p ms fs (.port es)
      match r with
      | .prr p' ms' fs' =>
          if p' = es then do
            -- self[priceable][item]: the nested __getitem__ date branch
            let nfs ← sliceDateList d es ms' fs' es
            .ok (.pf (.prr p' ms' nfs))
          else .error (.runtimeError "result tree does not mirror the portfolio")
      | .mrm j vals => do
          let v ← mrmGetDate j vals d
          .ok (.pf v)
      | .series s k => do
          let v ← valueForDate (.series s k) d
          .ok (.pf v)
      | _ => .error (.runtimeError "Can only index by date on historical results")

end

/-- PortfolioRiskResult.__getitem__ for a single date (lines 443-452). -/
def sliceDate (p : List PEntry) (ms : List Nat) (fs : List RV) (d : Nat) :
    Except PyErr RV := do
  let nfs ← sliceDateList d p ms fs p
  .ok (.prr p ms nfs)

/-- An index key handed to __getitem__, tagged with the runtime type the source
dispatches on: a risk measure, an iterable of risk measures, a date, an instrument
identity/name, or an integer position. -/
inductive ItemKey where
  | rm (m : Nat)
  | rms (l : List Nat)
  | date (d : Nat)
  | inst (i : Nat)
  | pos (n : Nat)
deriving DecidableEq, Repr

/-- PortfolioRiskResult.__getitem__ (lines 417-465): dispatch on the key type.
The list-of-instruments branch (subset) is outside the claims under study. -/
def prrGetItem (p : List PEntry) (ms : List Nat) (fs : List RV) :
    ItemKey → Except PyErr RV
  | .rm m => sliceMeasures p ms fs [m] false
  | .rms l => sliceMeasures p ms fs l true
  | .date d => sliceDate p ms fs d
  | .inst i => prrGetEntry p ms fs (.inst i)
  | .pos n => prrResultsFor ms fs [[n]]

/-- Dynamic __getitem__ dispatch on whatever value a chain of indexings produced:
a tree via PortfolioRiskResult.__getitem__, a measure mapping via
MultipleRiskMeasureResult.__getitem__, a series via the pandas date lookup. -/
def getItem (x : RV) (k : ItemKey) : Except PyErr RV :=
  match x with
  | .prr p ms fs => prrGetItem p ms fs k
  | .mrm i vals =>
      (match k with
       | .date d => mrmGetDate i vals d
       | .rm m => mrmGetMeasure vals m
       | _ => .error (.keyError "not a risk measure key"))
  | .series s _ =>
      (match k with
       | .date d =>
          (match s.lookup d with
           | some v => .ok (.num v)
           | none => .error (.keyError "date not in index"))
       | _ => .error (.keyError "series is indexed by date"))
  | _ => .error (.typeError "object is not subscriptable")

/-- The result list of all child results, as stored by
CompositeResultFuture._set_result (lines 192-193). -/
def resultListOf : List RV → List RV
  | [] => []
  | f :: rest => RV.result f :: resultListOf rest

/-- PortfolioRiskResult.dates (lines 560-571): the sorted union, over the results at
all leaf paths, of each result's date axis.  Date tokens are always sortable here, so
the TypeError fallback to an empty tuple is unreachable in the model. -/
def prrDatesE (p : List PEntry) (ms : List Nat) (fs : List RV) :
    Except PyErr (List Nat) := do
  let results ← (allPathsFrom 0 p).mapM (fun path => prrResultAt ms fs path none)
  .ok (sortNat (dedupFirst (results.foldr (fun r acc =>
    (match r with
     | .mrm _ vals => mrmDates vals
     | .series s _ => s.map Prod.fst
     | _ => []) ++ acc) [])))

/-- The first_value closure of __add__ (lines 516-517):
portfolio_result[next(iter(portfolio.all_instruments))]. -/
def prrFirstValue (p : List PEntry) (ms : List Nat) (fs : List RV) : Except PyErr RV :=
  match PEntry.instrumentsList p with
  | [] => .error (.runtimeError "StopIteration")
  | i :: _ => prrGetEntry p ms fs (.inst i)

def RV.isPRR : RV → Bool
  | .prr _ _ _ => true
  | _ => false

mutual

/-- as_multiple_result_futures (lines 495-502): a multi-measure tree is returned as
is (sharing its futures); a single-measure tree has every nested tree converted
recursively and every leaf future wrapped into a fresh single-entry
MultipleRiskMeasureFuture. -/
def asMulti : RV → RV
  | .prr p ms fs =>
      if ms.length > 1 then .prr p ms fs
      else .prr p ms (asMultiZip ms p fs)
  | x => x

def asMultiZip (ms : List Nat) (es : List PEntry) (fs : List RV) : List RV :=
  match es, fs with
  | _, [] => []
  | [], _ :: _ => []
  | e :: erest, f :: frest =>
      (if RV.isPRR f then asMulti f
       else .mrmf (entryInst e) [(ms.headD 0, f)]) :: asMultiZip ms erest frest

end

/-- future.result()[measure] = value (line 512): the in-place dict update of a
resolved MultipleRiskMeasureFuture's stored mapping (or of a mapping held by a plain
PricingFuture).  Because the model re-derives a MultipleRiskMeasureFuture's result
from its measure-to-future mapping, the update stores the value as an
already-resolved future, so result() returns exactly the assigned value.  Other
futures do not support item assignment. -/
def setFutureMeasure (f : RV) (m : Nat) (v : RV) : Except PyErr RV :=
  match f with
  | .mrmf i vals => .ok (.mrmf i (assocSet vals m (.pf v)))
  | .pf (.mrm i vals) => .ok (.pf (.mrm i (assocSet vals m v)))
  | _ => .error (.typeError "object does not support item assignment")

/-- The try-block reads of set_value (lines 510-511): value = src_result[priceable],
then value[src_risk_measure] when a measure mapping came back. -/
def setValueFetch (src : RV) (e : PEntry) (m : Nat) : Except PyErr RV := do
  let v ← (match src with
    | .prr p ms fs => prrGetEntry p ms fs e
    | _ => .error (.typeError "source is not a tree"))
  match v with
  | .mrm _ vals => mrmGetMeasure vals m
  | x => .ok x

mutual

/-- One future of the set_value walk (lines 506-514): a nested tree recurses over
its own portfolio; at a leaf, a KeyError from the source lookup skips the leaf,
otherwise the leaf future's resolved mapping is mutated in place. -/
def setValueFut (src : RV) (m : Nat) (e : PEntry) : RV → Except PyErr RV
  | .prr p' ms' fs' => do
      let nfs ← setValueList src m p' fs'
      Except.ok (RV.prr p' ms' nfs)
  | f =>
      (match setValueFetch src e m with
       | .error (.keyError _) => .ok f
       | .error err => .error err
       | .ok v => setFutureMeasure f m v)

/-- set_value (lines 504-514): walk zip(dest portfolio, dest futures), which
truncates to the shorter of the two. -/
def setValueList (src : RV) (m : Nat) : List PEntry → List RV → Except PyErr (List RV)
  | _, [] => .ok []
  | [], rest => .ok rest
  | e :: erest, f :: frest => do
      let f2 ← setValueFut src m e f
      let rest2 ← setValueList src m erest frest
      .ok (f2 :: rest2)

end

/-- The two fill-in passes of __add__ (lines 542-546): (dest, src) runs over
((self, other), (other, self)); for dest == self every measure of other is filled
in, for dest == other only self's measures missing from other; each pass applies
set_value to ret's futures.  The second pass reads self as it stands after the
first pass (visible through shared futures when self is multi-measure). -/
def fillValues (pU : List PEntry) (futures0 : List RV)
    (pA : List PEntry) (msA : List Nat) (A : RV) (msB : List Nat) (B : RV)
    (lenA : Nat) : Except PyErr (List RV) := do
  let fut1 ← msB.foldlM (fun fs m => setValueList B m pU fs) futures0
  let A1 := if msA.length > 1 then RV.prr pA msA (fut1.take lenA) else A
  let fut2 ← (msA.filter (fun m => !msB.contains m)).foldlM
      (fun fs m => setValueList A1 m pU fs) fut1
  .ok fut2

/-- MultipleRiskMeasureFuture.__add__ (lines 332-337): add the two resolved result
mappings when the other side is a MultipleRiskMeasureFuture (else take the other
operand itself), then rewrap every entry of the outcome's items() into a fresh
future; an outcome without items() (a future, or the tree produced when the
instruments differ) is an AttributeError. -/
def mrmfAdd (i : Nat) (vals : List (Nat × RV)) (other : RV) : Except PyErr RV := do
  let result ← (match other with
    | .mrmf i2 vals2 => mrmAdd i (RV.resultPairs vals) i2 (RV.resultPairs vals2)
    | x => .ok x)
  match result with
  | .mrm _ pairs => .ok (.mrmf i (pairs.map (fun kv => (kv.1, RV.pf kv.2))))
  | _ => .error (.typeError "object has no attribute items")

/-- future + other_future for non-tree futures: MultipleRiskMeasureFuture.__add__ or
PricingFuture.__add__ (lines 131-139), the latter composing the two resolved values. -/
def futureAddLeaf (f g : RV) : Except PyErr RV :=
  match f with
  | .mrmf i vals => mrmfAdd i vals g
  | .pf v =>
      if g.isFuture then do
        let c ← composeRV v g.result
        .ok (.pf c)
      else .error (.valueError "Cannot add PricingFuture and other")
  | .prr _ _ _ => .error (.runtimeError "result tree does not mirror the portfolio")
  | _ => .error (.typeError "unsupported operand type for +")

/-- The leaf-by-leaf futures addition once the portfolio entries are exhausted
(python's zip over the portfolio pairs positions only up to the portfolio length;
extra futures beyond it can only belong to a tree that does not mirror its
portfolio, and are added leaf-wise). -/
def zipAddLeaves : List RV → List RV → Except PyErr (List RV)
  | [], _ => .ok []
  | _ :: _, [] => .ok []
  | f :: fs, g :: gs => do
      let h ← futureAddLeaf f g
      let rest ← zipAddLeaves fs gs
      .ok (h :: rest)

mutual

/-- The leaf-by-leaf futures addition of tree + tree over one (equal) portfolio
shape (line 535): future + other_future for every zipped pair; nested trees re-enter
PortfolioRiskResult.__add__.  The portfolio entries steer the recursion (the
tree-shape invariant ties a nested result's portfolio to its entry, which is
checked). -/
def zipAddFutures : List PEntry → List RV → List RV → Except PyErr (List RV)
  | [], fs, gs => zipAddLeaves fs gs
  | _ :: _, [], _ => .ok []
  | _ :: _, _ :: _, [] => .ok []
  | e :: erest, f :: fs, g :: gs => do
      let h ← entryAddFuture e f g
      let rest ← zipAddFutures erest fs gs
      .ok (h :: rest)

/-- future + other_future at one portfolio entry: nested trees run the body of
PortfolioRiskResult.__add__ (lines 521-548); every other future adds leaf-wise. -/
def entryAddFuture : PEntry → RV → RV → Except PyErr RV
  | .inst _, f, g => futureAddLeaf f g
  | .port es, f, g =>
      match f with
      | .prr pA msA fsA =>
          if pA = es then
            match g with
            | .prr pB msB fsB => do
                let fv ← prrFirstValue pA msA fsA
                let compat ← riskKeysCompatible fv fv
                if !compat then
                  .ok (.exn (.valueError "Results must have matching scenario and location"))
                else do
                  -- python's and short-circuits: the date axes are only computed when
                  -- the risk-measure sets overlap
                  let overlap ← (do
                    if listDisjoint msA msB then pure false
                    else do
                      let dA ← prrDatesE pA msA fsA
                      let dB ← prrDatesE pB msB fsB
                      if listDisjoint dA dB then pure false
                      else pure (!listDisjoint (PEntry.instrumentsList pA)
                        (PEntry.instrumentsList pB)) : Except PyErr Bool)
                  if overlap then
                    .error (.valueError "Results overlap on risk measures, instruments or dates")
                  else
                    let sfs := (asMulti (.prr pA msA fsA)).futuresOf
                    let ofs := (asMulti (.prr pB msB fsB)).futuresOf
                    let msU := dedupFirst (msA ++ msB)
                    if pA = pB then do
                      let nfs ← zipAddFutures es sfs ofs
                      .ok (.prr pA msU nfs)
                    else
                      let pU := pA ++ pB
                      if msU.length > 1 then do
                        let filled ← fillValues pU (sfs ++ ofs) pA msA
                          (.prr pA msA fsA) msB (.prr pB msB fsB) sfs.length
                        .ok (.prr pU msU filled)
                      else
                        .ok (.prr pU msU (sfs ++ ofs))
            | _ => .error (.valueError "Can only add instances of PortfolioRiskResult or int, float")
          else .error (.runtimeError "result tree does not mirror the portfolio")
      | _ => futureAddLeaf f g

end

/-- PortfolioRiskResult.__add__ with another tree (lines 494-550), returning the sum
together with the post-state of both operands.  The source mutates ret's futures in
place through set_value: when an operand is multi-measure, as_multiple_result_futures
returns the operand itself, so ret shares that operand's futures and the mutations
are visible through the operand; a single-measure operand is freshly wrapped and
stays untouched.  Equal-portfolio additions build fresh leaf compositions and never
run the fill-in pass, so both operands stay untouched there. -/
def treeAddCore (A B : RV) : Except PyErr (RV × RV × RV) :=
  match A, B with
  | .prr pA msA fsA, .prr pB msB fsB => do
      let fv ← prrFirstValue pA msA fsA
      let compat ← riskKeysCompatible fv fv
      if !compat then
        .ok (.exn (.valueError "Results must have matching scenario and location"), A, B)
      else do
        -- python's and short-circuits: the date axes are only computed when the
        -- risk-measure sets overlap
        let overlap ← (do
          if listDisjoint msA msB then pure false
          else do
            let dA ← prrDatesE pA msA fsA
            let dB ← prrDatesE pB msB fsB
            if listDisjoint dA dB then pure false
            else pure (!listDisjoint (PEntry.instrumentsList pA)
              (PEntry.instrumentsList pB)) : Except PyErr Bool)
        if overlap then
          .error (.valueError "Results overlap on risk measures, instruments or dates")
        else
          let sfs := (asMulti A).futuresOf
          let ofs := (asMulti B).futuresOf
          let msU := dedupFirst (msA ++ msB)
          if pA = pB then do
            let nfs ← zipAddFutures pA sfs ofs
            .ok (.prr pA msU nfs, A, B)
          else
            let pU := pA ++ pB
            if msU.length > 1 then do
              let filled ← fillValues pU (sfs ++ ofs) pA msA A msB B sfs.length
              let A' := if msA.length > 1 then RV.prr pA msA (filled.take sfs.length) else A
              let B' := if msB.length > 1 then RV.prr pB msB (filled.drop sfs.length) else B
              .ok (.prr pU msU filled, A', B')
            else
              .ok (.prr pU msU (sfs ++ ofs), A, B)
  | .prr _ _ _, _ => .error (.valueError "Can only add instances of PortfolioRiskResult or int, float")
  | _, _ => .error (.typeError "unsupported operand type for +")

/-- tree + tree: the sum alone. -/
def treeAdd (A B : RV) : Except PyErr RV := do
  let r ← treeAddCore A B
  .ok r.1

/-- The right operand of a broadcast __mul__: a python number or any non-numeric
object. -/
inductive MulOperand where
  | int (n : Int)
  | nonNumeric
deriving DecidableEq, Repr

mutual

/-- Modelled from the spec: numeric scaling of a result value ("multiply ... scales
a resolved Scalar/Series/Table's numeric payload"); the WithInfo value classes live
outside risk/results.py.  Using an Error value in a numeric context raises (spec
section 7).  A measure mapping scales through MultipleRiskMeasureResult.__op
(lines 257-268). -/
def scaleValue : RV → Int → Except PyErr RV
  | .scalar x k, n => .ok (.scalar (x * n) k)
  | .series s k, n => .ok (.series (s.map (fun q => (q.1, q.2 * n))) k)
  | .num x, n => .ok (.num (x * n))
  | .mrm i vals, n => do
      let pairs ← scalePairs vals n
      .ok (.mrm i pairs)
  | _, _ => .error (.typeError "unsupported operand type for *")

def scalePairs : List (Nat × RV) → Int → Except PyErr (List (Nat × RV))
  | [], _ => .ok []
  | (k, v) :: rest, n => do
      let v' ← scaleValue v n
      let rest' ← scalePairs rest n
      .ok ((k, v') :: rest')

end

/-- MultipleRiskMeasureResult.__mul__ (lines 216-220): a number scales every value
via __op; a non-number operand makes the method RETURN a ValueError instance (the
error object becomes the result, it is not raised). -/
def mrmMul (i : Nat) (vals : List (Nat × RV)) : MulOperand → Except PyErr RV
  | .int n => do
      let pairs ← scalePairs vals n
      .ok (.mrm i pairs)
  | .nonNumeric => .ok (.exn (.valueError "Can only multiply by an int or float"))

/-- PricingFuture.__mul__ (lines 141-145): a number scales the resolved value into
self.__class__(scaled); for a MultipleRiskMeasureFuture that constructor call passes
one argument to a two-argument __init__, a TypeError.  Anything non-numeric RAISES
ValueError. -/
def futureMul : RV → MulOperand → Except PyErr RV
  | .pf v, .int n => do
      let v' ← scaleValue v n
      .ok (.pf v')
  | .mrmf _ _, .int _ =>
      .error (.typeError "__init__ missing required positional argument")
  | _, .nonNumeric => .error (.valueError "Can only multiply by an int or float")
  | _, .int _ => .error (.typeError "unsupported operand type for *")

mutual

/-- f * other for one future of the broadcast: a nested tree re-enters
PortfolioRiskResult.__mul__'s numeric branch, anything else PricingFuture.__mul__. -/
def treeMulF : RV → Int → Except PyErr RV
  | .prr p ms fs, n => do
      let nfs ← treeMulList fs n
      Except.ok (RV.prr p ms nfs)
  | x, n => futureMul x (.int n)

def treeMulList : List RV → Int → Except PyErr (List RV)
  | [], _ => .ok []
  | f :: rest, n => do
      let f2 ← treeMulF f n
      let rest2 ← treeMulList rest n
      .ok (f2 :: rest2)

end

/-- PortfolioRiskResult.__mul__ (lines 488-492): a number broadcasts f * other over
the futures; a non-number operand makes the method RETURN a ValueError instance. -/
def treeMul : RV → MulOperand → Except PyErr RV
  | .prr p ms fs, .int n => do
      let nfs ← treeMulList fs n
      .ok (.prr p ms nfs)
  | .prr _ _ _, .nonNumeric =>
      .ok (.exn (.valueError "Can only multiply by an int or float"))
  | v, op => futureMul v op

/-- isinstance(r, (ErrorValue, Exception)): a failed child of a historical
composite. -/
def isErrorLike : RV → Bool
  | .err _ => true
  | .exn _ => true
  | _ => false

/-- The per-measure composition of HistoricalPricingFuture._set_result's mapping
branch (lines 359-360): base[k].compose(r[k] for r in results) for every measure of
the base; a child without that measure (or that is no mapping at all) fails the
generator. -/
def hsrPairs : List (Nat × RV) → List RV → Except PyErr (List (Nat × RV))
  | [], _ => .ok []
  | (k, _) :: rest, results => do
      let gathered ← results.mapM (fun r => match r with
        | .mrm _ vs =>
            (match vs.lookup k with
             | some v => Except.ok v
             | none => Except.error (PyErr.keyError "risk measure"))
        | _ => Except.error (PyErr.typeError "child is not a measure mapping"))
      let rest' ← hsrPairs rest results
      .ok ((k, scalarCompose gathered) :: rest')

/-- HistoricalPricingFuture._set_result (lines 349-362): base is the FIRST child
result that is not an error; only when every child failed does the composite store
results[0] (the failure is logged, not raised); otherwise ALL children are composed
along the date axis (measure-wise for mapping results), errors included in the pass
but contributing no dated point. -/
def historicalSetResult (results : List RV) : Except PyErr RV :=
  match results.find? (fun r => !isErrorLike r) with
  | none =>
      (match results with
       | [] => .error (.keyError "list index out of range")
       | r :: _ => .ok r)
  | some base =>
      match base with
      | .mrm i vals => do
          let pairs ← hsrPairs vals results
          .ok (.mrm i pairs)
      | _ => .ok (scalarCompose results)

/-- PortfolioRiskResult.__len__ (lines 482-483): the number of top-level child
futures. -/
def treeLen : RV → Nat
  | .prr _ _ fs => fs.length
  | _ => 0

/-- PortfolioRiskResult.result (lines 573-575): wait for the children via
super().result(timeout), then return self (not the stored list of child results that
CompositeResultFuture._set_result assembled). -/
def prrResultFn : RV → RV
  | .prr p ms fs => .prr p ms fs
  | x => RV.result x

/-- tree[instrument] followed, when a measure mapping comes back, by
mapping[measure]: the observation a caller makes of one leaf value. -/
def obsAt (t : RV) (i m : Nat) : Except PyErr RV := do
  let r ← getItem t (.inst i)
  match r with
  | .mrm _ vals => mrmGetMeasure vals m
  | v => .ok v

/-- Observational equality of two result trees: same portfolio, same risk-measure
tuple, and the same observation at every instrument of the portfolio and every
measure of the tree.  (python == on two tree objects falls back to identity, so
"tree equals tree unchanged" can only sensibly mean this.) -/
def obsEquiv (a b : RV) : Prop :=
  match a, b with
  | .prr pa msa _, .prr pb msb _ =>
      pa = pb ∧ msa = msb ∧
      ∀ i ∈ PEntry.instrumentsList pa, ∀ m ∈ msa, obsAt a i m = obsAt b i m
  | x, y => x = y

/-- The two forms a nested-tree future takes: a bare PortfolioRiskResult (as built
by calc and by tree addition) or one wrapped in a PricingFuture (as built by date
slicing).  Both resolve to the nested tree. -/
def nodeForm (wrapped : Bool) (f : RV) : Option (List PEntry × List Nat × List RV) :=
  match wrapped, f with
  | false, .prr p ms fs => some (p, ms, fs)
  | true, .pf (.prr p ms fs) => some (p, ms, fs)
  | _, _ => none

mutual

/-- The engine's tree-shape invariant, parameterized by a leaf-future shape LF: one
future per portfolio entry; a leaf entry's future satisfies LF for that instrument;
a sub-portfolio entry is nonempty and its future is a nested tree (bare or
PricingFuture-wrapped according to the wrapped flag) over exactly that
sub-portfolio, with the same measure tuple. -/
def shapeList (wrapped : Bool) (LF : Nat → RV → Bool) (ms : List Nat) :
    List PEntry → List RV → Bool
  | [], [] => true
  | e :: es, f :: fs => shapeEntry wrapped LF ms e f && shapeList wrapped LF ms es fs
  | _, _ => false

def shapeEntry (wrapped : Bool) (LF : Nat → RV → Bool) (ms : List Nat) :
    PEntry → RV → Bool
  | .inst i, f => LF i f
  | .port es, f =>
      !es.isEmpty &&
      (match nodeForm wrapped f with
       | some (p', ms', fs') =>
          PEntry.beqList p' es && ms' == ms && shapeList wrapped LF ms es fs'
       | none => false)

end

/-- Shifting the top-level position of a portfolio path. -/
def headShift (j : Nat) : List Nat → List Nat
  | [] => []
  | a :: r => (a + j) :: r

/-- A plain result value carrying a risk key (ScalarWithInfo / SeriesWithInfo). -/
def RV.isVal : RV → Bool
  | .scalar _ _ => true
  | .series _ _ => true
  | _ => false

/-- The residual provenance token of a value's risk key. -/
def RV.exmOf : RV → Nat
  | .scalar _ k => k.exm
  | .series _ k => k.exm
  | _ => 0

/-- A value that is neither a measure mapping nor a nested tree (pinStep returns it
unchanged). -/
def RV.isPlainVal : RV → Bool
  | .mrm _ _ => false
  | .prr _ _ _ => false
  | _ => true

/-- The canonical leaf shape of a calc result tree: the leaf future of instrument i
is a MultipleRiskMeasureFuture mapping each computed measure m to a PricingFuture of
the plain value sigma i m, whose risk key carries the provenance token exm. -/
def canonLeaf (sigma : Nat → Nat → RV) (exm : Nat) (lms : List Nat) (i : Nat)
    (f : RV) : Bool :=
  (f == .mrmf i (lms.map (fun m => (m, RV.pf (sigma i m))))) &&
  lms.all (fun m => (sigma i m).isVal && ((sigma i m).exmOf == exm))

/-- The per-instrument measure mapping of the sum of two canonical trees: the left
operand's value on its own measures, the right operand's elsewhere. -/
def unionSigma (sigmaA sigmaB : Nat → Nat → RV) (inA : Nat → Bool) : Nat → Nat → RV :=
  fun i m => if inA m then sigmaA i m else sigmaB i m

/-- The canonical leaf shape of a single-measure calc result tree: the leaf future
of instrument i is a plain PricingFuture of the value sigma i. -/
def pfLeaf (sigma : Nat → RV) (exm : Nat) (i : Nat) (f : RV) : Bool :=
  (f == .pf (sigma i)) && (sigma i).isVal && ((sigma i).exmOf == exm)

/-- Three chained __getitem__ calls, as in tree[k1][k2][k3]. -/
def chain3 (t : RV) (k1 k2 k3 : ItemKey) : Except PyErr RV := do
  let a ← getItem t k1
  let b ← getItem a k2
  getItem b k3

/-- The numeric payload a caller compares with python ==: a FloatWithInfo
(ScalarWithInfo) compares equal to the plain float carrying the same number. -/
def numPayload : RV → Option Int
  | .scalar v _ => some v
  | .num v => some v
  | _ => none

/-- The leaf shape of a date-sliced tree: a PricingFuture of the measure mapping
re-indexed at the date (tau gives the per-instrument, per-measure dated value). -/
def dateLeaf (tau : Nat → Nat → RV) (lms : List Nat) (i : Nat) (f : RV) : Bool :=
  f == .pf (.mrm i (lms.map (fun m => (m, tau i m))))

/-- The leaf shape of a date-sliced single-measure tree: a PricingFuture of the
re-indexed value itself. -/
def dateLeaf1 (tau : Nat → RV) (i : Nat) (f : RV) : Bool :=
  f == .pf (tau i)


/-! Supporting lemmas about the list primitives of the embedding. -/

theorem lookup_cons_eq {β : Type} (k : Nat) (v : β) (l : List (Nat × β)) (d : Nat) :
    List.lookup d ((k, v) :: l) = if d = k then some v else List.lookup d l := by
  by_cases h : d = k
  · simp [List.lookup_cons, h]
  · have hb : (d == k) = false := beq_false_of_ne h
    simp [List.lookup_cons, hb, h]

theorem dedupFirst_mem : ∀ (l : List Nat) (a : Nat), a ∈ dedupFirst l ↔ a ∈ l := by
  intro l
  induction l with
  | nil => intro a; simp [dedupFirst]
  | cons k ks ih =>
      intro a
      simp only [dedupFirst, List.mem_cons, List.mem_filter, ih, decide_eq_true_eq]
      by_cases h : a = k <;> simp [h]

theorem dedupFirst_nodup : ∀ (l : List Nat), (dedupFirst l).Nodup := by
  intro l
  induction l with
  | nil => simp [dedupFirst]
  | cons k ks ih =>
      simp only [dedupFirst, List.nodup_cons]
      constructor
      · intro hmem
        have := (List.mem_filter.1 hmem).2
        simp at this
      · exact List.Nodup.filter _ ih

theorem map_fst_graph {β : Type} (f : Nat → β) (l : List Nat) :
    (l.map (fun d => (d, f d))).map Prod.fst = l := by
  rw [List.map_map]
  exact List.map_id' l

theorem lookup_graph {β : Type} (f : Nat → β) :
    ∀ (l : List Nat) (d : Nat),
      (l.map (fun x => (x, f x))).lookup d = if d ∈ l then some (f d) else none := by
  intro l
  induction l with
  | nil => intro d; simp
  | cons x xs ih =>
      intro d
      rw [List.map_cons, lookup_cons_eq, ih]
      by_cases h : d = x
      · simp [h]
      · simp [h, List.mem_cons]

theorem insortD_perm : ∀ (x : Nat × Int) (l : List (Nat × Int)),
    (insortD x l).Perm (x :: l) := by
  intro x l
  induction l with
  | nil => simp [insortD]
  | cons y ys ih =>
      simp only [insortD]
      by_cases h : x.1 ≤ y.1
      · rw [if_pos h]
      · rw [if_neg h]
        exact List.Perm.trans (List.Perm.cons y ih) (List.Perm.swap x y ys)

theorem sortIndex_perm : ∀ (l : List (Nat × Int)), (sortIndex l).Perm l := by
  intro l
  induction l with
  | nil => simp [sortIndex]
  | cons x xs ih =>
      simp only [sortIndex, List.foldr_cons]
      exact List.Perm.trans (insortD_perm x _) (List.Perm.cons x ih)

theorem insortD_pairwise :
    ∀ (x : Nat × Int) (l : List (Nat × Int)),
      List.Pairwise (fun a b : Nat × Int => a.1 ≤ b.1) l →
      List.Pairwise (fun a b : Nat × Int => a.1 ≤ b.1) (insortD x l) := by
  intro x l
  induction l with
  | nil => intro _; simp [insortD]
  | cons y ys ih =>
      intro h
      rcases List.pairwise_cons.1 h with ⟨hy, hys⟩
      simp only [insortD]
      by_cases hle : x.1 ≤ y.1
      · rw [if_pos hle]
        refine List.pairwise_cons.2 ⟨?_, h⟩
        intro b hb
        rcases List.mem_cons.1 hb with hb | hb
        · exact hb ▸ hle
        · exact le_trans hle (hy b hb)
      · rw [if_neg hle]
        refine List.pairwise_cons.2 ⟨?_, ih hys⟩
        intro b hb
        have hmem : b ∈ x :: ys := (insortD_perm x ys).subset hb
        rcases List.mem_cons.1 hmem with hb2 | hb2
        · exact hb2 ▸ le_of_not_le hle
        · exact hy b hb2

theorem sortIndex_pairwise :
    ∀ (l : List (Nat × Int)),
      List.Pairwise (fun a b : Nat × Int => a.1 ≤ b.1) (sortIndex l) := by
  intro l
  induction l with
  | nil => simp [sortIndex]
  | cons x xs ih => exact insortD_pairwise x _ ih

theorem lookup_perm :
    ∀ {l1 l2 : List (Nat × Int)}, l1.Perm l2 → (l1.map Prod.fst).Nodup →
      ∀ d, l1.lookup d = l2.lookup d := by
  intro l1 l2 hp
  induction hp with
  | nil => intro _ _; rfl
  | cons x _ ih =>
      intro hnd d
      simp only [List.map_cons, List.nodup_cons] at hnd
      rcases x with ⟨k, v⟩
      rw [lookup_cons_eq, lookup_cons_eq]
      by_cases h : d = k
      · simp [h]
      · rw [if_neg h, if_neg h]
        exact ih hnd.2 d
  | swap x y l =>
      intro hnd d
      rcases x with ⟨kx, vx⟩
      rcases y with ⟨ky, vy⟩
      simp only [List.map_cons, List.nodup_cons, List.mem_cons] at hnd
      have hxy : ky ≠ kx := fun h => hnd.1 (Or.inl h)
      simp only [lookup_cons_eq]
      have hyx : kx ≠ ky := fun h => hxy h.symm
      by_cases hx : d = kx <;> by_cases hy : d = ky
      · exact absurd (hy.symm.trans hx) hxy
      all_goals simp [hx, hy, hxy, hyx]
  | trans h12 _ ih1 ih2 =>
      intro hnd d
      have hnd2 := (List.Perm.nodup_iff (List.Perm.map Prod.fst h12)).1 hnd
      rw [ih1 hnd d, ih2 hnd2 d]

theorem combineFirst_map_fst_nodup (a b : List (Nat × Int)) :
    (((dedupFirst (a.map Prod.fst ++ b.map Prod.fst)).map
      (fun d => (d, match a.lookup d with
        | some v => v
        | none => (b.lookup d).getD 0))).map Prod.fst).Nodup := by
  rw [map_fst_graph]
  exact dedupFirst_nodup _

theorem combineFirst_lookup (a b : List (Nat × Int)) (d : Nat) :
    (combineFirst a b).lookup d =
      if d ∈ a.map Prod.fst ++ b.map Prod.fst then
        some (match a.lookup d with
          | some v => v
          | none => (b.lookup d).getD 0)
      else none := by
  simp only [combineFirst]
  rw [lookup_perm (sortIndex_perm _) (by
    rw [List.Perm.nodup_iff (List.Perm.map Prod.fst (sortIndex_perm _))]
    exact combineFirst_map_fst_nodup a b) d]
  rw [lookup_graph]
  by_cases h : d ∈ a.map Prod.fst ++ b.map Prod.fst
  · rw [if_pos ((dedupFirst_mem _ d).2 h), if_pos h]
  · rw [if_neg (fun hc => h ((dedupFirst_mem _ d).1 hc)), if_neg h]

theorem lookup_mem_keys {β : Type} :
    ∀ (l : List (Nat × β)) (d : Nat), d ∈ l.map Prod.fst → ∃ v, l.lookup d = some v := by
  intro l
  induction l with
  | nil => intro d h; simp at h
  | cons x xs ih =>
      intro d h
      rcases x with ⟨k, v⟩
      rw [lookup_cons_eq]
      by_cases hx : d = k
      · exact ⟨v, by rw [if_pos hx]⟩
      · rw [if_neg hx]
        rcases List.mem_cons.1 h with h | h
        · exact absurd h hx
        · exact ih d h

theorem lookup_none_keys {β : Type} :
    ∀ (l : List (Nat × β)) (d : Nat), d ∉ l.map Prod.fst → l.lookup d = none := by
  intro l
  induction l with
  | nil => intro d _; rfl
  | cons x xs ih =>
      intro d h
      rcases x with ⟨k, v⟩
      simp only [List.map_cons, List.mem_cons] at h
      push_neg at h
      rw [lookup_cons_eq, if_neg h.1]
      exact ih d h.2


theorem combineFirst_nodup (a b : List (Nat × Int)) :
    ((combineFirst a b).map Prod.fst).Nodup := by
  simp only [combineFirst]
  rw [List.Perm.nodup_iff (List.Perm.map Prod.fst (sortIndex_perm _))]
  exact combineFirst_map_fst_nodup a b

theorem sortIndex_lookup (l : List (Nat × Int)) (hnd : (l.map Prod.fst).Nodup) (d : Nat) :
    (sortIndex l).lookup d = l.lookup d :=
  lookup_perm (sortIndex_perm l) (by
    rw [List.Perm.nodup_iff (List.Perm.map Prod.fst (sortIndex_perm l))]
    exact hnd) d

/-! Claim C3. -/

/-- C3: composing two Series results (the SeriesWithInfo branch of _compose,
rhs.combine_first(lhs).sort_index()) returns a series over the union of the two
date axes, sorted ascending, and on every date present in both operands the
right-hand operand's value wins. -/
theorem c3_series_compose_right_wins :
    ∀ (s1 s2 : List (Nat × Int)) (k1 k2 : RKey),
      composeRV (.series s1 k1) (.series s2 k2)
        = .ok (.series (sortIndex (combineFirst s2 s1)) k2) ∧
      List.Pairwise (fun a b : Nat × Int => a.1 ≤ b.1) (sortIndex (combineFirst s2 s1)) ∧
      (∀ d : Nat, (∃ v, (sortIndex (combineFirst s2 s1)).lookup d = some v) ↔
          (d ∈ s1.map Prod.fst ∨ d ∈ s2.map Prod.fst)) ∧
      (∀ d : Nat, d ∈ s1.map Prod.fst → d ∈ s2.map Prod.fst →
          (sortIndex (combineFirst s2 s1)).lookup d = s2.lookup d) := by
  intro s1 s2 k1 k2
  have hsl : ∀ d : Nat, (sortIndex (combineFirst s2 s1)).lookup d
      = (combineFirst s2 s1).lookup d :=
    fun d => sortIndex_lookup _ (combineFirst_nodup s2 s1) d
  refine ⟨rfl, sortIndex_pairwise _, ?_, ?_⟩
  · intro d
    rw [hsl d, combineFirst_lookup]
    by_cases h : d ∈ s2.map Prod.fst ++ s1.map Prod.fst
    · rw [if_pos h]
      simp only [List.mem_append] at h
      exact ⟨fun _ => h.symm, fun _ => ⟨_, rfl⟩⟩
    · rw [if_neg h]
      simp only [List.mem_append] at h
      push_neg at h
      simp [h.1, h.2]
  · intro d h1 h2
    rw [hsl d, combineFirst_lookup, if_pos (List.mem_append.2 (Or.inl h2))]
    rcases lookup_mem_keys s2 d h2 with ⟨v, hv⟩
    rw [hv]

/-- Witness for C3 at concrete series sharing date 5: the composition succeeds and
date 5 carries the right-hand operand's value. -/
theorem c3_witness :
    composeRV (.series [(3, 30), (5, 50)] ⟨[3, 5], 0⟩) (.series [(5, 55), (4, 44)] ⟨[5, 4], 7⟩)
      = .ok (.series (sortIndex (combineFirst [(5, 55), (4, 44)] [(3, 30), (5, 50)])) ⟨[5, 4], 7⟩) ∧
    (sortIndex (combineFirst [(5, 55), (4, 44)] [(3, 30), (5, 50)])).lookup 5
      = List.lookup 5 [(5, 55), (4, 44)] :=
  ⟨(c3_series_compose_right_wins [(3, 30), (5, 50)] [(5, 55), (4, 44)] ⟨[3, 5], 0⟩ ⟨[5, 4], 7⟩).1,
   (c3_series_compose_right_wins [(3, 30), (5, 50)] [(5, 55), (4, 44)] ⟨[3, 5], 0⟩ ⟨[5, 4], 7⟩).2.2.2
     5 (by decide) (by decide)⟩

/-! Claim C10. -/

/-- C10: PortfolioRiskResult.result returns the tree object itself (after waiting
for the children), not the list of child results a plain CompositeResultFuture
stores; the result() used during path resolution agrees. -/
theorem c10_result_returns_self :
    ∀ (p : List PEntry) (ms : List Nat) (fs : List RV),
      prrResultFn (.prr p ms fs) = .prr p ms fs ∧
      RV.result (.prr p ms fs) = .prr p ms fs :=
  fun _ _ _ => ⟨rfl, rfl⟩

/-! Claim C9. -/

/-- C9: for a tree whose futures mirror its portfolio (one per top-level entry, for
any leaf shape LF and any nesting inside the entries), len(tree) is the number of
top-level portfolio entries. -/
theorem c9_len_top_level :
    ∀ (wrapped : Bool) (LF : Nat → RV → Bool) (ms : List Nat) (p : List PEntry) (fs : List RV),
      shapeList wrapped LF ms p fs = true →
      treeLen (.prr p ms fs) = p.length := by
  intro w LF ms p
  induction p with
  | nil =>
      intro fs h
      cases fs with
      | nil => rfl
      | cons f fs => simp [shapeList] at h
  | cons e es ih =>
      intro fs h
      cases fs with
      | nil => simp [shapeList] at h
      | cons f fs =>
          simp only [shapeList, Bool.and_eq_true] at h
          have := ih fs h.2
          simp only [treeLen, List.length_cons] at this ⊢
          omega

/-- Witness for C9: a two-entry portfolio whose second entry nests two instruments
has a tree of length 2. -/
theorem c9_len_top_level_witness :
    treeLen (.prr [.inst 0, .port [.inst 1, .inst 2]] [1]
      [.pf (.scalar 10 ⟨[5], 0⟩),
       .prr [.inst 1, .inst 2] [1] [.pf (.scalar 11 ⟨[5], 0⟩), .pf (.scalar 12 ⟨[5], 0⟩)]])
      = [PEntry.inst 0, PEntry.port [.inst 1, .inst 2]].length :=
  c9_len_top_level false (fun _ f => f.isFuture) [1] _ _ (by decide)


theorem except_bind_ok {α β : Type} (x : Except PyErr α) (f : α → Except PyErr β) (b : β) :
    (x >>= f) = .ok b ↔ ∃ a, x = .ok a ∧ f a = .ok b := by
  cases x <;> simp [Bind.bind, Except.bind]

/-! Claim C4. -/

/-- C4 counterexample: a historical composite over three dated children whose middle
child failed resolves to the composition of the two good children — a partial
two-point Series — not to the failing child's error value. -/
theorem c4_partial_counterexample :
    historicalSetResult [.scalar 1 ⟨[1], 0⟩, .err ⟨[2], 0⟩, .scalar 3 ⟨[3], 0⟩]
      = .ok (.series [(1, 1), (3, 3)] ⟨[1, 3], 0⟩) := by decide

/-- C4 amended: HistoricalPricingFuture._set_result never raises: only when EVERY
child failed does it store a failure, namely the first child's result (first
failure wins); when at least one child succeeded it stores the composition of all
children along the date axis — a partial historical result (stated here for
non-mapping children). -/
theorem c4_first_failure_only_when_all_fail :
    (∀ (r : RV) (rs : List RV), (∀ x ∈ r :: rs, isErrorLike x = true) →
        historicalSetResult (r :: rs) = .ok r) ∧
    (∀ (rs : List RV) (base : RV), rs.find? (fun r => !isErrorLike r) = some base →
        (∀ i vals, base ≠ RV.mrm i vals) →
        historicalSetResult rs = .ok (scalarCompose rs)) := by
  constructor
  · intro r rs hall
    have hfind : (r :: rs).find? (fun r => !isErrorLike r) = none := by
      rw [List.find?_eq_none]
      intro x hx
      simp [hall x hx]
    simp [historicalSetResult, hfind]
  · intro rs base hfind hnm
    cases base
    case mrm i vals => exact absurd rfl (hnm i vals)
    all_goals simp [historicalSetResult, hfind]

/-- Witness for C4: an all-failed composite stores its first error; a partially
failed one stores the composition of all children. -/
theorem c4_witness :
    historicalSetResult [.err ⟨[1], 0⟩, .err ⟨[2], 0⟩] = .ok (.err ⟨[1], 0⟩) ∧
    historicalSetResult [.scalar 1 ⟨[1], 0⟩, .err ⟨[2], 0⟩]
      = .ok (scalarCompose [.scalar 1 ⟨[1], 0⟩, .err ⟨[2], 0⟩]) :=
  ⟨c4_first_failure_only_when_all_fail.1 (.err ⟨[1], 0⟩) [.err ⟨[2], 0⟩] (by decide),
   c4_first_failure_only_when_all_fail.2 [.scalar 1 ⟨[1], 0⟩, .err ⟨[2], 0⟩]
     (.scalar 1 ⟨[1], 0⟩) (by decide) (fun _ _ h => by simp at h)⟩

/-! Claim C6. -/

/-- C6 counterexample: composing two scalars that carry different dates does not
raise — it returns a two-point dated Series. -/
theorem c6_different_dates_counterexample :
    composeRV (.scalar 1 ⟨[3], 0⟩) (.scalar 2 ⟨[4], 0⟩)
      = .ok (.series [(3, 1), (4, 2)] ⟨[3, 4], 0⟩) := by decide

/-- C6 amended: scalar ⊕ scalar returns the right-hand operand when the two risk
keys carry the same date, and otherwise composes the two dated scalars into a
Series along the date axis (no error is raised). -/
theorem c6_scalar_compose :
    ∀ (v1 v2 : Int) (k1 k2 : RKey),
      (k1.dates = k2.dates →
        composeRV (.scalar v1 k1) (.scalar v2 k2) = .ok (.scalar v2 k2)) ∧
      (k1.dates ≠ k2.dates →
        composeRV (.scalar v1 k1) (.scalar v2 k2)
          = .ok (.series (sortIndex [(k1.dates.headD 0, v1), (k2.dates.headD 0, v2)])
              ⟨(sortIndex [(k1.dates.headD 0, v1), (k2.dates.headD 0, v2)]).map Prod.fst,
               k1.exm⟩)) := by
  intro v1 v2 k1 k2
  constructor
  · intro h
    simp [composeRV, RV.msize, composeF, h]
  · intro h
    simp [composeRV, RV.msize, composeF, h, scalarCompose]

/-- Witness for C6 at concrete scalars: same date gives the right operand,
different dates give the dated Series. -/
theorem c6_witness :
    composeRV (.scalar 7 ⟨[9], 2⟩) (.scalar 8 ⟨[9], 2⟩) = .ok (.scalar 8 ⟨[9], 2⟩) ∧
    composeRV (.scalar 7 ⟨[1], 2⟩) (.scalar 8 ⟨[9], 2⟩)
      = .ok (.series (sortIndex [(1, 7), (9, 8)])
          ⟨(sortIndex [(1, 7), (9, 8)]).map Prod.fst, 2⟩) :=
  ⟨(c6_scalar_compose 7 8 ⟨[9], 2⟩ ⟨[9], 2⟩).1 rfl,
   (c6_scalar_compose 7 8 ⟨[1], 2⟩ ⟨[9], 2⟩).2 (by decide)⟩

/-! Claim C8. -/

/-- C8 counterexample: multiplying a tree by a non-numeric operand does not fail
with a TypeError — the method returns normally, handing back a ValueError instance
as the result value. -/
theorem c8_nonnumeric_counterexample :
    treeMul (.prr [.inst 0] [1] [.pf (.scalar 10 ⟨[5], 0⟩)]) .nonNumeric
      = .ok (.exn (.valueError "Can only multiply by an int or float")) := by decide

theorem treeMulList_scalars :
    ∀ (xs : List (Int × RKey)) (n : Int),
      treeMulList (xs.map (fun a => RV.pf (.scalar a.1 a.2))) n
        = .ok (xs.map (fun a => RV.pf (.scalar (a.1 * n) a.2))) := by
  intro xs n
  induction xs with
  | nil => rfl
  | cons x rest ih =>
      simp only [List.map_cons, treeMulList, futureMul, scaleValue]
      rw [except_bind_ok]
      refine ⟨RV.pf (.scalar (x.1 * n) x.2), rfl, ?_⟩
      rw [except_bind_ok]
      exact ⟨_, ih, rfl⟩

/-- C8 amended: a numeric operand scales payloads elementwise for plain futures,
measure mappings and single-measure trees of plain futures, while a multi-measure
tree (MultipleRiskMeasureFuture leaves) raises TypeError from the future-copy
constructor; a non-numeric operand yields a ValueError-class error — raised by
PricingFuture.__mul__, but RETURNED as the result value by
MultipleRiskMeasureResult.__mul__ and PortfolioRiskResult.__mul__. -/
theorem c8_mul_semantics :
    (∀ (v : Int) (k : RKey) (n : Int),
        futureMul (.pf (.scalar v k)) (.int n) = .ok (.pf (.scalar (v * n) k))) ∧
    (∀ (s : List (Nat × Int)) (k : RKey) (n : Int),
        futureMul (.pf (.series s k)) (.int n)
          = .ok (.pf (.series (s.map (fun q => (q.1, q.2 * n))) k))) ∧
    (∀ f : RV, futureMul f .nonNumeric
        = .error (.valueError "Can only multiply by an int or float")) ∧
    (∀ (i : Nat) (vals : List (Nat × RV)),
        mrmMul i vals .nonNumeric
          = .ok (.exn (.valueError "Can only multiply by an int or float"))) ∧
    (∀ (p : List PEntry) (ms : List Nat) (fs : List RV),
        treeMul (.prr p ms fs) .nonNumeric
          = .ok (.exn (.valueError "Can only multiply by an int or float"))) ∧
    (∀ (p : List PEntry) (ms : List Nat) (i : Nat) (vals : List (Nat × RV))
        (rest : List RV) (n : Int),
        treeMul (.prr p ms (.mrmf i vals :: rest)) (.int n)
          = .error (.typeError "__init__ missing required positional argument")) ∧
    (∀ (p : List PEntry) (ms : List Nat) (xs : List (Int × RKey)) (n : Int),
        treeMul (.prr p ms (xs.map (fun a => RV.pf (.scalar a.1 a.2)))) (.int n)
          = .ok (.prr p ms (xs.map (fun a => RV.pf (.scalar (a.1 * n) a.2))))) := by
  refine ⟨fun _ _ _ => rfl, fun _ _ _ => rfl, ?_, fun _ _ => rfl, fun _ _ _ => rfl,
    fun _ _ _ _ _ _ => rfl, ?_⟩
  · intro f
    cases f <;> rfl
  · intro p ms xs n
    simp only [treeMul]
    rw [except_bind_ok]
    exact ⟨_, treeMulList_scalars xs n, rfl⟩

/-! Claim C2, counterexample. -/

/-- C2 counterexample: two trees whose risk-measure sets overlap (both computed
measure 1) but whose instrument sets are disjoint add successfully — overlap in
just one of the three sets does not make the addition fail. -/
theorem c2_overlap_counterexample :
    treeAdd (.prr [.inst 0] [1] [.pf (.scalar 10 ⟨[5], 0⟩)])
        (.prr [.inst 1] [1] [.pf (.scalar 20 ⟨[5], 0⟩)])
      = .ok (.prr [.inst 0, .inst 1] [1]
          [.mrmf 0 [(1, .pf (.scalar 10 ⟨[5], 0⟩))],
           .mrmf 1 [(1, .pf (.scalar 20 ⟨[5], 0⟩))]]) := by decide


/-! Claim C7. -/

/-- C7 counterexample: adding a multi-measure tree A over instruments 0 and 1 to a
single-measure tree B over instrument 0 (different portfolios sharing instrument 0)
mutates A in place: the result shares A's leaf futures, and the fill-in pass writes
B's measure-3 value into A's instrument-0 mapping, so indexing A at (0, 3) now
returns a value where before the addition it was a KeyError. -/
theorem c7_mutation_counterexample :
    treeAddCore
        (.prr [.inst 0, .inst 1] [1, 2]
          [.mrmf 0 [(1, .pf (.scalar 10 ⟨[5], 0⟩)), (2, .pf (.scalar 20 ⟨[5], 0⟩))],
           .mrmf 1 [(1, .pf (.scalar 11 ⟨[5], 0⟩)), (2, .pf (.scalar 21 ⟨[5], 0⟩))]])
        (.prr [.inst 0] [3] [.pf (.scalar 30 ⟨[5], 0⟩)])
      = .ok
        (.prr [.inst 0, .inst 1, .inst 0] [1, 2, 3]
          [.mrmf 0 [(1, .pf (.scalar 10 ⟨[5], 0⟩)), (2, .pf (.scalar 20 ⟨[5], 0⟩)),
                    (3, .pf (.scalar 30 ⟨[5], 0⟩))],
           .mrmf 1 [(1, .pf (.scalar 11 ⟨[5], 0⟩)), (2, .pf (.scalar 21 ⟨[5], 0⟩))],
           .mrmf 0 [(3, .pf (.scalar 30 ⟨[5], 0⟩)), (1, .pf (.scalar 10 ⟨[5], 0⟩)),
                    (2, .pf (.scalar 20 ⟨[5], 0⟩))]],
         .prr [.inst 0, .inst 1] [1, 2]
          [.mrmf 0 [(1, .pf (.scalar 10 ⟨[5], 0⟩)), (2, .pf (.scalar 20 ⟨[5], 0⟩)),
                    (3, .pf (.scalar 30 ⟨[5], 0⟩))],
           .mrmf 1 [(1, .pf (.scalar 11 ⟨[5], 0⟩)), (2, .pf (.scalar 21 ⟨[5], 0⟩))]],
         .prr [.inst 0] [3] [.pf (.scalar 30 ⟨[5], 0⟩)]) ∧
    (RV.prr [.inst 0, .inst 1] [1, 2]
          [.mrmf 0 [(1, .pf (.scalar 10 ⟨[5], 0⟩)), (2, .pf (.scalar 20 ⟨[5], 0⟩)),
                    (3, .pf (.scalar 30 ⟨[5], 0⟩))],
           .mrmf 1 [(1, .pf (.scalar 11 ⟨[5], 0⟩)), (2, .pf (.scalar 21 ⟨[5], 0⟩))]])
      ≠ (.prr [.inst 0, .inst 1] [1, 2]
          [.mrmf 0 [(1, .pf (.scalar 10 ⟨[5], 0⟩)), (2, .pf (.scalar 20 ⟨[5], 0⟩))],
           .mrmf 1 [(1, .pf (.scalar 11 ⟨[5], 0⟩)), (2, .pf (.scalar 21 ⟨[5], 0⟩))]]) ∧
    obsAt (.prr [.inst 0, .inst 1] [1, 2]
          [.mrmf 0 [(1, .pf (.scalar 10 ⟨[5], 0⟩)), (2, .pf (.scalar 20 ⟨[5], 0⟩)),
                    (3, .pf (.scalar 30 ⟨[5], 0⟩))],
           .mrmf 1 [(1, .pf (.scalar 11 ⟨[5], 0⟩)), (2, .pf (.scalar 21 ⟨[5], 0⟩))]])
        0 3 = .ok (.scalar 30 ⟨[5], 0⟩) ∧
    obsAt (.prr [.inst 0, .inst 1] [1, 2]
          [.mrmf 0 [(1, .pf (.scalar 10 ⟨[5], 0⟩)), (2, .pf (.scalar 20 ⟨[5], 0⟩))],
           .mrmf 1 [(1, .pf (.scalar 11 ⟨[5], 0⟩)), (2, .pf (.scalar 21 ⟨[5], 0⟩))]])
        0 3 = .error (.keyError "risk measure") := by decide

/-- C7 amended: addition leaves both operands untouched whenever the two trees have
equal portfolios (leaf-by-leaf addition into fresh futures, no fill-in pass) and
whenever an operand is single-measure (as_multiple_result_futures wraps it freshly);
only a multi-measure operand of a different-portfolio addition shares its futures
with the result, where the fill-in pass can mutate it in place. -/
theorem c7_add_operands_unchanged_cases :
    ∀ (pA : List PEntry) (msA : List Nat) (fsA : List RV)
      (pB : List PEntry) (msB : List Nat) (fsB : List RV) (ret A2 B2 : RV),
      treeAddCore (.prr pA msA fsA) (.prr pB msB fsB) = .ok (ret, A2, B2) →
      ((pA = pB → A2 = .prr pA msA fsA ∧ B2 = .prr pB msB fsB) ∧
       (msA.length ≤ 1 → A2 = .prr pA msA fsA) ∧
       (msB.length ≤ 1 → B2 = .prr pB msB fsB)) := by
  intro pA msA fsA pB msB fsB ret A2 B2 h
  simp only [treeAddCore] at h
  rw [except_bind_ok] at h
  obtain ⟨fv, hfv, h⟩ := h
  rw [except_bind_ok] at h
  obtain ⟨compat, hcompat, h⟩ := h
  cases compat with
  | false =>
      simp only [Bool.not_false, if_pos] at h
      injection h with h1
      injection h1 with hret h2
      injection h2 with hA hB
      subst hA; subst hB
      exact ⟨fun _ => ⟨rfl, rfl⟩, fun _ => rfl, fun _ => rfl⟩
  | true =>
      simp only [Bool.not_true, Bool.false_eq_true, if_false] at h
      rw [except_bind_ok] at h
      obtain ⟨ov, hov, h⟩ := h
      cases ov with
      | true => simp at h
      | false =>
          simp only [if_neg (by simp : ¬ (false = true))] at h
          by_cases hp : pA = pB
          · rw [if_pos hp] at h
            rw [except_bind_ok] at h
            obtain ⟨nfs, _, h⟩ := h
            injection h with h1
            injection h1 with hret h2
            injection h2 with hA hB
            subst hA; subst hB
            exact ⟨fun _ => ⟨rfl, rfl⟩, fun _ => rfl, fun _ => rfl⟩
          · rw [if_neg hp] at h
            by_cases hm : (dedupFirst (msA ++ msB)).length > 1
            · rw [if_pos hm] at h
              rw [except_bind_ok] at h
              obtain ⟨filled, _, h⟩ := h
              injection h with h1
              injection h1 with hret h2
              injection h2 with hA hB
              subst hA; subst hB
              refine ⟨fun hpp => absurd hpp hp, ?_, ?_⟩
              · intro hlen
                rw [if_neg (by omega)]
              · intro hlen
                rw [if_neg (by omega)]
            · rw [if_neg hm] at h
              injection h with h1
              injection h1 with hret h2
              injection h2 with hA hB
              subst hA; subst hB
              exact ⟨fun hpp => absurd hpp hp, fun _ => rfl, fun _ => rfl⟩

/-- Witness for C7 at a concrete equal-portfolio addition: both operands come back
unchanged. -/
theorem c7_witness :
    treeAddCore (.prr [.inst 0] [1] [.pf (.scalar 10 ⟨[5], 0⟩)])
        (.prr [.inst 0] [2] [.pf (.scalar 20 ⟨[5], 0⟩)])
      = .ok (.prr [.inst 0] [1, 2]
          [.mrmf 0 [(1, .pf (.scalar 10 ⟨[5], 0⟩)), (2, .pf (.scalar 20 ⟨[5], 0⟩))]],
          .prr [.inst 0] [1] [.pf (.scalar 10 ⟨[5], 0⟩)],
          .prr [.inst 0] [2] [.pf (.scalar 20 ⟨[5], 0⟩)]) ∧
    (.prr [.inst 0] [1] [.pf (.scalar 10 ⟨[5], 0⟩)] : RV)
      = .prr [.inst 0] [1] [.pf (.scalar 10 ⟨[5], 0⟩)] :=
  ⟨by decide,
   (c7_add_operands_unchanged_cases [.inst 0] [1] [.pf (.scalar 10 ⟨[5], 0⟩)]
      [.inst 0] [2] [.pf (.scalar 20 ⟨[5], 0⟩)]
      (.prr [.inst 0] [1, 2]
        [.mrmf 0 [(1, .pf (.scalar 10 ⟨[5], 0⟩)), (2, .pf (.scalar 20 ⟨[5], 0⟩))]])
      (.prr [.inst 0] [1] [.pf (.scalar 10 ⟨[5], 0⟩)])
      (.prr [.inst 0] [2] [.pf (.scalar 20 ⟨[5], 0⟩)]) (by decide)).1 rfl |>.1⟩


/-! Infrastructure: resolving an instrument's first path in a shaped tree. -/

mutual

def pathsToEntryFrom_shift : (tgt : PEntry) → (j : Nat) → (es : List PEntry) →
    pathsToEntryFrom tgt j es = (pathsToEntryFrom tgt 0 es).map (headShift j)
  | tgt, j, [] => by simp [pathsToEntryFrom]
  | tgt, j, e :: es => by
      have h1 := PEntry.matchPaths_shift tgt j e
      have h2 := pathsToEntryFrom_shift tgt (j + 1) es
      have h3 := pathsToEntryFrom_shift tgt 1 es
      simp only [pathsToEntryFrom, List.map_append]
      rw [h1, h2, h3, List.map_map]
      congr 1
      apply List.map_congr_left
      intro q _
      cases q with
      | nil => simp [headShift]
      | cons a r => simp [headShift]; omega

def PEntry.matchPaths_shift : (tgt : PEntry) → (j : Nat) → (e : PEntry) →
    PEntry.matchPaths tgt j e = (PEntry.matchPaths tgt 0 e).map (headShift j)
  | tgt, j, .inst i => by
      simp only [PEntry.matchPaths]
      by_cases h : PEntry.inst i = tgt <;> simp [h, headShift]
  | tgt, j, .port es2 => by
      simp only [PEntry.matchPaths]
      by_cases h : PEntry.port es2 = tgt
      · simp [h, headShift]
      · simp only [if_neg h, List.map_map]
        apply List.map_congr_left
        intro q _
        simp [headShift]

end

mutual

def PEntry.matchPaths_nil : (i j : Nat) → (e : PEntry) → i ∉ PEntry.instruments e →
    PEntry.matchPaths (.inst i) j e = []
  | i, j, .inst i2, h => by
      have : ¬ PEntry.inst i2 = PEntry.inst i := by
        intro hc
        injection hc with hc
        exact h (by simp [PEntry.instruments, hc])
      simp [PEntry.matchPaths, this]
  | i, j, .port es2, h => by
      have : ¬ PEntry.port es2 = PEntry.inst i := by intro hc; cases hc
      rw [PEntry.matchPaths, if_neg this, pathsToEntryFrom_nil i 0 es2 (by
        simpa [PEntry.instruments] using h)]
      rfl

def pathsToEntryFrom_nil : (i j : Nat) → (es : List PEntry) →
    i ∉ PEntry.instrumentsList es → pathsToEntryFrom (.inst i) j es = []
  | i, j, [], h => rfl
  | i, j, e :: es, h => by
      have hsplit : i ∉ PEntry.instruments e ∧ i ∉ PEntry.instrumentsList es := by
        constructor <;> intro hc <;>
          exact h (by simp [PEntry.instrumentsList, List.mem_append, hc])
      rw [pathsToEntryFrom, PEntry.matchPaths_nil i j e hsplit.1,
        pathsToEntryFrom_nil i (j + 1) es hsplit.2]
      rfl

end

theorem pathCall_succ (a : Nat) (r : List Nat) (f : RV) (fs : List RV) :
    pathCall ((a + 1) :: r) (f :: fs) = pathCall (a :: r) fs := rfl

theorem pathCall_cons_zero (f : RV) (fs : List RV) (q : List Nat) :
    pathCall (0 :: q) (f :: fs) =
      pathCallAux q (if f.isFuture && !q.isEmpty then f.result else f) := rfl

theorem nodeForm_result (w : Bool) (f : RV) (p : List PEntry) (ms : List Nat)
    (fs : List RV) (h : nodeForm w f = some (p, ms, fs)) :
    RV.result f = .prr p ms fs ∧ f.isFuture = true := by
  cases w <;> cases f <;> simp [nodeForm] at h
  · rcases h with ⟨h1, h2, h3⟩
    subst h1; subst h2; subst h3
    exact ⟨rfl, rfl⟩
  · rename_i v
    cases v <;> simp [nodeForm] at h
    rcases h with ⟨h1, h2, h3⟩
    subst h1; subst h2; subst h3
    exact ⟨rfl, rfl⟩

theorem pathCallAux_prr (a : Nat) (r : List Nat) (p2 : List PEntry) (ms2 : List Nat)
    (fs2 : List RV) :
    pathCallAux (a :: r) (.prr p2 ms2 fs2) = pathCall (a :: r) fs2 := by
  simp only [pathCallAux, pathCall, pathTargetStep, RV.isComposite, RV.futuresOf,
    if_true]

mutual

def shapeInstNonempty : (w : Bool) → (LF : Nat → RV → Bool) → (ms : List Nat) →
    (e : PEntry) → (f : RV) → shapeEntry w LF ms e f = true →
    PEntry.instruments e ≠ []
  | w, LF, ms, .inst i, f, _ => by simp [PEntry.instruments]
  | w, LF, ms, .port es, f, h => by
      simp only [shapeEntry, Bool.and_eq_true] at h
      have hne := h.1
      cases hnf : nodeForm w f with
      | none => rw [hnf] at h; simp at h
      | some trip =>
          rw [hnf] at h
          rcases trip with ⟨p2, ms2, fs2⟩
          simp only [Bool.and_eq_true] at h
          cases es with
          | nil => simp at hne
          | cons e2 es2b =>
              cases fs2 with
              | nil => simp [shapeList] at h
              | cons f2 fs2b =>
                  have hent : shapeEntry w LF ms e2 f2 = true := by
                    have := h.2.2
                    simp only [shapeList, Bool.and_eq_true] at this
                    exact this.1
                  have := shapeInstNonempty w LF ms e2 f2 hent
                  simp only [PEntry.instruments, PEntry.instrumentsList]
                  intro hc
                  rcases List.append_eq_nil.1 hc with ⟨h1, _⟩
                  exact this h1

def shapeListInstNonempty : (w : Bool) → (LF : Nat → RV → Bool) → (ms : List Nat) →
    (p : List PEntry) → (fs : List RV) → shapeList w LF ms p fs = true → p ≠ [] →
    PEntry.instrumentsList p ≠ []
  | w, LF, ms, [], fs, h, hne => absurd rfl hne
  | w, LF, ms, e :: es, fs, h, _ => by
      cases fs with
      | nil => simp [shapeList] at h
      | cons f fsr =>
          simp only [shapeList, Bool.and_eq_true] at h
          have := shapeInstNonempty w LF ms e f h.1
          simp only [PEntry.instrumentsList]
          intro hc
          rcases List.append_eq_nil.1 hc with ⟨h1, _⟩
          exact this h1

end

mutual

/-- First-path resolution in a shaped tree: an instrument of the portfolio has a
first matching path, and walking it resolves to a future of the leaf shape. -/
def shapeResolveList : (w : Bool) → (LF : Nat → RV → Bool) → (ms : List Nat) →
    (p : List PEntry) → (fs : List RV) → (i : Nat) →
    shapeList w LF ms p fs = true → i ∈ PEntry.instrumentsList p →
    ∃ a r rest f, pathsToEntryFrom (.inst i) 0 p = (a :: r) :: rest ∧
      pathCall (a :: r) fs = .ok f ∧ LF i f = true
  | w, LF, ms, [], fs, i, _, hmem => by simp [PEntry.instrumentsList] at hmem
  | w, LF, ms, e :: es, fs, i, h, hmem => by
      cases fs with
      | nil => simp [shapeList] at h
      | cons f fsr =>
          simp only [shapeList, Bool.and_eq_true] at h
          by_cases hin : i ∈ PEntry.instruments e
          · rcases shapeResolveEntry w LF ms e f i h.1 hin with ⟨r, rest, hmp, g, hpc, hlf⟩
            refine ⟨0, r, rest ++ pathsToEntryFrom (.inst i) 1 es, g, ?_, hpc fsr, hlf⟩
            simp [pathsToEntryFrom, hmp]
          · have hmem2 : i ∈ PEntry.instrumentsList es := by
              simp only [PEntry.instrumentsList, List.mem_append] at hmem
              tauto
            rcases shapeResolveList w LF ms es fsr i h.2 hmem2 with
              ⟨a, r, rest, g, hpaths, hpc, hlf⟩
            refine ⟨a + 1, r, (pathsToEntryFrom (.inst i) 0 es).tail.map (headShift 1), g, ?_, ?_, hlf⟩
            · rw [pathsToEntryFrom, PEntry.matchPaths_nil i 0 e hin,
                pathsToEntryFrom_shift (.inst i) 1 es, hpaths]
              simp [headShift]
            · rw [pathCall_succ]
              exact hpc

/-- First-path resolution within one portfolio entry (paths are relative, rooted at
position 0, and resolve against the entry's own future whatever follows it). -/
def shapeResolveEntry : (w : Bool) → (LF : Nat → RV → Bool) → (ms : List Nat) →
    (e : PEntry) → (f : RV) → (i : Nat) →
    shapeEntry w LF ms e f = true → i ∈ PEntry.instruments e →
    ∃ r rest, PEntry.matchPaths (.inst i) 0 e = (0 :: r) :: rest ∧
      ∃ g, (∀ fs2 : List RV, pathCall (0 :: r) (f :: fs2) = .ok g) ∧ LF i g = true
  | w, LF, ms, .inst i2, f, i, h, hin => by
      have hi : i = i2 := by simpa [PEntry.instruments] using hin
      subst hi
      refine ⟨[], [], by simp [PEntry.matchPaths], f, ?_, h⟩
      intro fs2
      rw [pathCall_cons_zero]
      simp [pathCallAux]
  | w, LF, ms, .port es2, f, i, h, hin => by
      simp only [shapeEntry, Bool.and_eq_true] at h
      cases hnf : nodeForm w f with
      | none => rw [hnf] at h; simp at h
      | some trip =>
          rw [hnf] at h
          rcases trip with ⟨p2, ms2, fs2⟩
          simp only [Bool.and_eq_true] at h
          have hin2 : i ∈ PEntry.instrumentsList es2 := by
            simpa [PEntry.instruments] using hin
          rcases shapeResolveList w LF ms es2 fs2 i h.2.2 hin2 with
            ⟨a, r, rest, g, hpaths, hpc, hlf⟩
          have hne : ¬ PEntry.port es2 = PEntry.inst i := by intro hc; cases hc
          refine ⟨a :: r, rest.map (fun q => 0 :: q), ?_, g, ?_, hlf⟩
          · rw [PEntry.matchPaths, if_neg hne, hpaths]
            rfl
          · intro fsx
            have hres := nodeForm_result w f p2 ms2 fs2 hnf
            rw [pathCall_cons_zero, if_pos (by simp [hres.2]), hres.1, pathCallAux_prr]
            exact hpc

end


/-! Infrastructure: plain values, measure pinning, and the canonical measure merge. -/

theorem isVal_unwrap (v : RV) (h : v.isVal = true) :
    RV.unwrapFirst v = .ok v ∧ ∃ k, RV.riskKeyOf v = .ok k ∧ k.exm = v.exmOf := by
  cases v <;> simp [RV.isVal] at h <;>
    simp [RV.unwrapFirst, RV.riskKeyOf, RV.exmOf]

theorem pinStep_plain (ms : List Nat) (o : Option Nat) (res : RV)
    (h : res.isPlainVal = true) : pinStep ms o res = .ok res := by
  cases res <;> simp [RV.isPlainVal] at h <;>
    (unfold pinStep;
     cases ho : (if (ms.length == 1 && o.isNone) = true then some (ms.headD 0) else o) <;>
       rfl)

theorem pinStep_mrm_multi (ms : List Nat) (i : Nat) (vals : List (Nat × RV))
    (h : (ms.length == 1) = false) :
    pinStep ms none (.mrm i vals) = .ok (.mrm i vals) := by
  unfold pinStep
  simp [h]

theorem pinStep_mrm_single (m : Nat) (i : Nat) (vals : List (Nat × RV)) :
    pinStep [m] none (.mrm i vals) =
      (match vals.lookup m with
       | some v => .ok v
       | none => .error (.keyError "risk measure")) := by
  unfold pinStep
  simp

theorem dedupFirst_eq_self : ∀ (l : List Nat), l.Nodup → dedupFirst l = l := by
  intro l
  induction l with
  | nil => intro _; rfl
  | cons k ks ih =>
      intro h
      rcases List.nodup_cons.1 h with ⟨hk, hks⟩
      rw [dedupFirst, ih hks, List.filter_eq_self.2]
      intro a ha
      simp only [decide_eq_true_eq]
      intro hak
      exact hk (hak ▸ ha)

theorem listDisjoint_iff (a b : List Nat) :
    listDisjoint a b = true ↔ ∀ x ∈ a, x ∉ b := by
  simp [listDisjoint, List.all_eq_true]

theorem nodup_append_of_disjoint (a b : List Nat) (ha : a.Nodup) (hb : b.Nodup)
    (hd : listDisjoint a b = true) : (a ++ b).Nodup := by
  rw [List.nodup_append]
  exact ⟨ha, hb, fun x hx => (listDisjoint_iff a b).1 hd x hx⟩

theorem lookup_append_none {β : Type} :
    ∀ (l1 l2 : List (Nat × β)) (k : Nat), l1.lookup k = none →
      (l1 ++ l2).lookup k = l2.lookup k := by
  intro l1
  induction l1 with
  | nil => intro l2 k _; rfl
  | cons x xs ih =>
      intro l2 k h
      rcases x with ⟨k2, v2⟩
      rw [lookup_cons_eq] at h
      by_cases hk : k = k2
      · rw [if_pos hk] at h; cases h
      · rw [if_neg hk] at h
        rw [List.cons_append, lookup_cons_eq, if_neg hk]
        exact ih l2 k h

theorem lookup_append_some {β : Type} :
    ∀ (l1 l2 : List (Nat × β)) (k : Nat) (v : β), l1.lookup k = some v →
      (l1 ++ l2).lookup k = some v := by
  intro l1
  induction l1 with
  | nil => intro l2 k v h; cases h
  | cons x xs ih =>
      intro l2 k v h
      rcases x with ⟨k2, v2⟩
      rw [lookup_cons_eq] at h
      by_cases hk : k = k2
      · rw [if_pos hk] at h
        rw [List.cons_append, lookup_cons_eq, if_pos hk]
        exact h
      · rw [if_neg hk] at h
        rw [List.cons_append, lookup_cons_eq, if_neg hk]
        exact ih l2 k v h

theorem filterMap_lookup_all {β : Type} (side : List (Nat × β)) (g : Nat → β) :
    ∀ (keys : List Nat), (∀ k ∈ keys, side.lookup k = some (g k)) →
      keys.filterMap (fun k => (side.lookup k).map (fun v => (k, v)))
        = keys.map (fun k => (k, g k)) := by
  intro keys
  induction keys with
  | nil => intro _; rfl
  | cons k ks ih =>
      intro h
      rw [List.filterMap_cons, h k (List.mem_cons_self k ks)]
      rw [List.map_cons, ih (fun k2 hk2 => h k2 (List.mem_cons_of_mem k hk2))]
      rfl

theorem filterMap_lookup_none {β : Type} (side : List (Nat × β)) :
    ∀ (keys : List Nat), (∀ k ∈ keys, side.lookup k = none) →
      keys.filterMap (fun k => (side.lookup k).map (fun v => (k, v))) = [] := by
  intro keys
  induction keys with
  | nil => intro _; rfl
  | cons k ks ih =>
      intro h
      rw [List.filterMap_cons, h k (List.mem_cons_self k ks)]
      exact ih (fun k2 hk2 => h k2 (List.mem_cons_of_mem k hk2))

theorem resultPairs_map_pf (g : Nat → RV) : ∀ (l : List Nat),
    RV.resultPairs (l.map (fun m => (m, RV.pf (g m)))) = l.map (fun m => (m, g m)) := by
  intro l
  induction l with
  | nil => rfl
  | cons m ms ih => simp [RV.resultPairs, RV.result, ih]

theorem msizePairs_ge : ∀ (l : List (Nat × RV)), l.length ≤ RV.msizePairs l := by
  intro l
  induction l with
  | nil => simp [RV.msizePairs]
  | cons kv rest ih =>
      rw [RV.msizePairs]
      simp only [List.length_cons]
      omega

theorem mrmMergeSideF_disjoint :
    ∀ (keys : List Nat) (fuel : Nat) (acc side : List (Nat × RV)),
      keys.length < fuel → keys.Nodup →
      (∀ k ∈ keys, (side.lookup k).isSome = true → acc.lookup k = none) →
      mrmMergeSideF fuel acc side keys =
        .ok (acc ++ keys.filterMap (fun k => (side.lookup k).map (fun v => (k, v)))) := by
  intro keys
  induction keys with
  | nil =>
      intro fuel acc side hf _ _
      cases fuel with
      | zero => omega
      | succ f => simp [mrmMergeSideF]
  | cons k ks ih =>
      intro fuel acc side hf hnd hcond
      cases fuel with
      | zero => omega
      | succ f =>
          rcases List.nodup_cons.1 hnd with ⟨hk, hks⟩
          rw [mrmMergeSideF, List.filterMap_cons]
          cases hlk : side.lookup k with
          | none =>
              simp only [Option.map_none]
              exact ih f acc side (by simp at hf; omega) hks
                (fun k2 hk2 hs => hcond k2 (List.mem_cons_of_mem k hk2) hs)
          | some v =>
              have hacc : acc.lookup k = none :=
                hcond k (List.mem_cons_self k ks) (by rw [hlk]; rfl)
              rw [hacc]
              simp only [Option.map_some]
              rw [ih f (acc ++ [(k, v)]) side (by simp at hf; omega) hks ?_]
              · rw [List.append_assoc]
                rfl
              · intro k2 hk2 hs
                have hne : k2 ≠ k := fun hc => hk (hc ▸ hk2)
                rw [lookup_append_none acc [(k, v)] k2
                  (hcond k2 (List.mem_cons_of_mem k hk2) hs), lookup_cons_eq,
                  if_neg hne]
                rfl

theorem except_bind_ok_left {α β : Type} (x : Except PyErr α)
    (f : α → Except PyErr β) {a : α} (h : x = .ok a) :
    (x >>= f) = f a := by
  rw [h]
  rfl

/-- MultipleRiskMeasureResult.__add__ on two canonical leaf mappings of the same
instrument with disjoint measure sets: the merged mapping carries the left side's
graph followed by the right side's. -/
theorem mrmAdd_canonical (i : Nat) (gA gB : Nat → RV) (exm : Nat)
    (msA msB : List Nat)
    (hAne : msA ≠ []) (hBne : msB ≠ [])
    (hAval : ∀ m ∈ msA, (gA m).isVal = true ∧ (gA m).exmOf = exm)
    (hBval : ∀ m ∈ msB, (gB m).isVal = true ∧ (gB m).exmOf = exm)
    (hnA : msA.Nodup) (hnB : msB.Nodup) (hd : listDisjoint msA msB = true) :
    mrmAdd i (msA.map (fun m => (m, gA m))) i (msB.map (fun m => (m, gB m))) =
      .ok (.mrm i (msA.map (fun m => (m, gA m)) ++ msB.map (fun m => (m, gB m)))) := by
  have hdisj : ∀ m ∈ msA, m ∉ msB := (listDisjoint_iff msA msB).1 hd
  have hcompat : riskKeysCompatible (.mrm i (msA.map (fun m => (m, gA m))))
      (.mrm i (msB.map (fun m => (m, gB m)))) = .ok true := by
    rcases List.exists_cons_of_ne_nil hAne with ⟨mA0, tlA, hAeq⟩
    rcases List.exists_cons_of_ne_nil hBne with ⟨mB0, tlB, hBeq⟩
    have hA0 := hAval mA0 (hAeq ▸ List.mem_cons_self mA0 tlA)
    have hB0 := hBval mB0 (hBeq ▸ List.mem_cons_self mB0 tlB)
    rcases isVal_unwrap (gA mA0) hA0.1 with ⟨huA, kA, hkA, hexA⟩
    rcases isVal_unwrap (gB mB0) hB0.1 with ⟨huB, kB, hkB, hexB⟩
    rw [riskKeysCompatible, hAeq, hBeq]
    simp only [List.map_cons, RV.unwrapFirst]
    rw [except_bind_ok_left _ _ huA, except_bind_ok_left _ _ hkA,
      except_bind_ok_left _ _ huB, except_bind_ok_left _ _ hkB]
    simp only [histExMeasure, hexA, hexB, hA0.2, hB0.2, beq_self_eq_true]
    rfl
  have hkeysA : keysOf (msA.map (fun m => (m, gA m))) = msA := map_fst_graph gA msA
  have hkeysB : keysOf (msB.map (fun m => (m, gB m))) = msB := map_fst_graph gB msB
  have hnU : (msA ++ msB).Nodup := nodup_append_of_disjoint msA msB hnA hnB hd
  have hlkA : ∀ k ∈ msA, (msA.map (fun m => (m, gA m))).lookup k = some (gA k) := by
    intro k hk
    rw [lookup_graph, if_pos hk]
  have hlkAB : ∀ k ∈ msB, (msA.map (fun m => (m, gA m))).lookup k = none := by
    intro k hk
    rw [lookup_graph, if_neg (fun hmem => hdisj k hmem hk)]
  have hlkB : ∀ k ∈ msB, (msB.map (fun m => (m, gB m))).lookup k = some (gB k) := by
    intro k hk
    rw [lookup_graph, if_pos hk]
  have hlkBA : ∀ k ∈ msA, (msB.map (fun m => (m, gB m))).lookup k = none := by
    intro k hk
    rw [lookup_graph, if_neg (fun hmem => hdisj k hk hmem)]
  have hlen : (msA ++ msB).length <
      2 * (RV.msizePairs (msA.map (fun m => (m, gA m))) +
           RV.msizePairs (msB.map (fun m => (m, gB m)))) + 3 := by
    have h1 := msizePairs_ge (msA.map (fun m => (m, gA m)))
    have h2 := msizePairs_ge (msB.map (fun m => (m, gB m)))
    simp only [List.length_map] at h1 h2
    simp only [List.length_append]
    omega
  have hm1 : mrmMergeSideF
      (2 * (RV.msizePairs (msA.map (fun m => (m, gA m))) +
            RV.msizePairs (msB.map (fun m => (m, gB m)))) + 3)
      [] (msA.map (fun m => (m, gA m))) (msA ++ msB) =
      .ok (msA.map (fun m => (m, gA m))) := by
    rw [mrmMergeSideF_disjoint (msA ++ msB) _ [] _ hlen hnU (fun k _ _ => rfl)]
    rw [List.filterMap_append, filterMap_lookup_all _ gA msA hlkA,
      filterMap_lookup_none _ msB hlkAB]
    simp
  have hm2 : mrmMergeSideF
      (2 * (RV.msizePairs (msA.map (fun m => (m, gA m))) +
            RV.msizePairs (msB.map (fun m => (m, gB m)))) + 3)
      (msA.map (fun m => (m, gA m))) (msB.map (fun m => (m, gB m))) (msA ++ msB) =
      .ok (msA.map (fun m => (m, gA m)) ++ msB.map (fun m => (m, gB m))) := by
    rw [mrmMergeSideF_disjoint (msA ++ msB) _ _ _ hlen hnU ?_]
    · rw [List.filterMap_append, filterMap_lookup_none _ msA hlkBA,
        filterMap_lookup_all _ gB msB hlkB]
      simp
    · intro k hk hs
      have hkB2 : k ∈ msB := by
        by_contra hkn
        rw [lookup_graph, if_neg hkn] at hs
        cases hs
      rw [lookup_graph, if_neg (fun hmem => hdisj k hmem hkB2)]
  have hfuel : 2 * (RV.msizePairs (msA.map (fun m => (m, gA m))) +
      RV.msizePairs (msB.map (fun m => (m, gB m)))) + 4 =
      (2 * (RV.msizePairs (msA.map (fun m => (m, gA m))) +
            RV.msizePairs (msB.map (fun m => (m, gB m)))) + 3) + 1 := by omega
  rw [mrmAdd, hfuel, mrmAddF]
  rw [except_bind_ok_left _ _ hcompat]
  simp only [Bool.not_true, hkeysA, hkeysB, hd, Bool.false_and, Bool.and_false,
    beq_self_eq_true, dedupFirst_eq_self _ hnU]
  rw [if_neg (by simp), if_neg (by simp), if_neg (by simp)]
  rw [except_bind_ok_left _ _ hm1, except_bind_ok_left _ _ hm2]


/-! Infrastructure: resolving a sub-portfolio target in a shaped tree. -/

theorem matchPaths_self (j : Nat) : ∀ (e : PEntry), PEntry.matchPaths e j e = [[j]]
  | .inst i => by simp [PEntry.matchPaths]
  | .port es => by simp [PEntry.matchPaths]

theorem pathsToEntryFrom_mem : ∀ (tgt : PEntry) (j : Nat) (es : List PEntry),
    tgt ∈ es → pathsToEntryFrom tgt j es ≠ [] := by
  intro tgt j es
  induction es generalizing j with
  | nil => intro h; cases h
  | cons e es ih =>
      intro hmem
      rw [pathsToEntryFrom]
      rcases List.mem_cons.1 hmem with he | he
      · rw [← he, matchPaths_self]
        simp
      · intro hc
        rcases List.append_eq_nil.1 hc with ⟨_, h2⟩
        exact ih (j + 1) he h2

mutual

/-- First-path resolution for a sub-portfolio target: whatever the first matching
path is, walking it resolves to a future that pairs with the target in the
tree-shape sense. -/
def shapeResolvePortList : (w : Bool) → (LF : Nat → RV → Bool) → (ms : List Nat) →
    (tgt : List PEntry) → (p : List PEntry) → (fs : List RV) →
    shapeList w LF ms p fs = true →
    ∀ (path : List Nat) (rest : List (List Nat)),
      pathsToEntryFrom (.port tgt) 0 p = path :: rest →
      ∃ a r g, path = a :: r ∧ pathCall (a :: r) fs = .ok g ∧
        shapeEntry w LF ms (.port tgt) g = true
  | w, LF, ms, tgt, [], fs, h, path, rest, hp => by cases hp
  | w, LF, ms, tgt, e :: es, fs, h, path, rest, hp => by
      cases fs with
      | nil => simp [shapeList] at h
      | cons f fsr =>
          simp only [shapeList, Bool.and_eq_true] at h
          rw [pathsToEntryFrom] at hp
          cases hm : PEntry.matchPaths (.port tgt) 0 e with
          | cons q qs =>
              rw [hm, List.cons_append] at hp
              injection hp with hp1 _
              rcases shapeResolvePortEntry w LF ms tgt e f h.1 q qs hm with
                ⟨r, g, hq, hpc, hshape⟩
              exact ⟨0, r, g, hp1 ▸ hq, (hp1 ▸ hq) ▸ hpc fsr, hshape⟩
          | nil =>
              rw [hm, List.nil_append, pathsToEntryFrom_shift (.port tgt) 1 es] at hp
              cases hbase : pathsToEntryFrom (.port tgt) 0 es with
              | nil => rw [hbase] at hp; cases hp
              | cons q qs =>
                  rw [hbase, List.map_cons] at hp
                  injection hp with hp1 _
                  rcases shapeResolvePortList w LF ms tgt es fsr h.2 q qs hbase with
                    ⟨a, r, g, hq, hpc, hshape⟩
                  refine ⟨a + 1, r, g, ?_, ?_, hshape⟩
                  · rw [← hp1, hq]
                    rfl
                  · rw [pathCall_succ]
                    exact hpc

def shapeResolvePortEntry : (w : Bool) → (LF : Nat → RV → Bool) → (ms : List Nat) →
    (tgt : List PEntry) → (e : PEntry) → (f : RV) →
    shapeEntry w LF ms e f = true →
    ∀ (path : List Nat) (rest : List (List Nat)),
      PEntry.matchPaths (.port tgt) 0 e = path :: rest →
      ∃ r g, path = 0 :: r ∧ (∀ fs2 : List RV, pathCall (0 :: r) (f :: fs2) = .ok g) ∧
        shapeEntry w LF ms (.port tgt) g = true
  | w, LF, ms, tgt, .inst i2, f, h, path, rest, hp => by
      have : ¬ PEntry.inst i2 = PEntry.port tgt := by intro hc; cases hc
      rw [PEntry.matchPaths, if_neg this] at hp
      cases hp
  | w, LF, ms, tgt, .port es2, f, h, path, rest, hp => by
      rw [PEntry.matchPaths] at hp
      by_cases he : PEntry.port es2 = PEntry.port tgt
      · rw [if_pos he] at hp
        injection hp with hp1 _
        refine ⟨[], f, hp1.symm, ?_, ?_⟩
        · intro fs2
          rw [pathCall_cons_zero]
          simp [pathCallAux]
        · rw [← he]
          exact h
      · rw [if_neg he] at hp
        simp only [shapeEntry, Bool.and_eq_true] at h
        cases hnf : nodeForm w f with
        | none => rw [hnf] at h; simp at h
        | some trip =>
            rw [hnf] at h
            rcases trip with ⟨p2, ms2, fs2⟩
            simp only [Bool.and_eq_true] at h
            cases hbase : pathsToEntryFrom (.port tgt) 0 es2 with
            | nil => rw [hbase] at hp; cases hp
            | cons q qs =>
                rw [hbase, List.map_cons] at hp
                injection hp with hp1 _
                rcases shapeResolvePortList w LF ms tgt es2 fs2 h.2.2 q qs hbase with
                  ⟨a, r, g, hq, hpc, hshape⟩
                have hres := nodeForm_result w f p2 ms2 fs2 hnf
                refine ⟨a :: r, g, by rw [← hp1, hq], ?_, hshape⟩
                intro fsx
                rw [pathCall_cons_zero, if_pos (by simp [hres.2]), hres.1,
                  pathCallAux_prr]
                exact hpc

end

/-- tree[instrument]: the first matching path resolves to a leaf-shaped future and
the measure-pinning step is applied to its result. -/
theorem shape_resolve_inst_get (w : Bool) (LF : Nat → RV → Bool) (ms : List Nat)
    (p : List PEntry) (fs : List RV) (i : Nat)
    (h : shapeList w LF ms p fs = true) (hmem : i ∈ PEntry.instrumentsList p) :
    ∃ g, LF i g = true ∧ prrGetEntry p ms fs (.inst i) = pinStep ms none g.result := by
  rcases shapeResolveList w LF ms p fs i h hmem with ⟨a, r, rest, g, hpaths, hpc, hlf⟩
  refine ⟨g, hlf, ?_⟩
  rw [prrGetEntry, hpaths, prrResultsFor, prrResultAt,
    except_bind_ok_left _ _ hpc]

/-- tree[sub_portfolio] for a top-level sub-portfolio entry: the first matching path
resolves to a future pairing with that entry in the tree-shape sense, and the
measure-pinning step is applied to its result. -/
theorem shape_resolve_port_get (w : Bool) (LF : Nat → RV → Bool) (ms : List Nat)
    (p : List PEntry) (fs : List RV) (tgt : List PEntry)
    (h : shapeList w LF ms p fs = true) (hmem : PEntry.port tgt ∈ p) :
    ∃ g, shapeEntry w LF ms (.port tgt) g = true ∧
      prrGetEntry p ms fs (.port tgt) = pinStep ms none g.result := by
  cases hp : pathsToEntryFrom (.port tgt) 0 p with
  | nil => exact absurd hp (pathsToEntryFrom_mem _ 0 p hmem)
  | cons path rest =>
      rcases shapeResolvePortList w LF ms tgt p fs h path rest hp with
        ⟨a, r, g, hpe, hpc, hshape⟩
      refine ⟨g, hshape, ?_⟩
      rw [prrGetEntry, hp, prrResultsFor, hpe, prrResultAt,
        except_bind_ok_left _ _ hpc]


/-! Infrastructure: canonical leaves, graph algebra, and the observation lemmas. -/

theorem pinStep_prr_multi (ms : List Nat) (p2 : List PEntry) (ms2 : List Nat)
    (fs2 : List RV) (h : (ms.length == 1) = false) :
    pinStep ms none (.prr p2 ms2 fs2) = .ok (.prr p2 ms2 fs2) := by
  unfold pinStep
  simp [h]

theorem beq_nat_false (a b : Nat) (h : a ≠ b) : (a == b) = false := by
  cases hab : a == b
  · rfl
  · exact absurd (by simpa using hab) h

theorem length_beq_one_false (l : List Nat) (h : 2 ≤ l.length) :
    (l.length == 1) = false :=
  beq_nat_false _ _ (by omega)

theorem filter_graph {β : Type} (g : Nat → β) (q : Nat → Bool) : ∀ (l : List Nat),
    (l.map (fun m => (m, g m))).filter (fun kv => q kv.1)
      = (l.filter q).map (fun m => (m, g m)) := by
  intro l
  induction l with
  | nil => rfl
  | cons m l ih =>
      simp only [List.map_cons, List.filter_cons]
      cases hq : q m
      · simpa using ih
      · simpa using ih

theorem map_pf_graph (g : Nat → RV) : ∀ (l : List Nat),
    (l.map (fun m => (m, g m))).map (fun kv => (kv.1, RV.pf kv.2))
      = l.map (fun m => (m, RV.pf (g m))) := by
  intro l
  induction l with
  | nil => rfl
  | cons m l ih => simp only [List.map_cons, ih]

theorem all_filter_of_all (q r : Nat → Bool) : ∀ (l : List Nat),
    l.all q = true → (l.filter r).all q = true := by
  intro l h
  rw [List.all_eq_true] at h ⊢
  intro a ha
  exact h a (List.mem_of_mem_filter ha)

theorem graph_append_union {β : Type} (FA FB : Nat → β) (inA : Nat → Bool)
    (lmsA lmsB : List Nat)
    (hA : ∀ m ∈ lmsA, inA m = true) (hB : ∀ m ∈ lmsB, inA m = false) :
    lmsA.map (fun m => (m, FA m)) ++ lmsB.map (fun m => (m, FB m))
      = (lmsA ++ lmsB).map (fun m => (m, if inA m then FA m else FB m)) := by
  rw [List.map_append]
  congr 1
  · apply List.map_congr_left
    intro m hm
    simp [hA m hm]
  · apply List.map_congr_left
    intro m hm
    simp [hB m hm]

theorem riskKeysCompatible_graphs (i1 i2 : Nat) (gA gB : Nat → RV) (exm : Nat)
    (lmsA lmsB : List Nat) (hAne : lmsA ≠ []) (hBne : lmsB ≠ [])
    (hAval : ∀ m ∈ lmsA, (gA m).isVal = true ∧ (gA m).exmOf = exm)
    (hBval : ∀ m ∈ lmsB, (gB m).isVal = true ∧ (gB m).exmOf = exm) :
    riskKeysCompatible (.mrm i1 (lmsA.map (fun m => (m, gA m))))
      (.mrm i2 (lmsB.map (fun m => (m, gB m)))) = .ok true := by
  rcases List.exists_cons_of_ne_nil hAne with ⟨mA0, tlA, hAeq⟩
  rcases List.exists_cons_of_ne_nil hBne with ⟨mB0, tlB, hBeq⟩
  have hA0 := hAval mA0 (hAeq ▸ List.mem_cons_self mA0 tlA)
  have hB0 := hBval mB0 (hBeq ▸ List.mem_cons_self mB0 tlB)
  rcases isVal_unwrap (gA mA0) hA0.1 with ⟨huA, kA, hkA, hexA⟩
  rcases isVal_unwrap (gB mB0) hB0.1 with ⟨huB, kB, hkB, hexB⟩
  rw [riskKeysCompatible, hAeq, hBeq]
  simp only [List.map_cons, RV.unwrapFirst]
  rw [except_bind_ok_left _ _ huA, except_bind_ok_left _ _ hkA,
    except_bind_ok_left _ _ huB, except_bind_ok_left _ _ hkB]
  simp only [histExMeasure, hexA, hexB, hA0.2, hB0.2, beq_self_eq_true]
  rfl

/-- Observing one leaf of a multi-measure canonical tree: tree[instrument][measure]
returns the sigma value of that instrument and measure. -/
theorem obsAt_canonical_multi (sigma : Nat → Nat → RV) (exm : Nat)
    (lms ms : List Nat) (p : List PEntry) (fs : List RV)
    (h : shapeList false (canonLeaf sigma exm lms) ms p fs = true)
    (hml : (ms.length == 1) = false) (i m : Nat)
    (hi : i ∈ PEntry.instrumentsList p) (hm : m ∈ lms) :
    obsAt (.prr p ms fs) i m = .ok (sigma i m) := by
  rcases shape_resolve_inst_get false (canonLeaf sigma exm lms) ms p fs i h hi with
    ⟨g, hlf, hget⟩
  simp only [canonLeaf, Bool.and_eq_true, beq_iff_eq] at hlf
  have hg : g = .mrmf i (lms.map (fun m => (m, RV.pf (sigma i m)))) := hlf.1
  rw [obsAt]
  show (do
    let r ← getItem (.prr p ms fs) (.inst i)
    match r with
    | .mrm _ vals => mrmGetMeasure vals m
    | v => Except.ok v) = _
  have hgi : getItem (.prr p ms fs) (.inst i) = .ok (.mrm i (lms.map (fun m => (m, sigma i m)))) := by
    show prrGetEntry p ms fs (.inst i) = _
    rw [hget, hg]
    show pinStep ms none (RV.mrm i (RV.resultPairs (lms.map (fun m => (m, RV.pf (sigma i m)))))) = _
    rw [resultPairs_map_pf, pinStep_mrm_multi _ _ _ hml]
  rw [except_bind_ok_left _ _ hgi]
  show mrmGetMeasure (lms.map (fun m => (m, sigma i m))) m = _
  rw [mrmGetMeasure, lookup_graph, if_pos hm]

/-- Observing one leaf of a single-measure canonical tree: the pinned measure's
value comes back directly. -/
theorem obsAt_canonical_single (sigma : Nat → Nat → RV) (exm : Nat)
    (lms : List Nat) (m0 : Nat) (p : List PEntry) (fs : List RV)
    (h : shapeList false (canonLeaf sigma exm lms) [m0] p fs = true)
    (i : Nat) (hi : i ∈ PEntry.instrumentsList p) (hm : m0 ∈ lms) :
    obsAt (.prr p [m0] fs) i m0 = .ok (sigma i m0) := by
  rcases shape_resolve_inst_get false (canonLeaf sigma exm lms) [m0] p fs i h hi with
    ⟨g, hlf, hget⟩
  simp only [canonLeaf, Bool.and_eq_true, beq_iff_eq] at hlf
  have hval : (sigma i m0).isVal = true := by
    have := (List.all_eq_true.1 hlf.2) m0 hm
    simp only [Bool.and_eq_true] at this
    exact this.1
  have hgi : getItem (.prr p [m0] fs) (.inst i) = .ok (sigma i m0) := by
    show prrGetEntry p [m0] fs (.inst i) = _
    rw [hget, hlf.1]
    show pinStep [m0] none (RV.mrm i (RV.resultPairs (lms.map (fun m => (m, RV.pf (sigma i m)))))) = _
    rw [resultPairs_map_pf, pinStep_mrm_single, lookup_graph, if_pos hm]
  rw [obsAt, except_bind_ok_left _ _ hgi]
  cases hs : sigma i m0 <;> rw [hs] at hval
  simp [RV.isVal] at hval


/-! Infrastructure: slicing a canonical multi-measure tree by risk measures. -/

theorem nodeForm_false_eq (g : RV) (p : List PEntry) (ms : List Nat) (fs : List RV)
    (h : nodeForm false g = some (p, ms, fs)) : g = .prr p ms fs := by
  cases g <;> simp [nodeForm] at h
  rcases h with ⟨h1, h2, h3⟩
  rw [h1, h2, h3]

theorem inst_mem_instrumentsList : ∀ (p : List PEntry) (i : Nat),
    PEntry.inst i ∈ p → i ∈ PEntry.instrumentsList p := by
  intro p i
  induction p with
  | nil => intro h; cases h
  | cons e es ih =>
      intro h
      rw [PEntry.instrumentsList, List.mem_append]
      rcases List.mem_cons.1 h with he | he
      · left
        rw [← he, PEntry.instruments]
        exact List.mem_singleton.2 rfl
      · right
        exact ih he

/-- The measure filter applied to a canonical leaf mapping by __getitem__: the
surviving measure keys, in computed order. -/
def measureFilter (item : List Nat) (isIter : Bool) (lms : List Nat) : List Nat :=
  lms.filter (fun m => if isIter then item.contains m else m == item.headD 0)

/-- The per-priceable loop of the measure slice on a canonical multi-measure tree:
every leaf is re-filtered to the requested measures and the portfolio structure is
preserved. -/
def sliceCanonList :
    ∀ (sigma : Nat → Nat → RV) (exm : Nat) (lms ms item : List Nat) (isIter : Bool)
      (p : List PEntry) (fs : List RV),
      shapeList false (canonLeaf sigma exm lms) ms p fs = true →
      (ms.length == 1) = false →
      item.all (fun m => ms.contains m) = true →
      ∀ (entries : List PEntry), (∀ e ∈ entries, e ∈ p) →
      ∃ nfs, sliceMeasuresList item isIter p ms fs entries = .ok nfs ∧
        shapeList false (canonLeaf sigma exm (measureFilter item isIter lms))
          item entries nfs = true
  | sigma, exm, lms, ms, item, isIter, p, fs, hshape, hml, hitem, [], hsub =>
      ⟨[], rfl, rfl⟩
  | sigma, exm, lms, ms, item, isIter, p, fs, hshape, hml, hitem, .inst i :: rest, hsub => by
      rcases sliceCanonList sigma exm lms ms item isIter p fs hshape hml hitem rest
        (fun e he => hsub e (List.mem_cons_of_mem _ he)) with ⟨nfs, hrest, hrshape⟩
      have hi : i ∈ PEntry.instrumentsList p :=
        inst_mem_instrumentsList p i (hsub _ (List.mem_cons_self _ _))
      rcases shape_resolve_inst_get false (canonLeaf sigma exm lms) ms p fs i hshape hi
        with ⟨g, hlf, hget⟩
      simp only [canonLeaf, Bool.and_eq_true, beq_iff_eq] at hlf
      have hr : prrGetEntry p ms fs (.inst i) =
          .ok (.mrm i (lms.map (fun m => (m, sigma i m)))) := by
        rw [hget, hlf.1]
        show pinStep ms none (RV.mrm i (RV.resultPairs (lms.map (fun m => (m, RV.pf (sigma i m)))))) = _
        rw [resultPairs_map_pf, pinStep_mrm_multi _ _ _ hml]
      have hleaf : (if isIter then valueForRiskMeasureN (lms.map (fun m => (m, sigma i m))) item
            else valueForRiskMeasure1 (lms.map (fun m => (m, sigma i m))) (item.headD 0)).map
            (fun kv => (kv.1, RV.pf kv.2))
          = (measureFilter item isIter lms).map (fun m => (m, RV.pf (sigma i m))) := by
        cases isIter
        · simp only [valueForRiskMeasureN, valueForRiskMeasure1, measureFilter,
            Bool.false_eq_true, if_false]
          rw [filter_graph (fun m => sigma i m) (fun m => m == item.headD 0) lms,
            map_pf_graph]
        · simp only [valueForRiskMeasureN, valueForRiskMeasure1, measureFilter, if_true]
          rw [filter_graph (fun m => sigma i m) (fun m => item.contains m) lms,
            map_pf_graph]
      refine ⟨.mrmf i ((if isIter then valueForRiskMeasureN (lms.map (fun m => (m, sigma i m))) item
            else valueForRiskMeasure1 (lms.map (fun m => (m, sigma i m))) (item.headD 0)).map
            (fun kv => (kv.1, RV.pf kv.2))) :: nfs, ?_, ?_⟩
      · rw [sliceMeasuresList, sliceMeasuresEntry, except_bind_ok_left _ _ hr]
        show (do
          let rest2 ← sliceMeasuresList item isIter p ms fs rest
          Except.ok (RV.mrmf i ((if isIter then valueForRiskMeasureN (lms.map (fun m => (m, sigma i m))) item
            else valueForRiskMeasure1 (lms.map (fun m => (m, sigma i m))) (item.headD 0)).map
            (fun kv => (kv.1, RV.pf kv.2))) :: rest2) : Except PyErr (List RV)) = _
        rw [except_bind_ok_left _ _ hrest]
      · rw [shapeList]
        simp only [Bool.and_eq_true]
        refine ⟨?_, hrshape⟩
        rw [shapeEntry, hleaf, canonLeaf]
        simp only [Bool.and_eq_true, beq_iff_eq]
        exact ⟨trivial, all_filter_of_all _ _ lms hlf.2⟩
  | sigma, exm, lms, ms, item, isIter, p, fs, hshape, hml, hitem, .port es :: rest, hsub => by
      rcases sliceCanonList sigma exm lms ms item isIter p fs hshape hml hitem rest
        (fun e he => hsub e (List.mem_cons_of_mem _ he)) with ⟨nfs, hrest, hrshape⟩
      rcases shape_resolve_port_get false (canonLeaf sigma exm lms) ms p fs es hshape
        (hsub _ (List.mem_cons_self _ _)) with ⟨g, hge, hget⟩
      simp only [shapeEntry, Bool.and_eq_true] at hge
      cases hnf : nodeForm false g with
      | none => rw [hnf] at hge; simp at hge
      | some trip =>
          rw [hnf] at hge
          rcases trip with ⟨p2, ms2, fs2⟩
          simp only [Bool.and_eq_true] at hge
          have hp2 : p2 = es := (PEntry.beqList_iff p2 es).1 hge.2.1.1
          have hms2 : ms2 = ms := by simpa using hge.2.1.2
          have hgeq : g = .prr es ms fs2 := by
            rw [hp2, hms2] at hnf
            exact nodeForm_false_eq g es ms fs2 hnf
          have hr : prrGetEntry p ms fs (.port es) = .ok (.prr es ms fs2) := by
            rw [hget, hgeq]
            show pinStep ms none (RV.prr es ms fs2) = _
            exact pinStep_prr_multi ms es ms fs2 hml
          rcases sliceCanonList sigma exm lms ms item isIter es fs2 hge.2.2 hml hitem es
            (fun e he => he) with ⟨nfs2, hnested, hnshape⟩
          have hentry : sliceMeasuresEntry item isIter p ms fs (.port es) =
              .ok (.prr es item nfs2) := by
            rw [sliceMeasuresEntry, except_bind_ok_left _ _ hr]
            show (if es = es then
                if (!item.all (fun m => ms.contains m)) = true then
                  Except.error (PyErr.valueError "not computed")
                else if (ms.length == 1) = true then Except.ok (RV.prr es ms fs2)
                else do
                  let nfs4 ← sliceMeasuresList item isIter es ms fs2 es
                  Except.ok (RV.prr es item nfs4)
              else Except.error (PyErr.runtimeError "result tree does not mirror the portfolio")) = _
            rw [if_pos rfl, hitem, hml]
            simp only [Bool.not_true]
            rw [if_neg (by simp), if_neg (by simp)]
            rw [except_bind_ok_left _ _ hnested]
          refine ⟨.prr es item nfs2 :: nfs, ?_, ?_⟩
          · rw [sliceMeasuresList, except_bind_ok_left _ _ hentry,
              except_bind_ok_left _ _ hrest]
          · rw [shapeList]
            simp only [Bool.and_eq_true]
            refine ⟨?_, hrshape⟩
            rw [shapeEntry, nodeForm]
            simp only [Bool.and_eq_true, beq_self_eq_true, and_true]
            exact ⟨hge.1, (PEntry.beqList_iff es es).2 rfl, hnshape⟩


/-! Infrastructure: adding two canonical trees over one portfolio. -/

theorem ok_bind {α β : Type} (a : α) (f : α → Except PyErr β) :
    (Except.ok a >>= f) = f a := rfl

theorem pure_eq_ok {α : Type} (a : α) : (pure a : Except PyErr α) = .ok a := rfl

theorem contains_of_mem (l : List Nat) (a : Nat) (h : a ∈ l) : l.contains a = true := by
  simpa using h

theorem contains_of_not_mem (l : List Nat) (a : Nat) (h : a ∉ l) :
    l.contains a = false := by
  simpa using h

theorem ne_nil_of_not_isEmpty (l : List PEntry) (h : (!l.isEmpty) = true) : l ≠ [] := by
  cases l
  · simp at h
  · intro hc
    cases hc

/-- The first_value probe on a canonical multi-measure tree resolves to the first
instrument's full measure mapping. -/
theorem prrFirstValue_canonical (sigma : Nat → Nat → RV) (exm : Nat)
    (lms ms : List Nat) (p : List PEntry) (fs : List RV)
    (h : shapeList false (canonLeaf sigma exm lms) ms p fs = true)
    (hml : (ms.length == 1) = false) (hpne : PEntry.instrumentsList p ≠ []) :
    ∃ i0, prrFirstValue p ms fs =
        .ok (.mrm i0 (lms.map (fun m => (m, sigma i0 m)))) ∧
      ∀ m ∈ lms, (sigma i0 m).isVal = true ∧ (sigma i0 m).exmOf = exm := by
  cases hins : PEntry.instrumentsList p with
  | nil => exact absurd hins hpne
  | cons i0 r =>
      have hi0 : i0 ∈ PEntry.instrumentsList p := by
        rw [hins]
        exact List.mem_cons_self i0 r
      rcases shape_resolve_inst_get false (canonLeaf sigma exm lms) ms p fs i0 h hi0
        with ⟨g, hlf, hget⟩
      simp only [canonLeaf, Bool.and_eq_true, beq_iff_eq] at hlf
      refine ⟨i0, ?_, ?_⟩
      case refine_2 =>
        intro m hm
        have := List.all_eq_true.1 hlf.2 m hm
        simp only [Bool.and_eq_true, beq_iff_eq] at this
        exact this
      rw [prrFirstValue, hins]
      show prrGetEntry p ms fs (.inst i0) = _
      rw [hget, hlf.1]
      show pinStep ms none (RV.mrm i0 (RV.resultPairs (lms.map (fun m => (m, RV.pf (sigma i0 m)))))) = _
      rw [resultPairs_map_pf, pinStep_mrm_multi _ _ _ hml]

/-- Adding two canonical leaf futures of one instrument with disjoint measure sets
merges the two mappings side by side. -/
theorem futureAddLeaf_canonical (i : Nat) (sA sB : Nat → Nat → RV) (exm : Nat)
    (lmsA lmsB : List Nat)
    (hAne : lmsA ≠ []) (hBne : lmsB ≠ [])
    (hAval : ∀ m ∈ lmsA, (sA i m).isVal = true ∧ (sA i m).exmOf = exm)
    (hBval : ∀ m ∈ lmsB, (sB i m).isVal = true ∧ (sB i m).exmOf = exm)
    (hnA : lmsA.Nodup) (hnB : lmsB.Nodup) (hd : listDisjoint lmsA lmsB = true) :
    futureAddLeaf (.mrmf i (lmsA.map (fun m => (m, RV.pf (sA i m)))))
        (.mrmf i (lmsB.map (fun m => (m, RV.pf (sB i m))))) =
      .ok (.mrmf i ((lmsA ++ lmsB).map (fun m =>
        (m, RV.pf (unionSigma sA sB (fun m2 => lmsA.contains m2) i m))))) := by
  have hadd := mrmAdd_canonical i (fun m => sA i m) (fun m => sB i m) exm lmsA lmsB
    hAne hBne hAval hBval hnA hnB hd
  rw [futureAddLeaf, mrmfAdd]
  show (do
    let result ← mrmAdd i (RV.resultPairs (lmsA.map (fun m => (m, RV.pf (sA i m))))) i
      (RV.resultPairs (lmsB.map (fun m => (m, RV.pf (sB i m)))))
    match result with
    | RV.mrm _ pairs => Except.ok (RV.mrmf i (pairs.map (fun kv => (kv.1, RV.pf kv.2))))
    | _ => Except.error (PyErr.typeError "object has no attribute items") : Except PyErr RV) = _
  rw [resultPairs_map_pf, resultPairs_map_pf, except_bind_ok_left _ _ hadd]
  show Except.ok (RV.mrmf i ((lmsA.map (fun m => (m, sA i m)) ++
    lmsB.map (fun m => (m, sB i m))).map (fun kv => (kv.1, RV.pf kv.2)))) = _
  rw [List.map_append, map_pf_graph, map_pf_graph,
    graph_append_union (fun m => RV.pf (sA i m)) (fun m => RV.pf (sB i m))
      (fun m2 => lmsA.contains m2) lmsA lmsB
      (fun m hm => contains_of_mem lmsA m hm)
      (fun m hm => contains_of_not_mem lmsA m ((listDisjoint_iff lmsA lmsB).1 hd
        |> fun hdj => fun hc => hdj m hc hm))]
  congr 1
  congr 1
  apply List.map_congr_left
  intro m _
  simp only [unionSigma]
  rw [apply_ite RV.pf]


theorem canonLeaf_dest (sigma : Nat → Nat → RV) (exm : Nat) (lms : List Nat)
    (i : Nat) (f : RV) (h : canonLeaf sigma exm lms i f = true) :
    f = .mrmf i (lms.map (fun m => (m, RV.pf (sigma i m)))) ∧
    ∀ m ∈ lms, (sigma i m).isVal = true ∧ (sigma i m).exmOf = exm := by
  simp only [canonLeaf, Bool.and_eq_true, beq_iff_eq] at h
  refine ⟨h.1, ?_⟩
  intro m hm
  have := List.all_eq_true.1 h.2 m hm
  simp only [Bool.and_eq_true, beq_iff_eq] at this
  exact this

theorem canonLeaf_union (sA sB : Nat → Nat → RV) (exm : Nat) (lmsA lmsB : List Nat)
    (i : Nat)
    (hAval : ∀ m ∈ lmsA, (sA i m).isVal = true ∧ (sA i m).exmOf = exm)
    (hBval : ∀ m ∈ lmsB, (sB i m).isVal = true ∧ (sB i m).exmOf = exm)
    (hd : listDisjoint lmsA lmsB = true) :
    canonLeaf (unionSigma sA sB (fun m2 => lmsA.contains m2)) exm (lmsA ++ lmsB) i
      (.mrmf i ((lmsA ++ lmsB).map (fun m =>
        (m, RV.pf (unionSigma sA sB (fun m2 => lmsA.contains m2) i m))))) = true := by
  simp only [canonLeaf, Bool.and_eq_true, beq_iff_eq]
  refine ⟨trivial, List.all_eq_true.2 ?_⟩
  intro m hm
  simp only [Bool.and_eq_true, beq_iff_eq, unionSigma]
  rcases List.mem_append.1 hm with hma | hmb
  · simp [hma, hAval m hma]
  · have hnb : m ∉ lmsA := fun hc => (listDisjoint_iff lmsA lmsB).1 hd m hc hmb
    simp [hnb, hBval m hmb]

/-- The same-portfolio path of PortfolioRiskResult.__add__ re-entered at a nested
sub-portfolio entry: the guards pass and the zipped leaf additions are wrapped over
the union of the measure tuples. -/
theorem entryAddFuture_same_portfolio (es : List PEntry) (msA msB : List Nat)
    (fsA fsB : List RV) (fv : RV) (nfs : List RV)
    (hfv : prrFirstValue es msA fsA = .ok fv)
    (hcomp : riskKeysCompatible fv fv = .ok true)
    (hdms : listDisjoint msA msB = true)
    (hzip : zipAddFutures es fsA fsB = .ok nfs)
    (hmlA : 1 < msA.length) (hmlB : 1 < msB.length) :
    entryAddFuture (.port es) (.prr es msA fsA) (.prr es msB fsB) =
      .ok (.prr es (dedupFirst (msA ++ msB)) nfs) := by
  simp only [entryAddFuture, eq_self_iff_true, if_true, hfv, ok_bind, hcomp,
    Bool.not_true, Bool.false_eq_true, if_false, hdms, pure_eq_ok, asMulti,
    RV.futuresOf, hzip, gt_iff_lt, hmlA, hmlB]

/-- The same-portfolio path of PortfolioRiskResult.__add__ at the top level. -/
theorem treeAddCore_same_portfolio (p : List PEntry) (msA msB : List Nat)
    (fsA fsB : List RV) (fv : RV) (nfs : List RV)
    (hfv : prrFirstValue p msA fsA = .ok fv)
    (hcomp : riskKeysCompatible fv fv = .ok true)
    (hdms : listDisjoint msA msB = true)
    (hzip : zipAddFutures p fsA fsB = .ok nfs)
    (hmlA : 1 < msA.length) (hmlB : 1 < msB.length) :
    treeAddCore (.prr p msA fsA) (.prr p msB fsB) =
      .ok (.prr p (dedupFirst (msA ++ msB)) nfs, .prr p msA fsA, .prr p msB fsB) := by
  simp only [treeAddCore, eq_self_iff_true, if_true, hfv, ok_bind, hcomp,
    Bool.not_true, Bool.false_eq_true, if_false, hdms, pure_eq_ok, asMulti,
    RV.futuresOf, hzip, gt_iff_lt, hmlA, hmlB]


mutual

/-- Adding two canonical trees leaf-by-leaf over one portfolio: every zipped pair
adds successfully and the result is the canonical tree of the measure union. -/
def zipAddCanonList :
    ∀ (sA sB : Nat → Nat → RV) (exm : Nat) (lmsA lmsB msA msB : List Nat)
      (p : List PEntry) (fsA fsB : List RV),
      shapeList false (canonLeaf sA exm lmsA) msA p fsA = true →
      shapeList false (canonLeaf sB exm lmsB) msB p fsB = true →
      lmsA ≠ [] → lmsB ≠ [] → lmsA.Nodup → lmsB.Nodup →
      listDisjoint lmsA lmsB = true → listDisjoint msA msB = true →
      2 ≤ msA.length → 2 ≤ msB.length →
      ∃ nfs, zipAddFutures p fsA fsB = .ok nfs ∧
        shapeList false (canonLeaf (unionSigma sA sB (fun m2 => lmsA.contains m2)) exm
          (lmsA ++ lmsB)) (dedupFirst (msA ++ msB)) p nfs = true
  | sA, sB, exm, lmsA, lmsB, msA, msB, [], fsA, fsB, hA, hB,
      hAne, hBne, hnA, hnB, hld, hdms, hlA, hlB => by
      cases fsA with
      | cons f fsr => simp [shapeList] at hA
      | nil =>
          cases fsB with
          | cons g gsr => simp [shapeList] at hB
          | nil => exact ⟨[], rfl, rfl⟩
  | sA, sB, exm, lmsA, lmsB, msA, msB, e :: es, fsA, fsB, hA, hB,
      hAne, hBne, hnA, hnB, hld, hdms, hlA, hlB => by
      cases fsA with
      | nil => simp [shapeList] at hA
      | cons f fsr =>
          cases fsB with
          | nil => simp [shapeList] at hB
          | cons g gsr =>
              simp only [shapeList, Bool.and_eq_true] at hA hB
              rcases zipAddCanonEntry sA sB exm lmsA lmsB msA msB e f g hA.1 hB.1
                hAne hBne hnA hnB hld hdms hlA hlB with ⟨hout, hone, hsh⟩
              rcases zipAddCanonList sA sB exm lmsA lmsB msA msB es fsr gsr hA.2 hB.2
                hAne hBne hnA hnB hld hdms hlA hlB with ⟨nfs, hrest, hshr⟩
              refine ⟨hout :: nfs, ?_, ?_⟩
              · rw [zipAddFutures, except_bind_ok_left _ _ hone,
                  except_bind_ok_left _ _ hrest]
              · rw [shapeList]
                simp only [Bool.and_eq_true]
                exact ⟨hsh, hshr⟩

/-- One zipped pair of the leaf-by-leaf addition of two canonical trees. -/
def zipAddCanonEntry :
    ∀ (sA sB : Nat → Nat → RV) (exm : Nat) (lmsA lmsB msA msB : List Nat)
      (e : PEntry) (f g : RV),
      shapeEntry false (canonLeaf sA exm lmsA) msA e f = true →
      shapeEntry false (canonLeaf sB exm lmsB) msB e g = true →
      lmsA ≠ [] → lmsB ≠ [] → lmsA.Nodup → lmsB.Nodup →
      listDisjoint lmsA lmsB = true → listDisjoint msA msB = true →
      2 ≤ msA.length → 2 ≤ msB.length →
      ∃ hout, entryAddFuture e f g = .ok hout ∧
        shapeEntry false (canonLeaf (unionSigma sA sB (fun m2 => lmsA.contains m2)) exm
          (lmsA ++ lmsB)) (dedupFirst (msA ++ msB)) e hout = true
  | sA, sB, exm, lmsA, lmsB, msA, msB, .inst i, f, g, hAe, hBe,
      hAne, hBne, hnA, hnB, hld, hdms, hlA, hlB => by
      rcases canonLeaf_dest sA exm lmsA i f hAe with ⟨hfeq, hAval⟩
      rcases canonLeaf_dest sB exm lmsB i g hBe with ⟨hgeq, hBval⟩
      refine ⟨.mrmf i ((lmsA ++ lmsB).map (fun m =>
        (m, RV.pf (unionSigma sA sB (fun m2 => lmsA.contains m2) i m)))), ?_, ?_⟩
      · show futureAddLeaf f g = _
        rw [hfeq, hgeq]
        exact futureAddLeaf_canonical i sA sB exm lmsA lmsB hAne hBne hAval hBval
          hnA hnB hld
      · exact canonLeaf_union sA sB exm lmsA lmsB i hAval hBval hld
  | sA, sB, exm, lmsA, lmsB, msA, msB, .port es, f, g, hAe, hBe,
      hAne, hBne, hnA, hnB, hld, hdms, hlA, hlB => by
      simp only [shapeEntry, Bool.and_eq_true] at hAe hBe
      cases hnfA : nodeForm false f with
      | none => rw [hnfA] at hAe; simp at hAe
      | some tripA =>
      cases hnfB : nodeForm false g with
      | none => rw [hnfB] at hBe; simp at hBe
      | some tripB =>
          rw [hnfA] at hAe
          rw [hnfB] at hBe
          rcases tripA with ⟨pA2, msA2, fs2A⟩
          rcases tripB with ⟨pB2, msB2, fs2B⟩
          simp only [Bool.and_eq_true] at hAe hBe
          have hpA2 : pA2 = es := (PEntry.beqList_iff pA2 es).1 hAe.2.1.1
          have hmsA2 : msA2 = msA := by simpa using hAe.2.1.2
          have hpB2 : pB2 = es := (PEntry.beqList_iff pB2 es).1 hBe.2.1.1
          have hmsB2 : msB2 = msB := by simpa using hBe.2.1.2
          have hfeq : f = .prr es msA fs2A := by
            rw [hpA2, hmsA2] at hnfA
            exact nodeForm_false_eq f es msA fs2A hnfA
          have hgeq : g = .prr es msB fs2B := by
            rw [hpB2, hmsB2] at hnfB
            exact nodeForm_false_eq g es msB fs2B hnfB
          rcases zipAddCanonList sA sB exm lmsA lmsB msA msB es fs2A fs2B
            hAe.2.2 hBe.2.2 hAne hBne hnA hnB hld hdms hlA hlB with ⟨nfs, hzip, hshn⟩
          have hesne : es ≠ [] := ne_nil_of_not_isEmpty es hAe.1
          have hinne : PEntry.instrumentsList es ≠ [] :=
            shapeListInstNonempty false (canonLeaf sA exm lmsA) msA es fs2A
              hAe.2.2 hesne
          rcases prrFirstValue_canonical sA exm lmsA msA es fs2A hAe.2.2
            (length_beq_one_false msA hlA) hinne with ⟨i0, hfv, hi0val⟩
          have hcomp : riskKeysCompatible (.mrm i0 (lmsA.map (fun m => (m, sA i0 m))))
              (.mrm i0 (lmsA.map (fun m => (m, sA i0 m)))) = .ok true :=
            riskKeysCompatible_graphs i0 i0 (fun m => sA i0 m) (fun m => sA i0 m) exm
              lmsA lmsA hAne hAne hi0val hi0val
          refine ⟨.prr es (dedupFirst (msA ++ msB)) nfs, ?_, ?_⟩
          · rw [hfeq, hgeq]
            exact entryAddFuture_same_portfolio es msA msB fs2A fs2B _ nfs hfv hcomp
              hdms hzip (by omega) (by omega)
          · rw [shapeEntry, nodeForm]
            simp only [Bool.and_eq_true, beq_self_eq_true, and_true]
            exact ⟨hAe.1, (PEntry.beqList_iff es es).2 rfl, hshn⟩

end


theorem measureFilter_true (item lms : List Nat) :
    measureFilter item true lms = lms.filter (fun m => item.contains m) := by
  rw [measureFilter]
  simp

theorem measureFilter_single (m0 : Nat) (lms : List Nat) :
    measureFilter [m0] false lms = lms.filter (fun m => m == m0) := by
  rw [measureFilter]
  simp

theorem filter_contains_all (sel l : List Nat) (h : ∀ m ∈ l, m ∈ sel) :
    l.filter (fun m => sel.contains m) = l :=
  List.filter_eq_self.2 (fun a ha => contains_of_mem _ _ (h a ha))

theorem filter_contains_none (sel l : List Nat) (h : ∀ m ∈ l, m ∉ sel) :
    l.filter (fun m => sel.contains m) = [] := by
  induction l with
  | nil => rfl
  | cons a l ih =>
      rw [List.filter_cons, contains_of_not_mem sel a (h a (List.mem_cons_self a l))]
      exact ih (fun m hm => h m (List.mem_cons_of_mem a hm))

/-- Adding two canonical multi-measure trees over one portfolio with disjoint
measure sets succeeds and yields the canonical tree of the concatenated measures. -/
theorem treeAdd_canonical_multi (sA sB : Nat → Nat → RV) (exm : Nat)
    (msA msB : List Nat) (p : List PEntry) (fsA fsB : List RV)
    (hA : shapeList false (canonLeaf sA exm msA) msA p fsA = true)
    (hB : shapeList false (canonLeaf sB exm msB) msB p fsB = true)
    (hpne : p ≠ []) (hnA : msA.Nodup) (hnB : msB.Nodup)
    (hd : listDisjoint msA msB = true)
    (hlA : 2 ≤ msA.length) (hlB : 2 ≤ msB.length) :
    ∃ nfs, treeAdd (.prr p msA fsA) (.prr p msB fsB) = .ok (.prr p (msA ++ msB) nfs) ∧
      shapeList false (canonLeaf (unionSigma sA sB (fun m2 => msA.contains m2)) exm
        (msA ++ msB)) (msA ++ msB) p nfs = true := by
  have hAne : msA ≠ [] := by
    intro hc
    rw [hc] at hlA
    simp at hlA
  have hBne : msB ≠ [] := by
    intro hc
    rw [hc] at hlB
    simp at hlB
  rcases zipAddCanonList sA sB exm msA msB msA msB p fsA fsB hA hB
    hAne hBne hnA hnB hd hd hlA hlB with ⟨nfs, hzip, hshape⟩
  have hinne := shapeListInstNonempty false (canonLeaf sA exm msA) msA p fsA hA hpne
  rcases prrFirstValue_canonical sA exm msA msA p fsA hA
    (length_beq_one_false msA hlA) hinne with ⟨i0, hfv, hval⟩
  have hcomp := riskKeysCompatible_graphs i0 i0 (fun m => sA i0 m) (fun m => sA i0 m)
    exm msA msA hAne hAne hval hval
  have hdup : dedupFirst (msA ++ msB) = msA ++ msB :=
    dedupFirst_eq_self _ (nodup_append_of_disjoint msA msB hnA hnB hd)
  have hcore := treeAddCore_same_portfolio p msA msB fsA fsB _ nfs hfv hcomp hd hzip
    (by omega) (by omega)
  refine ⟨nfs, ?_, by rw [hdup] at hshape; exact hshape⟩
  rw [treeAdd, except_bind_ok_left _ _ hcore]
  show Except.ok (RV.prr p (dedupFirst (msA ++ msB)) nfs) = _
  rw [hdup]


/-! Infrastructure: flat single-measure trees and their addition. -/

theorem isPlainVal_of_isVal (v : RV) (h : v.isVal = true) : v.isPlainVal = true := by
  cases v <;> simp [RV.isVal] at h <;> rfl

theorem riskKeysCompatible_val (v : RV) (h : v.isVal = true) :
    riskKeysCompatible v v = .ok true := by
  rcases isVal_unwrap v h with ⟨hu, k, hk, _⟩
  rw [riskKeysCompatible, except_bind_ok_left _ _ hu, except_bind_ok_left _ _ hk,
    except_bind_ok_left _ _ hu, except_bind_ok_left _ _ hk]
  simp [histExMeasure, pure_eq_ok]

theorem pfLeaf_dest (sigma : Nat → RV) (exm : Nat) (i : Nat) (f : RV)
    (h : pfLeaf sigma exm i f = true) :
    f = .pf (sigma i) ∧ (sigma i).isVal = true ∧ (sigma i).exmOf = exm := by
  simp only [pfLeaf, Bool.and_eq_true, beq_iff_eq] at h
  exact ⟨h.1.1, h.1.2, h.2⟩

/-- Observing one leaf of a flat single-measure tree with plain PricingFuture
leaves: any requested measure returns the leaf value itself. -/
theorem obsAt_pfLeaf (sigma : Nat → RV) (exm : Nat) (mA : Nat)
    (p : List PEntry) (fs : List RV)
    (h : shapeList false (pfLeaf sigma exm) [mA] p fs = true)
    (i m : Nat) (hi : i ∈ PEntry.instrumentsList p) :
    obsAt (.prr p [mA] fs) i m = .ok (sigma i) := by
  rcases shape_resolve_inst_get false (pfLeaf sigma exm) [mA] p fs i h hi with
    ⟨g, hlf, hget⟩
  rcases pfLeaf_dest sigma exm i g hlf with ⟨hgeq, hval, _⟩
  have hgi : getItem (.prr p [mA] fs) (.inst i) = .ok (sigma i) := by
    show prrGetEntry p [mA] fs (.inst i) = _
    rw [hget, hgeq]
    show pinStep [mA] none (sigma i) = _
    exact pinStep_plain [mA] none (sigma i) (isPlainVal_of_isVal _ hval)
  rw [obsAt, except_bind_ok_left _ _ hgi]
  cases hs : sigma i <;> rw [hs] at hval
  simp [RV.isVal] at hval

/-- The first_value probe on a flat single-measure tree resolves to the first
instrument's plain value. -/
theorem prrFirstValue_pfLeaf (sigma : Nat → RV) (exm : Nat) (mA : Nat)
    (p : List PEntry) (fs : List RV)
    (h : shapeList false (pfLeaf sigma exm) [mA] p fs = true)
    (hpne : PEntry.instrumentsList p ≠ []) :
    ∃ i0, prrFirstValue p [mA] fs = .ok (sigma i0) ∧ (sigma i0).isVal = true := by
  cases hins : PEntry.instrumentsList p with
  | nil => exact absurd hins hpne
  | cons i0 r =>
      have hi0 : i0 ∈ PEntry.instrumentsList p := by
        rw [hins]
        exact List.mem_cons_self i0 r
      rcases shape_resolve_inst_get false (pfLeaf sigma exm) [mA] p fs i0 h hi0
        with ⟨g, hlf, hget⟩
      rcases pfLeaf_dest sigma exm i0 g hlf with ⟨hgeq, hval, _⟩
      refine ⟨i0, ?_, hval⟩
      rw [prrFirstValue, hins]
      show prrGetEntry p [mA] fs (.inst i0) = _
      rw [hget, hgeq]
      show pinStep [mA] none (sigma i0) = _
      exact pinStep_plain [mA] none (sigma i0) (isPlainVal_of_isVal _ hval)

/-- as_multiple_result_futures on a flat single-measure tree wraps every plain leaf
future into a fresh single-entry MultipleRiskMeasureFuture. -/
theorem asMultiZip_flat (sigma : Nat → RV) (exm : Nat) (mA : Nat) :
    ∀ (p : List PEntry) (fs : List RV),
      (∀ e ∈ p, ∃ i, e = .inst i) →
      shapeList false (pfLeaf sigma exm) [mA] p fs = true →
      shapeList false (canonLeaf (fun i _ => sigma i) exm [mA]) [mA] p
        (asMultiZip [mA] p fs) = true := by
  intro p
  induction p with
  | nil =>
      intro fs _ h
      cases fs with
      | nil => rfl
      | cons f fsr => simp [shapeList] at h
  | cons e es ih =>
      intro fs hflat h
      cases fs with
      | nil => simp [shapeList] at h
      | cons f fsr =>
          simp only [shapeList, Bool.and_eq_true] at h
          rcases hflat e (List.mem_cons_self e es) with ⟨i, hei⟩
          subst hei
          rcases pfLeaf_dest sigma exm i f h.1 with ⟨hfeq, hval, hexm⟩
          rw [asMultiZip, shapeList]
          simp only [Bool.and_eq_true]
          constructor
          · rw [hfeq]
            show canonLeaf (fun i _ => sigma i) exm [mA] i
              (RV.mrmf (entryInst (.inst i)) [([mA].headD 0, RV.pf (sigma i))]) = true
            simp only [canonLeaf, entryInst, Bool.and_eq_true, beq_iff_eq]
            refine ⟨rfl, ?_⟩
            simp [hval, hexm]
          · exact ih fsr (fun e2 he2 => hflat e2 (List.mem_cons_of_mem _ he2)) h.2

/-- The leaf-by-leaf addition of the wrapped futures of two flat single-measure
trees over one portfolio. -/
theorem zipAddFlat (sA2 sB2 : Nat → Nat → RV) (exm : Nat) (lmsA lmsB : List Nat)
    (hAne : lmsA ≠ []) (hBne : lmsB ≠ []) (hnA : lmsA.Nodup) (hnB : lmsB.Nodup)
    (hld : listDisjoint lmsA lmsB = true) :
    ∀ (p : List PEntry) (fsA fsB : List RV),
      (∀ e ∈ p, ∃ i, e = .inst i) →
      shapeList false (canonLeaf sA2 exm lmsA) lmsA p fsA = true →
      shapeList false (canonLeaf sB2 exm lmsB) lmsB p fsB = true →
      ∃ nfs, zipAddFutures p fsA fsB = .ok nfs ∧
        shapeList false (canonLeaf (unionSigma sA2 sB2 (fun m2 => lmsA.contains m2))
          exm (lmsA ++ lmsB)) (dedupFirst (lmsA ++ lmsB)) p nfs = true := by
  intro p
  induction p with
  | nil =>
      intro fsA fsB _ hA hB
      cases fsA with
      | cons f fsr => simp [shapeList] at hA
      | nil =>
          cases fsB with
          | cons g gsr => simp [shapeList] at hB
          | nil => exact ⟨[], rfl, rfl⟩
  | cons e es ih =>
      intro fsA fsB hflat hA hB
      cases fsA with
      | nil => simp [shapeList] at hA
      | cons f fsr =>
          cases fsB with
          | nil => simp [shapeList] at hB
          | cons g gsr =>
              simp only [shapeList, Bool.and_eq_true] at hA hB
              rcases hflat e (List.mem_cons_self e es) with ⟨i, hei⟩
              subst hei
              rcases canonLeaf_dest sA2 exm lmsA i f hA.1 with ⟨hfeq, hAval⟩
              rcases canonLeaf_dest sB2 exm lmsB i g hB.1 with ⟨hgeq, hBval⟩
              rcases ih fsr gsr (fun e2 he2 => hflat e2 (List.mem_cons_of_mem _ he2))
                hA.2 hB.2 with ⟨nfs, hrest, hshr⟩
              refine ⟨.mrmf i ((lmsA ++ lmsB).map (fun m =>
                (m, RV.pf (unionSigma sA2 sB2 (fun m2 => lmsA.contains m2) i m)))) :: nfs,
                ?_, ?_⟩
              · have hone : entryAddFuture (.inst i) f g = .ok (.mrmf i ((lmsA ++ lmsB).map
                    (fun m => (m, RV.pf (unionSigma sA2 sB2 (fun m2 => lmsA.contains m2) i m))))) := by
                  show futureAddLeaf f g = _
                  rw [hfeq, hgeq]
                  exact futureAddLeaf_canonical i sA2 sB2 exm lmsA lmsB hAne hBne
                    hAval hBval hnA hnB hld
                rw [zipAddFutures, except_bind_ok_left _ _ hone,
                  except_bind_ok_left _ _ hrest]
              · rw [shapeList]
                simp only [Bool.and_eq_true]
                exact ⟨canonLeaf_union sA2 sB2 exm lmsA lmsB i hAval hBval hld, hshr⟩

/-- The same-portfolio path of PortfolioRiskResult.__add__ at the top level, with
the operand wrappings given explicitly (covers single-measure operands that
as_multiple_result_futures rebuilds). -/
theorem treeAddCore_same_portfolio_gen (p : List PEntry) (msA msB : List Nat)
    (fsA fsB sfs ofs : List RV) (fv : RV) (nfs : List RV)
    (hfv : prrFirstValue p msA fsA = .ok fv)
    (hcomp : riskKeysCompatible fv fv = .ok true)
    (hdms : listDisjoint msA msB = true)
    (hsA : (asMulti (.prr p msA fsA)).futuresOf = sfs)
    (hsB : (asMulti (.prr p msB fsB)).futuresOf = ofs)
    (hzip : zipAddFutures p sfs ofs = .ok nfs) :
    treeAddCore (.prr p msA fsA) (.prr p msB fsB) =
      .ok (.prr p (dedupFirst (msA ++ msB)) nfs, .prr p msA fsA, .prr p msB fsB) := by
  simp only [treeAddCore, eq_self_iff_true, if_true, hfv, ok_bind, hcomp,
    Bool.not_true, Bool.false_eq_true, if_false, hdms, pure_eq_ok, hsA, hsB, hzip]


/-- Adding two flat single-measure trees over one portfolio with distinct measures
succeeds and yields the canonical two-measure tree of wrapped leaves. -/
theorem treeAdd_canonical_single (sA sB : Nat → RV) (exm : Nat) (mA mB : Nat)
    (p : List PEntry) (fsA fsB : List RV)
    (hflat : ∀ e ∈ p, ∃ i, e = .inst i)
    (hA : shapeList false (pfLeaf sA exm) [mA] p fsA = true)
    (hB : shapeList false (pfLeaf sB exm) [mB] p fsB = true)
    (hpne : p ≠ []) (hne : mA ≠ mB) :
    ∃ nfs, treeAdd (.prr p [mA] fsA) (.prr p [mB] fsB) = .ok (.prr p [mA, mB] nfs) ∧
      shapeList false (canonLeaf (unionSigma (fun i _ => sA i) (fun i _ => sB i)
        (fun m2 => [mA].contains m2)) exm [mA, mB]) [mA, mB] p nfs = true := by
  have hAw := asMultiZip_flat sA exm mA p fsA hflat hA
  have hBw := asMultiZip_flat sB exm mB p fsB hflat hB
  have hld : listDisjoint [mA] [mB] = true := by
    rw [listDisjoint_iff]
    intro x hx
    rw [List.mem_singleton] at hx
    subst hx
    simp [hne]
  rcases zipAddFlat (fun i _ => sA i) (fun i _ => sB i) exm [mA] [mB]
    (by simp) (by simp) (by simp) (by simp) hld p
    (asMultiZip [mA] p fsA) (asMultiZip [mB] p fsB) hflat hAw hBw with ⟨nfs, hzip, hsh⟩
  have hinne := shapeListInstNonempty false (pfLeaf sA exm) [mA] p fsA hA hpne
  rcases prrFirstValue_pfLeaf sA exm mA p fsA hA hinne with ⟨i0, hfv, hval⟩
  have hcomp := riskKeysCompatible_val (sA i0) hval
  have hdedup : dedupFirst ([mA] ++ [mB]) = [mA, mB] := by
    have hne2 : mB ≠ mA := fun hc => hne hc.symm
    simp [dedupFirst, hne2]
  have hmulA : asMulti (.prr p [mA] fsA) = .prr p [mA] (asMultiZip [mA] p fsA) := by
    rw [asMulti, if_neg (by simp)]
  have hmulB : asMulti (.prr p [mB] fsB) = .prr p [mB] (asMultiZip [mB] p fsB) := by
    rw [asMulti, if_neg (by simp)]
  have hcore := treeAddCore_same_portfolio_gen p [mA] [mB] fsA fsB
    (asMultiZip [mA] p fsA) (asMultiZip [mB] p fsB) _ nfs hfv hcomp hld
    (by rw [hmulA]; rfl) (by rw [hmulB]; rfl) hzip
  refine ⟨nfs, ?_, by rw [hdedup] at hsh; exact hsh⟩
  rw [treeAdd, except_bind_ok_left _ _ hcore]
  show Except.ok (RV.prr p (dedupFirst ([mA] ++ [mB])) nfs) = _
  rw [hdedup]


/-- PortfolioRiskResult.__getitem__ with risk-measure key(s) on a canonical
multi-measure tree: the portfolio is preserved, the measure tuple becomes the
requested one, and every leaf keeps the surviving measures in computed order. -/
theorem sliceMeasures_canonical (sigma : Nat → Nat → RV) (exm : Nat)
    (lms ms item : List Nat) (isIter : Bool) (p : List PEntry) (fs : List RV)
    (h : shapeList false (canonLeaf sigma exm lms) ms p fs = true)
    (hml : (ms.length == 1) = false)
    (hitem : item.all (fun m => ms.contains m) = true) :
    ∃ nfs, sliceMeasures p ms fs item isIter = .ok (.prr p item nfs) ∧
      shapeList false (canonLeaf sigma exm (measureFilter item isIter lms))
        item p nfs = true := by
  rcases sliceCanonList sigma exm lms ms item isIter p fs h hml hitem p
    (fun e he => he) with ⟨nfs, hlist, hshape⟩
  refine ⟨nfs, ?_, hshape⟩
  rw [sliceMeasures, hitem]
  simp only [Bool.not_true]
  rw [if_neg (by simp), hml, if_neg (by simp)]
  rw [except_bind_ok_left _ _ hlist]


/-! Claim C1. -/

/-- C1 counterexample: for A = two-measure tree over instrument 0 with measures
{1, 2} and B = one-measure tree with measure {3} over the same portfolio (disjoint
measures), (A + B)[1] is a single-measure tree, not the two-measure operand A: its
measure tuple is [1] while A's is [1, 2], so the slice does not equal A unchanged. -/
theorem c1_single_slice_counterexample :
    treeAdd
        (.prr [.inst 0] [1, 2]
          [.mrmf 0 [(1, .pf (.scalar 10 ⟨[5], 0⟩)), (2, .pf (.scalar 20 ⟨[5], 0⟩))]])
        (.prr [.inst 0] [3] [.pf (.scalar 30 ⟨[5], 0⟩)])
      = .ok (.prr [.inst 0] [1, 2, 3]
          [.mrmf 0 [(1, .pf (.scalar 10 ⟨[5], 0⟩)), (2, .pf (.scalar 20 ⟨[5], 0⟩)),
                    (3, .pf (.scalar 30 ⟨[5], 0⟩))]]) ∧
    getItem (.prr [.inst 0] [1, 2, 3]
          [.mrmf 0 [(1, .pf (.scalar 10 ⟨[5], 0⟩)), (2, .pf (.scalar 20 ⟨[5], 0⟩)),
                    (3, .pf (.scalar 30 ⟨[5], 0⟩))]]) (.rm 1)
      = .ok (.prr [.inst 0] [1] [.mrmf 0 [(1, .pf (.scalar 10 ⟨[5], 0⟩))]]) ∧
    ¬ obsEquiv (.prr [.inst 0] [1] [.mrmf 0 [(1, .pf (.scalar 10 ⟨[5], 0⟩))]])
        (.prr [.inst 0] [1, 2]
          [.mrmf 0 [(1, .pf (.scalar 10 ⟨[5], 0⟩)), (2, .pf (.scalar 20 ⟨[5], 0⟩))]]) := by
  refine ⟨by decide, by decide, ?_⟩
  intro h
  exact absurd h.2.1 (by decide)

/-- C1 (corrected): over one portfolio with disjoint measure sets, slicing A + B by
an operand's FULL measure selection recovers that operand's observations (same
portfolio, same measure tuple, same value at every instrument and measure).  For
multi-measure operands the selection is the operand's measure tuple (an iterable
key); for flat single-measure operands it is the operand's single measure.  Slicing
by a single measure of a multi-measure operand instead returns a single-measure
tree, not the operand itself. -/
theorem c1_sum_slice_recovers_operands :
    (∀ (sA sB : Nat → Nat → RV) (exm : Nat) (msA msB : List Nat)
       (p : List PEntry) (fsA fsB : List RV),
       shapeList false (canonLeaf sA exm msA) msA p fsA = true →
       shapeList false (canonLeaf sB exm msB) msB p fsB = true →
       p ≠ [] → msA.Nodup → msB.Nodup → listDisjoint msA msB = true →
       2 ≤ msA.length → 2 ≤ msB.length →
       ∃ S TA TB,
         treeAdd (.prr p msA fsA) (.prr p msB fsB) = .ok S ∧
         getItem S (.rms msA) = .ok TA ∧ obsEquiv TA (.prr p msA fsA) ∧
         getItem S (.rms msB) = .ok TB ∧ obsEquiv TB (.prr p msB fsB)) ∧
    (∀ (sA sB : Nat → RV) (exm mA mB : Nat) (p : List PEntry) (fsA fsB : List RV),
       (∀ e ∈ p, ∃ i, e = .inst i) →
       shapeList false (pfLeaf sA exm) [mA] p fsA = true →
       shapeList false (pfLeaf sB exm) [mB] p fsB = true →
       p ≠ [] → mA ≠ mB →
       ∃ S TA TB,
         treeAdd (.prr p [mA] fsA) (.prr p [mB] fsB) = .ok S ∧
         getItem S (.rm mA) = .ok TA ∧ obsEquiv TA (.prr p [mA] fsA) ∧
         getItem S (.rm mB) = .ok TB ∧ obsEquiv TB (.prr p [mB] fsB)) := by
  constructor
  · intro sA sB exm msA msB p fsA fsB hA hB hpne hnA hnB hd hlA hlB
    obtain ⟨nfs, hadd, hsh⟩ := treeAdd_canonical_multi sA sB exm msA msB p fsA fsB
      hA hB hpne hnA hnB hd hlA hlB
    have hmlU : ((msA ++ msB).length == 1) = false := by
      apply length_beq_one_false
      rw [List.length_append]
      omega
    have hitemA : msA.all (fun m => (msA ++ msB).contains m) = true := by
      rw [List.all_eq_true]
      intro m hm
      exact contains_of_mem _ _ (List.mem_append_left _ hm)
    have hitemB : msB.all (fun m => (msA ++ msB).contains m) = true := by
      rw [List.all_eq_true]
      intro m hm
      exact contains_of_mem _ _ (List.mem_append_right _ hm)
    obtain ⟨nfsA, hslA, hshA⟩ := sliceMeasures_canonical
      (unionSigma sA sB (fun m2 => msA.contains m2)) exm (msA ++ msB) (msA ++ msB)
      msA true p nfs hsh hmlU hitemA
    obtain ⟨nfsB, hslB, hshB⟩ := sliceMeasures_canonical
      (unionSigma sA sB (fun m2 => msA.contains m2)) exm (msA ++ msB) (msA ++ msB)
      msB true p nfs hsh hmlU hitemB
    have hmsFA : measureFilter msA true (msA ++ msB) = msA := by
      rw [measureFilter_true, List.filter_append,
        filter_contains_all msA msA (fun m hm => hm),
        filter_contains_none msA msB
          (fun m hm hc => (listDisjoint_iff msA msB).1 hd m hc hm),
        List.append_nil]
    have hmsFB : measureFilter msB true (msA ++ msB) = msB := by
      rw [measureFilter_true, List.filter_append,
        filter_contains_none msB msA
          (fun m hm hc => (listDisjoint_iff msA msB).1 hd m hm hc),
        filter_contains_all msB msB (fun m hm => hm), List.nil_append]
    rw [hmsFA] at hshA
    rw [hmsFB] at hshB
    refine ⟨.prr p (msA ++ msB) nfs, .prr p msA nfsA, .prr p msB nfsB, hadd,
      hslA, ?_, hslB, ?_⟩
    · refine ⟨rfl, rfl, ?_⟩
      intro i hi m hm
      rw [obsAt_canonical_multi (unionSigma sA sB (fun m2 => msA.contains m2)) exm
        msA msA p nfsA hshA (length_beq_one_false msA hlA) i m hi hm,
        obsAt_canonical_multi sA exm msA msA p fsA hA
          (length_beq_one_false msA hlA) i m hi hm]
      simp [unionSigma, contains_of_mem _ _ hm]
      exact fun hc => absurd hm hc
    · refine ⟨rfl, rfl, ?_⟩
      intro i hi m hm
      have hnma : m ∉ msA := fun hc => (listDisjoint_iff msA msB).1 hd m hc hm
      rw [obsAt_canonical_multi (unionSigma sA sB (fun m2 => msA.contains m2)) exm
        msB msB p nfsB hshB (length_beq_one_false msB hlB) i m hi hm,
        obsAt_canonical_multi sB exm msB msB p fsB hB
          (length_beq_one_false msB hlB) i m hi hm]
      simp [unionSigma, contains_of_not_mem _ _ hnma]
      exact fun hc => absurd hc hnma
  · intro sA sB exm mA mB p fsA fsB hflat hA hB hpne hne
    obtain ⟨nfs, hadd, hsh⟩ := treeAdd_canonical_single sA sB exm mA mB p fsA fsB
      hflat hA hB hpne hne
    have hmlU : (([mA, mB].length == 1) : Bool) = false := rfl
    have hitemA : [mA].all (fun m => [mA, mB].contains m) = true := by simp
    have hitemB : [mB].all (fun m => [mA, mB].contains m) = true := by simp
    obtain ⟨nfsA, hslA, hshA⟩ := sliceMeasures_canonical
      (unionSigma (fun i _ => sA i) (fun i _ => sB i) (fun m2 => [mA].contains m2))
      exm [mA, mB] [mA, mB] [mA] false p nfs hsh hmlU hitemA
    obtain ⟨nfsB, hslB, hshB⟩ := sliceMeasures_canonical
      (unionSigma (fun i _ => sA i) (fun i _ => sB i) (fun m2 => [mA].contains m2))
      exm [mA, mB] [mA, mB] [mB] false p nfs hsh hmlU hitemB
    have hba : (mB == mA) = false := beq_nat_false mB mA (fun hc => hne hc.symm)
    have hab : (mA == mB) = false := beq_nat_false mA mB hne
    have hmsFA : measureFilter [mA] false [mA, mB] = [mA] := by
      rw [measureFilter_single]
      simp [List.filter, hba]
    have hmsFB : measureFilter [mB] false [mA, mB] = [mB] := by
      rw [measureFilter_single]
      simp [List.filter, hab]
    rw [hmsFA] at hshA
    rw [hmsFB] at hshB
    refine ⟨.prr p [mA, mB] nfs, .prr p [mA] nfsA, .prr p [mB] nfsB, hadd,
      hslA, ?_, hslB, ?_⟩
    · refine ⟨rfl, rfl, ?_⟩
      intro i hi m hm
      rw [List.mem_singleton] at hm
      subst hm
      rw [obsAt_canonical_single (unionSigma (fun i _ => sA i) (fun i _ => sB i)
          (fun m2 => [m].contains m2)) exm [m] m p nfsA hshA i hi
          (List.mem_singleton.2 rfl),
        obsAt_pfLeaf sA exm m p fsA hA i m hi]
      simp [unionSigma]
    · refine ⟨rfl, rfl, ?_⟩
      intro i hi m hm
      rw [List.mem_singleton] at hm
      subst hm
      have hnma : m ∉ [mA] := by
        rw [List.mem_singleton]
        exact fun hc => hne hc.symm
      rw [obsAt_canonical_single (unionSigma (fun i _ => sA i) (fun i _ => sB i)
          (fun m2 => [mA].contains m2)) exm [m] m p nfsB hshB i hi
          (List.mem_singleton.2 rfl),
        obsAt_pfLeaf sB exm m p fsB hB i m hi]
      simp [unionSigma, contains_of_not_mem _ _ hnma]
      exact fun hc => absurd hc (fun hc2 => hne hc2.symm)


/-- C1 witness: a concrete two-level portfolio with measures {1, 2} + {3, 4}. -/
theorem c1_witness :
    (shapeList false
        (canonLeaf (fun i m => .scalar (10 * Int.ofNat m + Int.ofNat i) ⟨[5], 7⟩) 7 [1, 2])
        [1, 2] [.inst 0, .port [.inst 1]]
        [.mrmf 0 [(1, .pf (.scalar 10 ⟨[5], 7⟩)), (2, .pf (.scalar 20 ⟨[5], 7⟩))],
         .prr [.inst 1] [1, 2]
           [.mrmf 1 [(1, .pf (.scalar 11 ⟨[5], 7⟩)), (2, .pf (.scalar 21 ⟨[5], 7⟩))]]] = true) ∧
    ∃ S TA TB,
      treeAdd
          (.prr [.inst 0, .port [.inst 1]] [1, 2]
            [.mrmf 0 [(1, .pf (.scalar 10 ⟨[5], 7⟩)), (2, .pf (.scalar 20 ⟨[5], 7⟩))],
             .prr [.inst 1] [1, 2]
               [.mrmf 1 [(1, .pf (.scalar 11 ⟨[5], 7⟩)), (2, .pf (.scalar 21 ⟨[5], 7⟩))]]])
          (.prr [.inst 0, .port [.inst 1]] [3, 4]
            [.mrmf 0 [(3, .pf (.scalar 30 ⟨[6], 7⟩)), (4, .pf (.scalar 40 ⟨[6], 7⟩))],
             .prr [.inst 1] [3, 4]
               [.mrmf 1 [(3, .pf (.scalar 31 ⟨[6], 7⟩)), (4, .pf (.scalar 41 ⟨[6], 7⟩))]]])
        = .ok S ∧
      getItem S (.rms [1, 2]) = .ok TA ∧
      obsEquiv TA
        (.prr [.inst 0, .port [.inst 1]] [1, 2]
          [.mrmf 0 [(1, .pf (.scalar 10 ⟨[5], 7⟩)), (2, .pf (.scalar 20 ⟨[5], 7⟩))],
           .prr [.inst 1] [1, 2]
             [.mrmf 1 [(1, .pf (.scalar 11 ⟨[5], 7⟩)), (2, .pf (.scalar 21 ⟨[5], 7⟩))]]]) ∧
      getItem S (.rms [3, 4]) = .ok TB ∧
      obsEquiv TB
        (.prr [.inst 0, .port [.inst 1]] [3, 4]
          [.mrmf 0 [(3, .pf (.scalar 30 ⟨[6], 7⟩)), (4, .pf (.scalar 40 ⟨[6], 7⟩))],
           .prr [.inst 1] [3, 4]
             [.mrmf 1 [(3, .pf (.scalar 31 ⟨[6], 7⟩)), (4, .pf (.scalar 41 ⟨[6], 7⟩))]]]) := by
  refine ⟨by decide, ?_⟩
  exact c1_sum_slice_recovers_operands.1
    (fun i m => .scalar (10 * Int.ofNat m + Int.ofNat i) ⟨[5], 7⟩)
    (fun i m => .scalar (10 * Int.ofNat m + Int.ofNat i) ⟨[6], 7⟩)
    7 [1, 2] [3, 4] [.inst 0, .port [.inst 1]]
    [.mrmf 0 [(1, .pf (.scalar 10 ⟨[5], 7⟩)), (2, .pf (.scalar 20 ⟨[5], 7⟩))],
     .prr [.inst 1] [1, 2]
       [.mrmf 1 [(1, .pf (.scalar 11 ⟨[5], 7⟩)), (2, .pf (.scalar 21 ⟨[5], 7⟩))]]]
    [.mrmf 0 [(3, .pf (.scalar 30 ⟨[6], 7⟩)), (4, .pf (.scalar 40 ⟨[6], 7⟩))],
     .prr [.inst 1] [3, 4]
       [.mrmf 1 [(3, .pf (.scalar 31 ⟨[6], 7⟩)), (4, .pf (.scalar 41 ⟨[6], 7⟩))]]]
    (by decide) (by decide) (by decide) (by decide) (by decide) (by decide)
    (by decide) (by decide)


/-! Claim C2, corrected theorem. -/

theorem err_bind {α β : Type} (e : PyErr) (f : α → Except PyErr β) :
    (Except.error e >>= f) = .error e := rfl

/-- C2 (corrected): tree + tree fails with the ValueError "Results overlap on risk
measures, instruments or dates" exactly when ALL THREE sets overlap (risk measures
AND dates AND instruments, a conjunction, not pairwise disjointness); if any one of
the three sets is disjoint the check passes — in particular two trees over the very
same portfolio (fully overlapping instruments and dates) add successfully when
their measure sets are disjoint. -/
theorem c2_overlap_check_semantics :
    (∀ (pA pB : List PEntry) (msA msB dA dB : List Nat) (fsA fsB : List RV) (fv : RV),
       prrFirstValue pA msA fsA = .ok fv →
       riskKeysCompatible fv fv = .ok true →
       prrDatesE pA msA fsA = .ok dA →
       prrDatesE pB msB fsB = .ok dB →
       listDisjoint msA msB = false →
       listDisjoint dA dB = false →
       listDisjoint (PEntry.instrumentsList pA) (PEntry.instrumentsList pB) = false →
       treeAdd (.prr pA msA fsA) (.prr pB msB fsB) =
         .error (.valueError "Results overlap on risk measures, instruments or dates")) ∧
    (∀ (sA sB : Nat → Nat → RV) (exm : Nat) (msA msB : List Nat)
       (p : List PEntry) (fsA fsB : List RV),
       shapeList false (canonLeaf sA exm msA) msA p fsA = true →
       shapeList false (canonLeaf sB exm msB) msB p fsB = true →
       p ≠ [] → msA.Nodup → msB.Nodup → listDisjoint msA msB = true →
       2 ≤ msA.length → 2 ≤ msB.length →
       ∃ S, treeAdd (.prr p msA fsA) (.prr p msB fsB) = .ok S) := by
  constructor
  · intro pA pB msA msB dA dB fsA fsB fv hfv hcomp hdA hdB hmd hdd hid
    rw [treeAdd]
    simp only [treeAddCore, hfv, ok_bind, hcomp, Bool.not_true, Bool.false_eq_true,
      if_false, hmd, hdA, hdB, hdd, hid, pure_eq_ok, Bool.not_false, if_true,
      err_bind]
  · intro sA sB exm msA msB p fsA fsB hA hB hpne hnA hnB hd hlA hlB
    obtain ⟨nfs, hadd, _⟩ := treeAdd_canonical_multi sA sB exm msA msB p fsA fsB
      hA hB hpne hnA hnB hd hlA hlB
    exact ⟨_, hadd⟩

/-- C2 witness: two identical-shape historical trees over instrument 0 with the
same measures {1, 2} and the same date 5 — all three sets overlap and the addition
raises the overlap ValueError. -/
theorem c2_witness :
    prrFirstValue [.inst 0] [1, 2]
        [.mrmf 0 [(1, .pf (.series [(5, 10)] ⟨[5], 0⟩)),
                  (2, .pf (.series [(5, 20)] ⟨[5], 0⟩))]]
      = .ok (.mrm 0 [(1, .series [(5, 10)] ⟨[5], 0⟩),
                     (2, .series [(5, 20)] ⟨[5], 0⟩)]) ∧
    treeAdd
        (.prr [.inst 0] [1, 2]
          [.mrmf 0 [(1, .pf (.series [(5, 10)] ⟨[5], 0⟩)),
                    (2, .pf (.series [(5, 20)] ⟨[5], 0⟩))]])
        (.prr [.inst 0] [1, 2]
          [.mrmf 0 [(1, .pf (.series [(5, 30)] ⟨[5], 0⟩)),
                    (2, .pf (.series [(5, 40)] ⟨[5], 0⟩))]])
      = .error (.valueError "Results overlap on risk measures, instruments or dates") := by
  refine ⟨by decide, ?_⟩
  exact c2_overlap_check_semantics.1 [.inst 0] [.inst 0] [1, 2] [1, 2] [5] [5]
    [.mrmf 0 [(1, .pf (.series [(5, 10)] ⟨[5], 0⟩)),
              (2, .pf (.series [(5, 20)] ⟨[5], 0⟩))]]
    [.mrmf 0 [(1, .pf (.series [(5, 30)] ⟨[5], 0⟩)),
              (2, .pf (.series [(5, 40)] ⟨[5], 0⟩))]]
    (.mrm 0 [(1, .series [(5, 10)] ⟨[5], 0⟩), (2, .series [(5, 20)] ⟨[5], 0⟩)])
    (by decide) (by decide) (by decide) (by decide) (by decide) (by decide) (by decide)


/-! Infrastructure: indexing lemmas for C5. -/

theorem pinStep_prr_single (m : Nat) (p2 : List PEntry) (fs2 : List RV) :
    pinStep [m] none (.prr p2 [m] fs2) = .ok (.prr p2 [m] fs2) := by
  unfold pinStep
  simp

theorem filter_beq_nil (l : List Nat) (m : Nat) (h : m ∉ l) :
    l.filter (fun x => x == m) = [] := by
  induction l with
  | nil => rfl
  | cons a l ih =>
      rw [List.filter_cons,
        beq_nat_false a m (fun hc => h (hc ▸ List.mem_cons_self a l))]
      exact ih (fun hm => h (List.mem_cons_of_mem a hm))

theorem filter_beq_of_nodup (l : List Nat) (m : Nat) (hm : m ∈ l) (hnd : l.Nodup) :
    l.filter (fun x => x == m) = [m] := by
  induction l with
  | nil => cases hm
  | cons a l ih =>
      rcases List.nodup_cons.1 hnd with ⟨ha, hl⟩
      rcases List.mem_cons.1 hm with he | he
      · subst he
        rw [List.filter_cons]
        simp only [beq_self_eq_true, if_true]
        rw [filter_beq_nil l m ha]
      · rw [List.filter_cons, beq_nat_false a m (fun hc => ha (hc ▸ he))]
        exact ih he hl

theorem getItem_inst_canonical (sigma : Nat → Nat → RV) (exm : Nat)
    (lms ms : List Nat) (p : List PEntry) (fs : List RV)
    (h : shapeList false (canonLeaf sigma exm lms) ms p fs = true)
    (hml : (ms.length == 1) = false) (i : Nat)
    (hi : i ∈ PEntry.instrumentsList p) :
    getItem (.prr p ms fs) (.inst i) =
      .ok (.mrm i (lms.map (fun m => (m, sigma i m)))) := by
  rcases shape_resolve_inst_get false (canonLeaf sigma exm lms) ms p fs i h hi with
    ⟨g, hlf, hget⟩
  rcases canonLeaf_dest sigma exm lms i g hlf with ⟨hgeq, _⟩
  show prrGetEntry p ms fs (.inst i) = _
  rw [hget, hgeq]
  show pinStep ms none (RV.mrm i (RV.resultPairs (lms.map (fun m => (m, RV.pf (sigma i m)))))) = _
  rw [resultPairs_map_pf, pinStep_mrm_multi _ _ _ hml]

theorem getItem_inst_canonical_single (sigma : Nat → Nat → RV) (exm : Nat)
    (lms : List Nat) (m0 : Nat) (p : List PEntry) (fs : List RV)
    (h : shapeList false (canonLeaf sigma exm lms) [m0] p fs = true)
    (hm : m0 ∈ lms) (i : Nat) (hi : i ∈ PEntry.instrumentsList p) :
    getItem (.prr p [m0] fs) (.inst i) = .ok (sigma i m0) := by
  rcases shape_resolve_inst_get false (canonLeaf sigma exm lms) [m0] p fs i h hi with
    ⟨g, hlf, hget⟩
  rcases canonLeaf_dest sigma exm lms i g hlf with ⟨hgeq, _⟩
  show prrGetEntry p [m0] fs (.inst i) = _
  rw [hget, hgeq]
  show pinStep [m0] none (RV.mrm i (RV.resultPairs (lms.map (fun m => (m, RV.pf (sigma i m)))))) = _
  rw [resultPairs_map_pf, pinStep_mrm_single, lookup_graph, if_pos hm]

theorem getItem_inst_dateLeaf (tau : Nat → Nat → RV) (lms ms : List Nat)
    (p : List PEntry) (fs : List RV)
    (h : shapeList true (dateLeaf tau lms) ms p fs = true)
    (hml : (ms.length == 1) = false) (i : Nat)
    (hi : i ∈ PEntry.instrumentsList p) :
    getItem (.prr p ms fs) (.inst i) =
      .ok (.mrm i (lms.map (fun m => (m, tau i m)))) := by
  rcases shape_resolve_inst_get true (dateLeaf tau lms) ms p fs i h hi with
    ⟨g, hlf, hget⟩
  have hgeq : g = .pf (.mrm i (lms.map (fun m => (m, tau i m)))) := by
    simpa [dateLeaf] using hlf
  show prrGetEntry p ms fs (.inst i) = _
  rw [hget, hgeq]
  show pinStep ms none (RV.mrm i (lms.map (fun m => (m, tau i m)))) = _
  rw [pinStep_mrm_multi _ _ _ hml]

theorem getItem_inst_dateLeaf1 (tau : Nat → RV) (m0 : Nat)
    (p : List PEntry) (fs : List RV)
    (h : shapeList true (dateLeaf1 tau) [m0] p fs = true)
    (hplain : ∀ i, (tau i).isPlainVal = true) (i : Nat)
    (hi : i ∈ PEntry.instrumentsList p) :
    getItem (.prr p [m0] fs) (.inst i) = .ok (tau i) := by
  rcases shape_resolve_inst_get true (dateLeaf1 tau) [m0] p fs i h hi with
    ⟨g, hlf, hget⟩
  have hgeq : g = .pf (tau i) := by
    simpa [dateLeaf1] using hlf
  show prrGetEntry p [m0] fs (.inst i) = _
  rw [hget, hgeq]
  show pinStep [m0] none (tau i) = _
  exact pinStep_plain [m0] none (tau i) (hplain i)

theorem mrmGetDate_graph (i : Nat) (s : Nat → List (Nat × Int)) (exm : Nat)
    (d : Nat) (v : Nat → Int) :
    ∀ (lms : List Nat), (∀ m ∈ lms, (s m).lookup d = some (v m)) →
      mrmGetDate i (lms.map (fun m => (m, RV.series (s m) ⟨(s m).map Prod.fst, exm⟩))) d
        = .ok (.mrm i (lms.map (fun m => (m, RV.scalar (v m) ⟨[d], exm⟩)))) := by
  intro lms hlkps
  rw [mrmGetDate, if_pos ?hall]
  case hall =>
    rw [List.all_eq_true]
    intro kv hkv
    rcases List.mem_map.1 hkv with ⟨m, _, hkv2⟩
    rw [← hkv2]
    rfl
  have hmapM : ∀ (l : List Nat), (∀ m ∈ l, (s m).lookup d = some (v m)) →
      (l.map (fun m => (m, RV.series (s m) ⟨(s m).map Prod.fst, exm⟩))).mapM
        (fun kv => do
          let v2 ← valueForDate kv.2 d
          pure (kv.1, v2))
        = .ok (l.map (fun m => (m, RV.scalar (v m) ⟨[d], exm⟩))) := by
    intro l
    induction l with
    | nil => intro _; rfl
    | cons m l ih =>
        intro hl
        rw [List.map_cons, List.mapM_cons]
        have hv : valueForDate (RV.series (s m) ⟨(s m).map Prod.fst, exm⟩) d
            = .ok (.scalar (v m) ⟨[d], exm⟩) := by
          rw [valueForDate, hl m (List.mem_cons_self m l)]
        rw [hv]
        show (do
          let bs ← (l.map (fun m => (m, RV.series (s m) ⟨(s m).map Prod.fst, exm⟩))).mapM
            (fun kv => do
              let v2 ← valueForDate kv.2 d
              pure (kv.1, v2))
          pure ((m, RV.scalar (v m) ⟨[d], exm⟩) :: bs) : Except PyErr (List (Nat × RV))) = _
        rw [ih (fun m2 hm2 => hl m2 (List.mem_cons_of_mem m hm2))]
        rfl
  rw [hmapM lms hlkps]
  rfl


mutual

/-- The per-priceable loop of the date slice, generically over the leaf shape: every
leaf re-indexes at the date per the given leaf step, every nested tree recurses and
is wrapped in a PricingFuture. -/
def sliceDateCanon :
    ∀ (w : Bool) (LFin LFout : Nat → RV → Bool) (ms : List Nat) (d : Nat)
      (p : List PEntry) (fs : List RV),
      (∀ i g, LFin i g = true →
        ∃ out, (do
            let r ← pinStep ms none g.result
            (match r with
             | RV.mrm j vals => do
                let v ← mrmGetDate j vals d
                Except.ok (RV.pf v)
             | RV.series s k => do
                let v ← valueForDate (.series s k) d
                Except.ok (RV.pf v)
             | RV.prr _ _ _ =>
                Except.error (PyErr.runtimeError "result tree does not mirror the portfolio")
             | _ =>
                Except.error (PyErr.runtimeError "Can only index by date on historical results")) : Except PyErr RV) = .ok out ∧
          LFout i out = true) →
      (∀ (p2 : List PEntry) (fs2 : List RV),
        pinStep ms none (RV.prr p2 ms fs2) = .ok (.prr p2 ms fs2)) →
      shapeList w LFin ms p fs = true →
      ∀ (entries : List PEntry), (∀ e ∈ entries, e ∈ p) →
      ∃ nfs, sliceDateList d p ms fs entries = .ok nfs ∧
        shapeList true LFout ms entries nfs = true
  | w, LFin, LFout, ms, d, p, fs, hleaf, hprr, hshape, [], hsub => ⟨[], rfl, rfl⟩
  | w, LFin, LFout, ms, d, p, fs, hleaf, hprr, hshape, .inst i :: rest, hsub => by
      rcases sliceDateCanon w LFin LFout ms d p fs hleaf hprr hshape rest
        (fun e he => hsub e (List.mem_cons_of_mem _ he)) with ⟨nfs, hrest, hshr⟩
      have hi : i ∈ PEntry.instrumentsList p :=
        inst_mem_instrumentsList p i (hsub _ (List.mem_cons_self _ _))
      rcases shape_resolve_inst_get w LFin ms p fs i hshape hi with ⟨g, hlf, hget⟩
      rcases hleaf i g hlf with ⟨out, hstep, hout⟩
      have hentry : sliceDateEntry d p ms fs (.inst i) = .ok out := by
        rw [sliceDateEntry, hget]
        exact hstep
      refine ⟨out :: nfs, ?_, ?_⟩
      · rw [sliceDateList, except_bind_ok_left _ _ hentry,
          except_bind_ok_left _ _ hrest]
      · rw [shapeList]
        simp only [Bool.and_eq_true]
        exact ⟨hout, hshr⟩
  | w, LFin, LFout, ms, d, p, fs, hleaf, hprr, hshape, .port es :: rest, hsub => by
      rcases sliceDateCanon w LFin LFout ms d p fs hleaf hprr hshape rest
        (fun e he => hsub e (List.mem_cons_of_mem _ he)) with ⟨nfs, hrest, hshr⟩
      rcases shape_resolve_port_get w LFin ms p fs es hshape
        (hsub _ (List.mem_cons_self _ _)) with ⟨g, hge, hget⟩
      simp only [shapeEntry, Bool.and_eq_true] at hge
      cases hnf : nodeForm w g with
      | none => rw [hnf] at hge; simp at hge
      | some trip =>
          rw [hnf] at hge
          rcases trip with ⟨p2, ms2, fs2⟩
          simp only [Bool.and_eq_true] at hge
          have hp2 : p2 = es := (PEntry.beqList_iff p2 es).1 hge.2.1.1
          have hms2 : ms2 = ms := by simpa using hge.2.1.2
          have hres := nodeForm_result w g p2 ms2 fs2 hnf
          rcases sliceDateCanon w LFin LFout ms d es fs2 hleaf hprr hge.2.2 es
            (fun e he => he) with ⟨nfs2, hnested, hshn⟩
          have hentry : sliceDateEntry d p ms fs (.port es) =
              .ok (.pf (.prr es ms nfs2)) := by
            rw [sliceDateEntry, hget, hres.1, hp2, hms2, hprr es fs2]
            show (match RV.prr es ms fs2 with
              | RV.prr p' ms' fs' =>
                  if p' = es then do
                    let nfs3 ← sliceDateList d es ms' fs' es
                    Except.ok (RV.pf (RV.prr p' ms' nfs3))
                  else Except.error (PyErr.runtimeError "result tree does not mirror the portfolio")
              | RV.mrm j vals => do
                  let v ← mrmGetDate j vals d
                  Except.ok (RV.pf v)
              | RV.series s k => do
                  let v ← valueForDate (.series s k) d
                  Except.ok (RV.pf v)
              | _ => Except.error (PyErr.runtimeError "Can only index by date on historical results")) = _
            show (if es = es then do
                let nfs3 ← sliceDateList d es ms fs2 es
                Except.ok (RV.pf (RV.prr es ms nfs3))
              else Except.error (PyErr.runtimeError "result tree does not mirror the portfolio")) = _
            rw [if_pos rfl, except_bind_ok_left _ _ hnested]
          refine ⟨.pf (.prr es ms nfs2) :: nfs, ?_, ?_⟩
          · rw [sliceDateList, except_bind_ok_left _ _ hentry,
              except_bind_ok_left _ _ hrest]
          · rw [shapeList]
            simp only [Bool.and_eq_true]
            refine ⟨?_, hshr⟩
            rw [shapeEntry, nodeForm]
            simp only [Bool.and_eq_true, beq_self_eq_true, and_true]
            exact ⟨hge.1, (PEntry.beqList_iff es es).2 rfl, hshn⟩

end

/-- PortfolioRiskResult.__getitem__ with a date key, generically over the leaf
shape. -/
theorem sliceDate_canonical_gen (w : Bool) (LFin LFout : Nat → RV → Bool)
    (ms : List Nat) (d : Nat) (p : List PEntry) (fs : List RV)
    (hleaf : ∀ i g, LFin i g = true →
      ∃ out, (do
          let r ← pinStep ms none g.result
          (match r with
           | RV.mrm j vals => do
              let v ← mrmGetDate j vals d
              Except.ok (RV.pf v)
           | RV.series s k => do
              let v ← valueForDate (.series s k) d
              Except.ok (RV.pf v)
           | RV.prr _ _ _ =>
              Except.error (PyErr.runtimeError "result tree does not mirror the portfolio")
           | _ =>
              Except.error (PyErr.runtimeError "Can only index by date on historical results")) : Except PyErr RV) = .ok out ∧
        LFout i out = true)
    (hprr : ∀ (p2 : List PEntry) (fs2 : List RV),
      pinStep ms none (RV.prr p2 ms fs2) = .ok (.prr p2 ms fs2))
    (hshape : shapeList w LFin ms p fs = true) :
    ∃ nfs, sliceDate p ms fs d = .ok (.prr p ms nfs) ∧
      shapeList true LFout ms p nfs = true := by
  rcases sliceDateCanon w LFin LFout ms d p fs hleaf hprr hshape p (fun e he => he)
    with ⟨nfs, hlist, hsh⟩
  refine ⟨nfs, ?_, hsh⟩
  rw [sliceDate, except_bind_ok_left _ _ hlist]


mutual

/-- The per-priceable loop of the measure slice, generically over a leaf shape that
resolves to the full measure mapping of per-leaf values tau: every leaf is filtered
to the requested measures and rewrapped, nested trees recurse. -/
def sliceMeasCanonW :
    ∀ (w : Bool) (LFin : Nat → RV → Bool) (tau : Nat → Nat → RV) (exm : Nat)
      (lms ms item : List Nat) (isIter : Bool) (p : List PEntry) (fs : List RV),
      (∀ i g, LFin i g = true →
        pinStep ms none g.result = .ok (.mrm i (lms.map (fun m => (m, tau i m))))) →
      (∀ i m, (tau i m).isVal = true ∧ (tau i m).exmOf = exm) →
      (ms.length == 1) = false →
      item.all (fun m => ms.contains m) = true →
      shapeList w LFin ms p fs = true →
      ∀ (entries : List PEntry), (∀ e ∈ entries, e ∈ p) →
      ∃ nfs, sliceMeasuresList item isIter p ms fs entries = .ok nfs ∧
        shapeList false (canonLeaf tau exm (measureFilter item isIter lms))
          item entries nfs = true
  | w, LFin, tau, exm, lms, ms, item, isIter, p, fs, hleaf, hval, hml, hitem,
      hshape, [], hsub => ⟨[], rfl, rfl⟩
  | w, LFin, tau, exm, lms, ms, item, isIter, p, fs, hleaf, hval, hml, hitem,
      hshape, .inst i :: rest, hsub => by
      rcases sliceMeasCanonW w LFin tau exm lms ms item isIter p fs hleaf hval hml
        hitem hshape rest (fun e he => hsub e (List.mem_cons_of_mem _ he)) with
        ⟨nfs, hrest, hshr⟩
      have hi : i ∈ PEntry.instrumentsList p :=
        inst_mem_instrumentsList p i (hsub _ (List.mem_cons_self _ _))
      rcases shape_resolve_inst_get w LFin ms p fs i hshape hi with ⟨g, hlf, hget⟩
      have hr : prrGetEntry p ms fs (.inst i) =
          .ok (.mrm i (lms.map (fun m => (m, tau i m)))) := by
        rw [hget]
        exact hleaf i g hlf
      have hleafval : (if isIter then valueForRiskMeasureN (lms.map (fun m => (m, tau i m))) item
            else valueForRiskMeasure1 (lms.map (fun m => (m, tau i m))) (item.headD 0)).map
            (fun kv => (kv.1, RV.pf kv.2))
          = (measureFilter item isIter lms).map (fun m => (m, RV.pf (tau i m))) := by
        cases isIter
        · simp only [valueForRiskMeasureN, valueForRiskMeasure1, measureFilter,
            Bool.false_eq_true, if_false]
          rw [filter_graph (fun m => tau i m) (fun m => m == item.headD 0) lms,
            map_pf_graph]
        · simp only [valueForRiskMeasureN, valueForRiskMeasure1, measureFilter, if_true]
          rw [filter_graph (fun m => tau i m) (fun m => item.contains m) lms,
            map_pf_graph]
      refine ⟨.mrmf i ((if isIter then valueForRiskMeasureN (lms.map (fun m => (m, tau i m))) item
            else valueForRiskMeasure1 (lms.map (fun m => (m, tau i m))) (item.headD 0)).map
            (fun kv => (kv.1, RV.pf kv.2))) :: nfs, ?_, ?_⟩
      · rw [sliceMeasuresList, sliceMeasuresEntry, except_bind_ok_left _ _ hr]
        show (do
          let rest2 ← sliceMeasuresList item isIter p ms fs rest
          Except.ok (RV.mrmf i ((if isIter then valueForRiskMeasureN (lms.map (fun m => (m, tau i m))) item
            else valueForRiskMeasure1 (lms.map (fun m => (m, tau i m))) (item.headD 0)).map
            (fun kv => (kv.1, RV.pf kv.2))) :: rest2) : Except PyErr (List RV)) = _
        rw [except_bind_ok_left _ _ hrest]
      · rw [shapeList]
        simp only [Bool.and_eq_true]
        refine ⟨?_, hshr⟩
        rw [shapeEntry, hleafval, canonLeaf]
        simp only [Bool.and_eq_true, beq_iff_eq]
        refine ⟨trivial, List.all_eq_true.2 ?_⟩
        intro m _
        simp only [Bool.and_eq_true, beq_iff_eq]
        exact hval i m
  | w, LFin, tau, exm, lms, ms, item, isIter, p, fs, hleaf, hval, hml, hitem,
      hshape, .port es :: rest, hsub => by
      rcases sliceMeasCanonW w LFin tau exm lms ms item isIter p fs hleaf hval hml
        hitem hshape rest (fun e he => hsub e (List.mem_cons_of_mem _ he)) with
        ⟨nfs, hrest, hshr⟩
      rcases shape_resolve_port_get w LFin ms p fs es hshape
        (hsub _ (List.mem_cons_self _ _)) with ⟨g, hge, hget⟩
      simp only [shapeEntry, Bool.and_eq_true] at hge
      cases hnf : nodeForm w g with
      | none => rw [hnf] at hge; simp at hge
      | some trip =>
          rw [hnf] at hge
          rcases trip with ⟨p2, ms2, fs2⟩
          simp only [Bool.and_eq_true] at hge
          have hp2 : p2 = es := (PEntry.beqList_iff p2 es).1 hge.2.1.1
          have hms2 : ms2 = ms := by simpa using hge.2.1.2
          have hres := nodeForm_result w g p2 ms2 fs2 hnf
          have hr : prrGetEntry p ms fs (.port es) = .ok (.prr es ms fs2) := by
            rw [hget, hres.1, hp2, hms2]
            exact pinStep_prr_multi ms es ms fs2 hml
          rcases sliceMeasCanonW w LFin tau exm lms ms item isIter es fs2 hleaf hval
            hml hitem hge.2.2 es (fun e he => he) with ⟨nfs2, hnested, hshn⟩
          have hentry : sliceMeasuresEntry item isIter p ms fs (.port es) =
              .ok (.prr es item nfs2) := by
            rw [sliceMeasuresEntry, except_bind_ok_left _ _ hr]
            show (if es = es then
                if (!item.all (fun m => ms.contains m)) = true then
                  Except.error (PyErr.valueError "not computed")
                else if (ms.length == 1) = true then Except.ok (RV.prr es ms fs2)
                else do
                  let nfs4 ← sliceMeasuresList item isIter es ms fs2 es
                  Except.ok (RV.prr es item nfs4)
              else Except.error (PyErr.runtimeError "result tree does not mirror the portfolio")) = _
            rw [if_pos rfl, hitem, hml]
            simp only [Bool.not_true]
            rw [if_neg (by simp), if_neg (by simp)]
            rw [except_bind_ok_left _ _ hnested]
          refine ⟨.prr es item nfs2 :: nfs, ?_, ?_⟩
          · rw [sliceMeasuresList, except_bind_ok_left _ _ hentry,
              except_bind_ok_left _ _ hrest]
          · rw [shapeList]
            simp only [Bool.and_eq_true]
            refine ⟨?_, hshr⟩
            rw [shapeEntry, nodeForm]
            simp only [Bool.and_eq_true, beq_self_eq_true, and_true]
            exact ⟨hge.1, (PEntry.beqList_iff es es).2 rfl, hshn⟩

end

/-- PortfolioRiskResult.__getitem__ with risk-measure key(s), generically over a
leaf shape that resolves to the mapping of per-leaf values tau. -/
theorem sliceMeasures_canonical_gen (w : Bool) (LFin : Nat → RV → Bool)
    (tau : Nat → Nat → RV) (exm : Nat) (lms ms item : List Nat) (isIter : Bool)
    (p : List PEntry) (fs : List RV)
    (hleaf : ∀ i g, LFin i g = true →
      pinStep ms none g.result = .ok (.mrm i (lms.map (fun m => (m, tau i m)))))
    (hval : ∀ i m, (tau i m).isVal = true ∧ (tau i m).exmOf = exm)
    (hml : (ms.length == 1) = false)
    (hitem : item.all (fun m => ms.contains m) = true)
    (hshape : shapeList w LFin ms p fs = true) :
    ∃ nfs, sliceMeasures p ms fs item isIter = .ok (.prr p item nfs) ∧
      shapeList false (canonLeaf tau exm (measureFilter item isIter lms))
        item p nfs = true := by
  rcases sliceMeasCanonW w LFin tau exm lms ms item isIter p fs hleaf hval hml hitem
    hshape p (fun e he => he) with ⟨nfs, hlist, hsh⟩
  refine ⟨nfs, ?_, hsh⟩
  rw [sliceMeasures, hitem]
  simp only [Bool.not_true]
  rw [if_neg (by simp), hml, if_neg (by simp)]
  rw [except_bind_ok_left _ _ hlist]


/-! Claim C5. -/

/-- C5: on a historical multi-measure canonical tree (every leaf value a dated
series over the same provenance, the probe date present everywhere), the three
index axes commute: all six orderings of tree[date], tree[instrument],
tree[risk_measure] resolve, and every ordering produces the same numeric payload
v i m — the orderings ending ...[measure][date] return the bare float
(pandas series.loc), the others a FloatWithInfo carrying that float, and python ==
compares a FloatWithInfo equal to its float. -/
theorem c5_index_order_commutes (s : Nat → Nat → List (Nat × Int)) (exm : Nat)
    (ms : List Nat) (p : List PEntry) (fs : List RV) (d : Nat) (v : Nat → Nat → Int)
    (hshape : shapeList false
      (canonLeaf (fun i m => RV.series (s i m) ⟨(s i m).map Prod.fst, exm⟩) exm ms)
      ms p fs = true)
    (hml2 : 2 ≤ ms.length) (hnd : ms.Nodup)
    (hlk : ∀ i2 m2, (s i2 m2).lookup d = some (v i2 m2))
    (i m : Nat) (hi : i ∈ PEntry.instrumentsList p) (hm : m ∈ ms) :
    chain3 (.prr p ms fs) (.date d) (.inst i) (.rm m) = .ok (.scalar (v i m) ⟨[d], exm⟩) ∧
    chain3 (.prr p ms fs) (.date d) (.rm m) (.inst i) = .ok (.scalar (v i m) ⟨[d], exm⟩) ∧
    chain3 (.prr p ms fs) (.inst i) (.date d) (.rm m) = .ok (.scalar (v i m) ⟨[d], exm⟩) ∧
    chain3 (.prr p ms fs) (.inst i) (.rm m) (.date d) = .ok (.num (v i m)) ∧
    chain3 (.prr p ms fs) (.rm m) (.inst i) (.date d) = .ok (.num (v i m)) ∧
    chain3 (.prr p ms fs) (.rm m) (.date d) (.inst i) = .ok (.scalar (v i m) ⟨[d], exm⟩) ∧
    numPayload (.scalar (v i m) ⟨[d], exm⟩) = some (v i m) ∧
    numPayload (.num (v i m)) = some (v i m) := by
  have hml : (ms.length == 1) = false := length_beq_one_false ms hml2
  have hitem1 : [m].all (fun m2 => ms.contains m2) = true := by
    rw [List.all_eq_true]
    intro m2 hm2
    rw [List.mem_singleton] at hm2
    subst hm2
    exact contains_of_mem _ _ hm
  have hmsF : measureFilter [m] false ms = [m] := by
    rw [measureFilter_single]
    exact filter_beq_of_nodup ms m hm hnd
  -- the date slice of the full tree
  have hleafD : ∀ i2 g,
      canonLeaf (fun i3 m3 => RV.series (s i3 m3) ⟨(s i3 m3).map Prod.fst, exm⟩) exm ms i2 g = true →
      ∃ out, (do
          let r ← pinStep ms none g.result
          (match r with
           | RV.mrm j vals => do
              let v2 ← mrmGetDate j vals d
              Except.ok (RV.pf v2)
           | RV.series s2 k => do
              let v2 ← valueForDate (.series s2 k) d
              Except.ok (RV.pf v2)
           | RV.prr _ _ _ =>
              Except.error (PyErr.runtimeError "result tree does not mirror the portfolio")
           | _ =>
              Except.error (PyErr.runtimeError "Can only index by date on historical results")) : Except PyErr RV) = .ok out ∧
        dateLeaf (fun i3 m3 => RV.scalar (v i3 m3) ⟨[d], exm⟩) ms i2 out = true := by
    intro i2 g hg
    rcases canonLeaf_dest _ exm ms i2 g hg with ⟨hgeq, _⟩
    have hpin : pinStep ms none g.result = .ok (.mrm i2 (ms.map (fun m3 =>
        (m3, RV.series (s i2 m3) ⟨(s i2 m3).map Prod.fst, exm⟩)))) := by
      rw [hgeq]
      show pinStep ms none (RV.mrm i2 (RV.resultPairs (ms.map (fun m3 =>
        (m3, RV.pf (RV.series (s i2 m3) ⟨(s i2 m3).map Prod.fst, exm⟩)))))) = _
      rw [resultPairs_map_pf, pinStep_mrm_multi _ _ _ hml]
    refine ⟨.pf (.mrm i2 (ms.map (fun m3 => (m3, RV.scalar (v i2 m3) ⟨[d], exm⟩)))),
      ?_, by simp [dateLeaf]⟩
    rw [except_bind_ok_left _ _ hpin]
    show (do
      let v2 ← mrmGetDate i2 (ms.map (fun m3 =>
        (m3, RV.series (s i2 m3) ⟨(s i2 m3).map Prod.fst, exm⟩))) d
      Except.ok (RV.pf v2) : Except PyErr RV) = _
    rw [mrmGetDate_graph i2 (fun m3 => s i2 m3) exm d (fun m3 => v i2 m3) ms
      (fun m3 _ => hlk i2 m3)]
    rfl
  obtain ⟨nfsD, hD, hshD⟩ := sliceDate_canonical_gen false
    (canonLeaf (fun i3 m3 => RV.series (s i3 m3) ⟨(s i3 m3).map Prod.fst, exm⟩) exm ms)
    (dateLeaf (fun i3 m3 => RV.scalar (v i3 m3) ⟨[d], exm⟩) ms) ms d p fs hleafD
    (fun p2 fs2 => pinStep_prr_multi ms p2 ms fs2 hml) hshape
  have hgD : getItem (.prr p ms fs) (.date d) = .ok (.prr p ms nfsD) := hD
  -- the measure slice of the full tree
  obtain ⟨nfs3, hM, hshM⟩ := sliceMeasures_canonical
    (fun i3 m3 => RV.series (s i3 m3) ⟨(s i3 m3).map Prod.fst, exm⟩) exm ms ms [m]
    false p fs hshape hml hitem1
  rw [hmsF] at hshM
  have hgM : getItem (.prr p ms fs) (.rm m) = .ok (.prr p [m] nfs3) := hM
  -- the measure slice of the date-sliced tree
  obtain ⟨nfs2, hDM, hshDM⟩ := sliceMeasures_canonical_gen true
    (dateLeaf (fun i3 m3 => RV.scalar (v i3 m3) ⟨[d], exm⟩) ms)
    (fun i3 m3 => RV.scalar (v i3 m3) ⟨[d], exm⟩) exm ms ms [m] false p nfsD
    (fun i2 g hg => by
      have hgeq : g = .pf (.mrm i2 (ms.map (fun m3 => (m3, RV.scalar (v i2 m3) ⟨[d], exm⟩)))) := by
        simpa [dateLeaf] using hg
      rw [hgeq]
      show pinStep ms none (RV.mrm i2 (ms.map (fun m3 => (m3, RV.scalar (v i2 m3) ⟨[d], exm⟩)))) = _
      rw [pinStep_mrm_multi _ _ _ hml])
    (fun i2 m2 => ⟨rfl, rfl⟩) hml hitem1 hshD
  rw [hmsF] at hshDM
  have hgDM : getItem (.prr p ms nfsD) (.rm m) = .ok (.prr p [m] nfs2) := hDM
  -- the date slice of the measure-sliced tree
  have hleaf4 : ∀ i2 g,
      canonLeaf (fun i3 m3 => RV.series (s i3 m3) ⟨(s i3 m3).map Prod.fst, exm⟩) exm [m] i2 g = true →
      ∃ out, (do
          let r ← pinStep [m] none g.result
          (match r with
           | RV.mrm j vals => do
              let v2 ← mrmGetDate j vals d
              Except.ok (RV.pf v2)
           | RV.series s2 k => do
              let v2 ← valueForDate (.series s2 k) d
              Except.ok (RV.pf v2)
           | RV.prr _ _ _ =>
              Except.error (PyErr.runtimeError "result tree does not mirror the portfolio")
           | _ =>
              Except.error (PyErr.runtimeError "Can only index by date on historical results")) : Except PyErr RV) = .ok out ∧
        dateLeaf1 (fun i3 => RV.scalar (v i3 m) ⟨[d], exm⟩) i2 out = true := by
    intro i2 g hg
    rcases canonLeaf_dest _ exm [m] i2 g hg with ⟨hgeq, _⟩
    have hpin : pinStep [m] none g.result =
        .ok (.series (s i2 m) ⟨(s i2 m).map Prod.fst, exm⟩) := by
      rw [hgeq]
      show pinStep [m] none (RV.mrm i2 (RV.resultPairs ([m].map (fun m3 =>
        (m3, RV.pf (RV.series (s i2 m3) ⟨(s i2 m3).map Prod.fst, exm⟩)))))) = _
      rw [resultPairs_map_pf, pinStep_mrm_single]
      simp
    refine ⟨.pf (.scalar (v i2 m) ⟨[d], exm⟩), ?_, by simp [dateLeaf1]⟩
    rw [except_bind_ok_left _ _ hpin]
    show (do
      let v2 ← valueForDate (.series (s i2 m) ⟨(s i2 m).map Prod.fst, exm⟩) d
      Except.ok (RV.pf v2) : Except PyErr RV) = _
    rw [valueForDate, hlk i2 m]
    rfl
  obtain ⟨nfs4, hMD, hshMD⟩ := sliceDate_canonical_gen false
    (canonLeaf (fun i3 m3 => RV.series (s i3 m3) ⟨(s i3 m3).map Prod.fst, exm⟩) exm [m])
    (dateLeaf1 (fun i3 => RV.scalar (v i3 m) ⟨[d], exm⟩)) [m] d p nfs3 hleaf4
    (fun p2 fs2 => pinStep_prr_single m p2 fs2) hshM
  have hgMD : getItem (.prr p [m] nfs3) (.date d) = .ok (.prr p [m] nfs4) := hMD
  -- leaf-level observations
  have hDi : getItem (.prr p ms nfsD) (.inst i) =
      .ok (.mrm i (ms.map (fun m3 => (m3, RV.scalar (v i m3) ⟨[d], exm⟩)))) :=
    getItem_inst_dateLeaf (fun i3 m3 => RV.scalar (v i3 m3) ⟨[d], exm⟩) ms ms p nfsD
      hshD hml i hi
  have hHi : getItem (.prr p ms fs) (.inst i) =
      .ok (.mrm i (ms.map (fun m3 =>
        (m3, RV.series (s i m3) ⟨(s i m3).map Prod.fst, exm⟩)))) :=
    getItem_inst_canonical _ exm ms ms p fs hshape hml i hi
  have hDMi : getItem (.prr p [m] nfs2) (.inst i) = .ok (.scalar (v i m) ⟨[d], exm⟩) :=
    getItem_inst_canonical_single (fun i3 m3 => RV.scalar (v i3 m3) ⟨[d], exm⟩) exm
      [m] m p nfs2 hshDM (List.mem_singleton.2 rfl) i hi
  have hMi : getItem (.prr p [m] nfs3) (.inst i) =
      .ok (.series (s i m) ⟨(s i m).map Prod.fst, exm⟩) :=
    getItem_inst_canonical_single (fun i3 m3 => RV.series (s i3 m3)
      ⟨(s i3 m3).map Prod.fst, exm⟩) exm [m] m p nfs3 hshM
      (List.mem_singleton.2 rfl) i hi
  have hMDi : getItem (.prr p [m] nfs4) (.inst i) = .ok (.scalar (v i m) ⟨[d], exm⟩) :=
    getItem_inst_dateLeaf1 (fun i3 => RV.scalar (v i3 m) ⟨[d], exm⟩) m p nfs4 hshMD
      (fun i3 => rfl) i hi
  have hmrmScal : getItem (.mrm i (ms.map (fun m3 =>
      (m3, RV.scalar (v i m3) ⟨[d], exm⟩)))) (.rm m) = .ok (.scalar (v i m) ⟨[d], exm⟩) := by
    show mrmGetMeasure (ms.map (fun m3 => (m3, RV.scalar (v i m3) ⟨[d], exm⟩))) m = _
    rw [mrmGetMeasure, lookup_graph, if_pos hm]
  have hmrmSer : getItem (.mrm i (ms.map (fun m3 =>
      (m3, RV.series (s i m3) ⟨(s i m3).map Prod.fst, exm⟩)))) (.rm m)
      = .ok (.series (s i m) ⟨(s i m).map Prod.fst, exm⟩) := by
    show mrmGetMeasure (ms.map (fun m3 =>
      (m3, RV.series (s i m3) ⟨(s i m3).map Prod.fst, exm⟩))) m = _
    rw [mrmGetMeasure, lookup_graph, if_pos hm]
  have hmrmDate : getItem (.mrm i (ms.map (fun m3 =>
      (m3, RV.series (s i m3) ⟨(s i m3).map Prod.fst, exm⟩)))) (.date d)
      = .ok (.mrm i (ms.map (fun m3 => (m3, RV.scalar (v i m3) ⟨[d], exm⟩)))) := by
    show mrmGetDate i (ms.map (fun m3 =>
      (m3, RV.series (s i m3) ⟨(s i m3).map Prod.fst, exm⟩))) d = _
    exact mrmGetDate_graph i (fun m3 => s i m3) exm d (fun m3 => v i m3) ms
      (fun m3 _ => hlk i m3)
  have hserDate : getItem (.series (s i m) ⟨(s i m).map Prod.fst, exm⟩) (.date d)
      = .ok (.num (v i m)) := by
    show (match (s i m).lookup d with
      | some v2 => Except.ok (RV.num v2)
      | none => Except.error (PyErr.keyError "date not in index")) = _
    rw [hlk i m]
  refine ⟨?_, ?_, ?_, ?_, ?_, ?_, rfl, rfl⟩
  · rw [chain3, except_bind_ok_left _ _ hgD, except_bind_ok_left _ _ hDi]
    exact hmrmScal
  · rw [chain3, except_bind_ok_left _ _ hgD, except_bind_ok_left _ _ hgDM]
    exact hDMi
  · rw [chain3, except_bind_ok_left _ _ hHi, except_bind_ok_left _ _ hmrmDate]
    exact hmrmScal
  · rw [chain3, except_bind_ok_left _ _ hHi, except_bind_ok_left _ _ hmrmSer]
    exact hserDate
  · rw [chain3, except_bind_ok_left _ _ hgM, except_bind_ok_left _ _ hMi]
    exact hserDate
  · rw [chain3, except_bind_ok_left _ _ hgM, except_bind_ok_left _ _ hgMD]
    exact hMDi


/-- C5 witness: a nested two-instrument historical tree with measures {1, 2} over
dates {5, 6}, probed at instrument 1, measure 2, date 5. -/
theorem c5_witness :
    chain3 (.prr [.inst 0, .port [.inst 1]] [1, 2]
        [.mrmf 0 [(1, .pf (.series [(5, 10), (6, 11)] ⟨[5, 6], 7⟩)),
                  (2, .pf (.series [(5, 20), (6, 21)] ⟨[5, 6], 7⟩))],
         .prr [.inst 1] [1, 2]
           [.mrmf 1 [(1, .pf (.series [(5, 110), (6, 111)] ⟨[5, 6], 7⟩)),
                     (2, .pf (.series [(5, 120), (6, 121)] ⟨[5, 6], 7⟩))]]])
      (.date 5) (.inst 1) (.rm 2) = .ok (.scalar 120 ⟨[5], 7⟩) ∧
    chain3 (.prr [.inst 0, .port [.inst 1]] [1, 2]
        [.mrmf 0 [(1, .pf (.series [(5, 10), (6, 11)] ⟨[5, 6], 7⟩)),
                  (2, .pf (.series [(5, 20), (6, 21)] ⟨[5, 6], 7⟩))],
         .prr [.inst 1] [1, 2]
           [.mrmf 1 [(1, .pf (.series [(5, 110), (6, 111)] ⟨[5, 6], 7⟩)),
                     (2, .pf (.series [(5, 120), (6, 121)] ⟨[5, 6], 7⟩))]]])
      (.date 5) (.rm 2) (.inst 1) = .ok (.scalar 120 ⟨[5], 7⟩) ∧
    chain3 (.prr [.inst 0, .port [.inst 1]] [1, 2]
        [.mrmf 0 [(1, .pf (.series [(5, 10), (6, 11)] ⟨[5, 6], 7⟩)),
                  (2, .pf (.series [(5, 20), (6, 21)] ⟨[5, 6], 7⟩))],
         .prr [.inst 1] [1, 2]
           [.mrmf 1 [(1, .pf (.series [(5, 110), (6, 111)] ⟨[5, 6], 7⟩)),
                     (2, .pf (.series [(5, 120), (6, 121)] ⟨[5, 6], 7⟩))]]])
      (.inst 1) (.date 5) (.rm 2) = .ok (.scalar 120 ⟨[5], 7⟩) ∧
    chain3 (.prr [.inst 0, .port [.inst 1]] [1, 2]
        [.mrmf 0 [(1, .pf (.series [(5, 10), (6, 11)] ⟨[5, 6], 7⟩)),
                  (2, .pf (.series [(5, 20), (6, 21)] ⟨[5, 6], 7⟩))],
         .prr [.inst 1] [1, 2]
           [.mrmf 1 [(1, .pf (.series [(5, 110), (6, 111)] ⟨[5, 6], 7⟩)),
                     (2, .pf (.series [(5, 120), (6, 121)] ⟨[5, 6], 7⟩))]]])
      (.inst 1) (.rm 2) (.date 5) = .ok (.num 120) ∧
    chain3 (.prr [.inst 0, .port [.inst 1]] [1, 2]
        [.mrmf 0 [(1, .pf (.series [(5, 10), (6, 11)] ⟨[5, 6], 7⟩)),
                  (2, .pf (.series [(5, 20), (6, 21)] ⟨[5, 6], 7⟩))],
         .prr [.inst 1] [1, 2]
           [.mrmf 1 [(1, .pf (.series [(5, 110), (6, 111)] ⟨[5, 6], 7⟩)),
                     (2, .pf (.series [(5, 120), (6, 121)] ⟨[5, 6], 7⟩))]]])
      (.rm 2) (.inst 1) (.date 5) = .ok (.num 120) ∧
    chain3 (.prr [.inst 0, .port [.inst 1]] [1, 2]
        [.mrmf 0 [(1, .pf (.series [(5, 10), (6, 11)] ⟨[5, 6], 7⟩)),
                  (2, .pf (.series [(5, 20), (6, 21)] ⟨[5, 6], 7⟩))],
         .prr [.inst 1] [1, 2]
           [.mrmf 1 [(1, .pf (.series [(5, 110), (6, 111)] ⟨[5, 6], 7⟩)),
                     (2, .pf (.series [(5, 120), (6, 121)] ⟨[5, 6], 7⟩))]]])
      (.rm 2) (.date 5) (.inst 1) = .ok (.scalar 120 ⟨[5], 7⟩) ∧
    numPayload (.scalar 120 ⟨[5], 7⟩) = some 120 ∧
    numPayload (.num 120) = some 120 := by
  have h := c5_index_order_commutes
    (fun i m => [(5, Int.ofNat (100 * i + 10 * m)), (6, Int.ofNat (100 * i + 10 * m + 1))])
    7 [1, 2] [.inst 0, .port [.inst 1]]
    [.mrmf 0 [(1, .pf (.series [(5, 10), (6, 11)] ⟨[5, 6], 7⟩)),
              (2, .pf (.series [(5, 20), (6, 21)] ⟨[5, 6], 7⟩))],
     .prr [.inst 1] [1, 2]
       [.mrmf 1 [(1, .pf (.series [(5, 110), (6, 111)] ⟨[5, 6], 7⟩)),
                 (2, .pf (.series [(5, 120), (6, 121)] ⟨[5, 6], 7⟩))]]]
    5 (fun i m => Int.ofNat (100 * i + 10 * m))
    (by decide) (by decide) (by decide)
    (fun i2 m2 => by rw [lookup_cons_eq, if_pos rfl])
    1 2 (by decide) (by decide)
  exact h

end GsQuant
